import Mathlib

/-!
# RANLUX++ : the generator engine of `src/ranluxpp.cxx`

A shallow embedding of the linear congruential generator
`x <- x * A mod m`, `m = 2^576 - 2^240 + 1`, working on nine 64-bit limbs.

* A nine-limb number is a `List Nat`, least significant limb first; a limb of
  the C code is a `uint64_t`, so a well-formed limb list has nine entries
  below `2^64` (`WellFormed`).
* `mul9x9mod` is declared in `mulmod.h`; every function that calls it takes
  the primitive as its first argument `mul`, and theorems that depend on what
  it computes assume its contract (`MulContract`).
* `float` and `double` values are exact rationals: every value the code builds
  is a dyadic rational that the floating-point format represents exactly.
* An entry of `_floats` / `_doubles` is an `Option ℚ`; `none` is a slot that
  has never been written.
* The operands of the calls of `mul9x9mod` and the buffer indices read by
  `getarray` are listed by trace functions that follow the control flow of the
  code (`powmodLoopCalls`, `getarray_float_calls`, `getarray_float_reads`, ...).
* Large modular powers are evaluated by `powModAux`; the primality of `m` and
  the order of the multipliers come from Lucas tests on the factorisation of
  `m - 1` (`lucasCheck`, `lucas_of_check`).
-/

set_option exponentiation.threshold 4096

namespace Ranluxpp

/-- Nine 64-bit limbs, least significant first (`uint64_t[9]`). -/
abbrev Limbs := List Nat

/-- The modulus `m = 2^576 - 2^240 + 1` of the recurrence. -/
def modulus : Nat := 2 ^ 576 - 2 ^ 240 + 1

/-- The integer a limb list denotes: `sum of limb_i * 2^(64 i)`. -/
def limbsVal : Limbs → Nat
  | [] => 0
  | l :: ls => l + 2 ^ 64 * limbsVal ls

/-- The nine limbs of a number below `2^576`. -/
def toLimbs (v : Nat) : Limbs :=
  (List.range 9).map fun i => v / (2 ^ 64) ^ i % 2 ^ 64

/-- What the type `uint64_t[9]` guarantees: nine limbs, each below `2^64`. -/
def WellFormed (x : Limbs) : Prop := x.length = 9 ∧ ∀ l ∈ x, l < 2 ^ 64

/-- A residue: a well-formed limb list whose value lies in `[0, m)`. -/
def Residue (x : Limbs) : Prop := WellFormed x ∧ limbsVal x < modulus

instance (x : Limbs) : Decidable (WellFormed x) := by
  unfold WellFormed; infer_instance

instance (x : Limbs) : Decidable (Residue x) := by
  unfold Residue; infer_instance

/-- Modelled from the spec: `mul9x9mod` (declared in `mulmod.h`, which is not
among the sources). The spec gives it as `multiplyMod(x, a) → x·a mod m`,
operating in place on the first operand. -/
def mul9x9mod (r y : Limbs) : Limbs :=
  toLimbs (limbsVal r * limbsVal y % modulus)

/-- The contract of the multiplication primitive: on residues it returns the
residue `r * y mod m`. Nothing is assumed for operands outside `[0, m)`. -/
def MulContract (mul : Limbs → Limbs → Limbs) : Prop :=
  ∀ r y, Residue r → Residue y →
    Residue (mul r y) ∧ limbsVal (mul r y) = limbsVal r * limbsVal y % modulus

/-- The initial value of `res` in `powmod` and of `_x` in the constructor:
`res[0] = 1`, `res[i] = 0` for `1 <= i < 9`. -/
def one9 : Limbs := 1 :: List.replicate 8 0

/-- The `while(n)` loop of `powmod`, on the triple `(res, x, n)`. One unit of
fuel is one pass through the loop body; the triple is returned when the loop
leaves (by `while(n)` or by `break`, both with `n = 0`) or the fuel is used up. -/
def powmodLoop (mul : Limbs → Limbs → Limbs) : Nat → Limbs → Limbs → Nat → Limbs × Limbs × Nat
  | 0, res, x, n => (res, x, n)
  | fuel + 1, res, x, n =>
    if n ≠ 0 then
      let res := if n &&& 1 ≠ 0 then mul res x else res
      let n := n >>> 1
      if n = 0 then (res, x, n)
      else powmodLoop mul fuel res (mul x x) n
    else (res, x, n)

/-- `powmod(x, n)`: the new contents of `x`. The exponent is an
`unsigned long` (64 bits), so the loop body runs at most 64 times. -/
def powmod (mul : Limbs → Limbs → Limbs) (x : Limbs) (n : Nat) : Limbs :=
  (powmodLoop mul 64 one9 x n).1

/-- `ranluxpp::geta()`: the fixed base `a`. -/
def geta : Limbs :=
  [0x0000000000000001, 0x0000000000000000, 0x0000000000000000,
   0xffff000001000000, 0xffffffffffffffff, 0xffffffffffffffff,
   0xffffffffffffffff, 0xffffffffffffffff, 0xfffffeffffffffff]

/-- The data members of `class ranluxpp` that `ranluxpp.cxx` uses. -/
structure ranluxpp where
  _x : Limbs
  _A : Limbs
  _doubles : List (Option ℚ)
  _floats : List (Option ℚ)
  _dpos : Int
  _fpos : Int
deriving DecidableEq

/-- `ranluxpp::init(seed)`. -/
def ranluxpp.init (mul : Limbs → Limbs → Limbs) (g : ranluxpp) (seed : Nat) : ranluxpp :=
  let a := g._A
  let a := powmod mul a (1 <<< 48)
  let a := powmod mul a (1 <<< 48)
  let a := powmod mul a seed
  { g with _x := mul g._x a }

/-- `ranluxpp::ranluxpp(seed, p)`. The two field buffers are not initialised
by the constructor. -/
def ranluxpp.ctor (mul : Limbs → Limbs → Limbs) (seed p : Nat) : ranluxpp :=
  let g : ranluxpp :=
    { _x := one9, _A := powmod mul geta p,
      _doubles := List.replicate 11 none, _floats := List.replicate 24 none,
      _dpos := 11, _fpos := 24 }
  g.init mul seed

/-- `ranluxpp::nextstate()`. -/
def ranluxpp.nextstate (mul : Limbs → Limbs → Limbs) (g : ranluxpp) : ranluxpp :=
  { g with _x := mul g._x g._A }

/-- The conversion `(int32_t)v` of a 64-bit unsigned value. -/
def toInt32 (v : Nat) : Int :=
  if v % 2 ^ 32 < 2 ^ 31 then (v % 2 ^ 32 : Nat) else (v % 2 ^ 32 : Nat) - 2 ^ 32

/-- The shift `v << s` of a `uint64_t`. -/
def shl64 (v s : Nat) : Nat := (v <<< s) % 2 ^ 64

/-- The eight floats `unpackfloats` writes for the limb group `i`
(`t = _x + i*3`, `f = a + 8*i`). -/
def unpackfloatsGroup (x : Limbs) (i : Nat) : List ℚ :=
  let m : Nat := 0xffffff
  let sc : ℚ := 1 / 2 ^ 24
  let t : Nat → Nat := fun j => x.getD (i * 3 + j) 0
  [ sc * toInt32 (m &&& t 0),
    sc * toInt32 (m &&& (t 0 >>> 24)),
    sc * toInt32 (m &&& ((t 0 >>> 48) ||| shl64 (t 1) 16)),
    sc * toInt32 (m &&& (t 1 >>> 8)),
    sc * toInt32 (m &&& (t 1 >>> 32)),
    sc * toInt32 (m &&& ((t 1 >>> 56) ||| shl64 (t 2) 8)),
    sc * toInt32 (m &&& (t 2 >>> 16)),
    sc * toInt32 (m &&& (t 2 >>> 40)) ]

/-- `ranluxpp::unpackfloats(a)`: the 24 values written to `a[0..23]`, read
from the state `x`. -/
def unpackfloats (x : Limbs) : List ℚ :=
  unpackfloatsGroup x 0 ++ unpackfloatsGroup x 1 ++ unpackfloatsGroup x 2

/-- The eleven 64-bit patterns `id[0..10]` that `unpackdoubles` builds. -/
def unpackdoublesBits (x : Limbs) : List Nat :=
  let one : Nat := 0x3ff0000000000000
  let m : Nat := 0x000fffffffffffff
  let X : Nat → Nat := fun j => x.getD j 0
  [ one ||| (m &&& X 0),
    one ||| (m &&& ((X 0 >>> 52) ||| shl64 (X 1) 12)),
    one ||| (m &&& ((X 1 >>> 40) ||| shl64 (X 2) 24)),
    one ||| (m &&& ((X 2 >>> 28) ||| shl64 (X 3) 36)),
    one ||| (m &&& ((X 3 >>> 16) ||| shl64 (X 4) 48)),
    one ||| (m &&& ((X 4 >>> 4) ||| shl64 (X 5) 60)),
    one ||| (m &&& ((X 4 >>> 56) ||| shl64 (X 5) 8)),
    one ||| (m &&& ((X 5 >>> 44) ||| shl64 (X 6) 20)),
    one ||| (m &&& ((X 6 >>> 32) ||| shl64 (X 7) 32)),
    one ||| (m &&& ((X 7 >>> 20) ||| shl64 (X 8) 44)),
    one ||| (m &&& (X 8 >>> 8)) ]

/-- The value of the IEEE-754 binary64 number with bit pattern `b`
(sign bit 63, exponent bits 52..62, fraction bits 0..51), for finite
patterns. -/
def doubleOfBits (b : Nat) : ℚ :=
  let s : Nat := b / 2 ^ 63 % 2
  let e : Nat := b / 2 ^ 52 % 2 ^ 11
  let f : Nat := b % 2 ^ 52
  let mag : ℚ := if e = 0 then (f : ℚ) / 2 ^ 1074 else (1 + (f : ℚ) / 2 ^ 52) * 2 ^ ((e : Int) - 1023)
  if s = 1 then -mag else mag

/-- `ranluxpp::unpackdoubles(d)`: the 11 values left in `d[0..10]`. Each is a
double in `[1, 2)` minus `1`, a difference that binary64 represents exactly. -/
def unpackdoubles (x : Limbs) : List ℚ :=
  (unpackdoublesBits x).map fun b => doubleOfBits b - 1

/-- `ranluxpp::nextfloats()`. -/
def ranluxpp.nextfloats (mul : Limbs → Limbs → Limbs) (g : ranluxpp) : ranluxpp :=
  let g := g.nextstate mul
  { g with _floats := (unpackfloats g._x).map some, _fpos := 0 }

/-- `ranluxpp::nextdoubles()`. -/
def ranluxpp.nextdoubles (mul : Limbs → Limbs → Limbs) (g : ranluxpp) : ranluxpp :=
  let g := g.nextstate mul
  { g with _doubles := (unpackdoubles g._x).map some, _dpos := 0 }

/-- The read `f[i]` of a field buffer at the `int` index `i`; an index outside
the buffer yields no defined value. -/
def readBuf (buf : List (Option ℚ)) (i : Int) : Option ℚ :=
  if 0 ≤ i then buf.getD i.toNat none else none

/-- The copy loop `for(int i=0;i<cnt;i++) a[i] = f[i]` with `f = buf + pos`:
the values written, in order. -/
def copyOut (buf : List (Option ℚ)) (pos cnt : Int) : List (Option ℚ) :=
  (List.range cnt.toNat).map fun (i : Nat) => readBuf buf (pos + (i : Int))

/-- The loop `while(n>=24)` of `getarray(int, float*)` on the generator, the
remaining count and the values written so far. One unit of fuel is one pass. -/
def floatsLoop (mul : Limbs → Limbs → Limbs) :
    Nat → ranluxpp → Int → List (Option ℚ) → ranluxpp × Int × List (Option ℚ)
  | 0, g, n, out => (g, n, out)
  | fuel + 1, g, n, out =>
    if n ≥ 24 then
      let g := g.nextstate mul
      floatsLoop mul fuel g (n - 24) (out ++ (unpackfloats g._x).map some)
    else (g, n, out)

/-- `ranluxpp::getarray(int n, float *a)`: the new generator and the values
written to `a[0], a[1], ...` in this order. -/
def ranluxpp.getarray_float (mul : Limbs → Limbs → Limbs) (g : ranluxpp) (n : Int) :
    ranluxpp × List (Option ℚ) :=
  let (g, n, out) :=
    if g._fpos < 24 then
      let rest := 24 - g._fpos
      let rest := if rest < n then rest else n
      ({ g with _fpos := g._fpos + rest }, n - rest, copyOut g._floats g._fpos rest)
    else (g, n, [])
  let (g, n, out) := floatsLoop mul n.toNat g n out
  if n ≠ 0 then
    let g := g.nextfloats mul
    ({ g with _fpos := n }, out ++ copyOut g._floats 0 n)
  else (g, out)

/-- The loop `while(n>=11)` of `getarray(int, double*)`. -/
def doublesLoop (mul : Limbs → Limbs → Limbs) :
    Nat → ranluxpp → Int → List (Option ℚ) → ranluxpp × Int × List (Option ℚ)
  | 0, g, n, out => (g, n, out)
  | fuel + 1, g, n, out =>
    if n ≥ 11 then
      let g := g.nextstate mul
      doublesLoop mul fuel g (n - 11) (out ++ (unpackdoubles g._x).map some)
    else (g, n, out)

/-- `ranluxpp::getarray(int n, double *a)`: the new generator and the values
written to `a[0], a[1], ...` in this order. -/
def ranluxpp.getarray_double (mul : Limbs → Limbs → Limbs) (g : ranluxpp) (n : Int) :
    ranluxpp × List (Option ℚ) :=
  let (g, n, out) :=
    if g._dpos < 11 then
      let rest := 11 - g._dpos
      let rest := if rest < n then rest else n
      ({ g with _dpos := g._dpos + rest }, n - rest, copyOut g._doubles g._dpos rest)
    else (g, n, [])
  let (g, n, out) := doublesLoop mul n.toNat g n out
  if n ≠ 0 then
    let g := g.nextdoubles mul
    ({ g with _dpos := n }, out ++ copyOut g._doubles 0 n)
  else (g, out)

/-- `ranluxpp::primitive()`; `_A[0] += 13` is a 64-bit addition on limb 0. -/
def ranluxpp.primitive (mul : Limbs → Limbs → Limbs) (g : ranluxpp) : ranluxpp :=
  let A := powmod mul geta 2048
  { g with _A := A.set 0 ((A.getD 0 0 + 13) % 2 ^ 64) }

/-- `ranluxpp::jump(n)`. -/
def ranluxpp.jump (mul : Limbs → Limbs → Limbs) (g : ranluxpp) (n : Nat) : ranluxpp :=
  let a := powmod mul geta n
  { g with _x := mul g._x a }

/-- `ranluxpp::setskip(n)`. -/
def ranluxpp.setskip (mul : Limbs → Limbs → Limbs) (g : ranluxpp) (n : Nat) : ranluxpp :=
  { g with _A := powmod mul geta n }

/-- One precision of the bulk reader taken alone: the state `x`, the field
buffer of that precision and its cursor. Both `getarray` overloads are this
reader with batch size 24 or 11 (`getarray_float_eq`, `getarray_double_eq`). -/
structure Reader where
  x : Limbs
  buf : List (Option ℚ)
  pos : Int
deriving DecidableEq

/-- The bulk loop `while(n>=B)` on a `Reader`; `step` is the state advance
and `unpack` the field extraction. -/
def readLoop (B : Nat) (step : Limbs → Limbs) (unpack : Limbs → List ℚ) :
    Nat → Reader → Int → List (Option ℚ) → Reader × Int × List (Option ℚ)
  | 0, r, n, out => (r, n, out)
  | fuel + 1, r, n, out =>
    if n ≥ (B : Int) then
      let x := step r.x
      readLoop B step unpack fuel { r with x := x } (n - B) (out ++ (unpack x).map some)
    else (r, n, out)

/-- The three phases of `getarray` (drain, bulk, tail) on a `Reader`. -/
def read (B : Nat) (step : Limbs → Limbs) (unpack : Limbs → List ℚ) (r : Reader) (n : Int) :
    Reader × List (Option ℚ) :=
  let (r, n, out) :=
    if r.pos < (B : Int) then
      let rest := (B : Int) - r.pos
      let rest := if rest < n then rest else n
      ({ r with pos := r.pos + rest }, n - rest, copyOut r.buf r.pos rest)
    else (r, n, [])
  let (r, n, out) := readLoop B step unpack n.toNat r n out
  if n ≠ 0 then
    let x := step r.x
    let buf := (unpack x).map some
    ({ x := x, buf := buf, pos := n }, out ++ copyOut buf 0 n)
  else (r, out)

/-- The float side of a generator as a `Reader`. -/
def ranluxpp.floatReader (g : ranluxpp) : Reader := ⟨g._x, g._floats, g._fpos⟩

/-- The double side of a generator as a `Reader`. -/
def ranluxpp.doubleReader (g : ranluxpp) : Reader := ⟨g._x, g._doubles, g._dpos⟩

/-- Put a float-side `Reader` back into a generator. -/
def ranluxpp.withFloatReader (g : ranluxpp) (r : Reader) : ranluxpp :=
  { g with _x := r.x, _floats := r.buf, _fpos := r.pos }

/-- Put a double-side `Reader` back into a generator. -/
def ranluxpp.withDoubleReader (g : ranluxpp) (r : Reader) : ranluxpp :=
  { g with _x := r.x, _doubles := r.buf, _dpos := r.pos }

/-- Two readers that no later read can tell apart: the same state, the same
cursor, and the same buffered fields from the cursor on. -/
def Reader.Equiv (B : Nat) (r s : Reader) : Prop :=
  r.x = s.x ∧ r.pos = s.pos ∧ ∀ i : Int, r.pos ≤ i → i < B → readBuf r.buf i = readBuf s.buf i

/-- The cursor is in `[0, B]` and every buffered field from the cursor on has
been written with a value satisfying `P`. -/
def Reader.Good (B : Nat) (P : ℚ → Prop) (r : Reader) : Prop :=
  0 ≤ r.pos ∧ r.pos ≤ B ∧ ∀ i : Int, r.pos ≤ i → i < B → ∃ q, readBuf r.buf i = some q ∧ P q

/-- The generator states the API can produce: the constructor followed by any
finite sequence of calls. Seeds, skip exponents and jump lengths are 64-bit;
read counts are non-negative `int`s. -/
inductive Reachable (mul : Limbs → Limbs → Limbs) : ranluxpp → Prop
  | ctor (seed p : Nat) : seed < 2 ^ 64 → p < 2 ^ 64 → Reachable mul (ranluxpp.ctor mul seed p)
  | getarray_float (g : ranluxpp) (n : Int) :
      Reachable mul g → 0 ≤ n → n < 2 ^ 31 → Reachable mul (g.getarray_float mul n).1
  | getarray_double (g : ranluxpp) (n : Int) :
      Reachable mul g → 0 ≤ n → n < 2 ^ 31 → Reachable mul (g.getarray_double mul n).1
  | jump (g : ranluxpp) (n : Nat) : Reachable mul g → n < 2 ^ 64 → Reachable mul (g.jump mul n)
  | setskip (g : ranluxpp) (n : Nat) :
      Reachable mul g → n < 2 ^ 64 → Reachable mul (g.setskip mul n)
  | primitive (g : ranluxpp) : Reachable mul g → Reachable mul (g.primitive mul)

/-- A value `k / 2^w` with `0 <= k < 2^w`. -/
def IsField (w : Nat) (q : ℚ) : Prop := ∃ k : Nat, k < 2 ^ w ∧ q = (k : ℚ) / 2 ^ w

/-- The generator states the API can produce without `primitive()`: the
constructor followed by any finite sequence of `getarray`, `jump` and
`setskip` calls. -/
inductive ReachableNoPrimitive (mul : Limbs → Limbs → Limbs) : ranluxpp → Prop
  | ctor (seed p : Nat) :
      seed < 2 ^ 64 → p < 2 ^ 64 → ReachableNoPrimitive mul (ranluxpp.ctor mul seed p)
  | getarray_float (g : ranluxpp) (n : Int) :
      ReachableNoPrimitive mul g → 0 ≤ n → n < 2 ^ 31 →
        ReachableNoPrimitive mul (g.getarray_float mul n).1
  | getarray_double (g : ranluxpp) (n : Int) :
      ReachableNoPrimitive mul g → 0 ≤ n → n < 2 ^ 31 →
        ReachableNoPrimitive mul (g.getarray_double mul n).1
  | jump (g : ranluxpp) (n : Nat) :
      ReachableNoPrimitive mul g → n < 2 ^ 64 → ReachableNoPrimitive mul (g.jump mul n)
  | setskip (g : ranluxpp) (n : Nat) :
      ReachableNoPrimitive mul g → n < 2 ^ 64 → ReachableNoPrimitive mul (g.setskip mul n)

/-- The buffer indices `pos + i`, `0 <= i < cnt`, at which the copy loop
`for(int i=0;i<cnt;i++) a[i] = f[i]` with `f = buf + pos` reads. -/
def copyIdx (pos cnt : Int) : List Int :=
  (List.range cnt.toNat).map fun (i : Nat) => pos + (i : Int)

/-- The indices of `_floats` that `getarray(int n, float *a)` reads, in
order: those of the prologue copy and those of the tail copy. -/
def ranluxpp.getarray_float_reads (mul : Limbs → Limbs → Limbs) (g : ranluxpp) (n : Int) :
    List Int :=
  let (g, n, idx) :=
    if g._fpos < 24 then
      let rest := 24 - g._fpos
      let rest := if rest < n then rest else n
      ({ g with _fpos := g._fpos + rest }, n - rest, copyIdx g._fpos rest)
    else (g, n, [])
  let (_, n, _) := floatsLoop mul n.toNat g n []
  if n ≠ 0 then idx ++ copyIdx 0 n else idx

/-- The indices of `_doubles` that `getarray(int n, double *a)` reads, in
order: those of the prologue copy and those of the tail copy. -/
def ranluxpp.getarray_double_reads (mul : Limbs → Limbs → Limbs) (g : ranluxpp) (n : Int) :
    List Int :=
  let (g, n, idx) :=
    if g._dpos < 11 then
      let rest := 11 - g._dpos
      let rest := if rest < n then rest else n
      ({ g with _dpos := g._dpos + rest }, n - rest, copyIdx g._dpos rest)
    else (g, n, [])
  let (_, n, _) := doublesLoop mul n.toNat g n []
  if n ≠ 0 then idx ++ copyIdx 0 n else idx

/-- The range part of the contract of the multiplication primitive: on
residues it returns a residue. Nothing is said about which one. -/
def MulRange (mul : Limbs → Limbs → Limbs) : Prop :=
  ∀ r y, Residue r → Residue y → Residue (mul r y)

/-- The operand pairs `(r, y)` of the calls `mul9x9mod(r, y)` that the loop of
`powmod` makes, in order. -/
def powmodLoopCalls (mul : Limbs → Limbs → Limbs) :
    Nat → Limbs → Limbs → Nat → List (Limbs × Limbs)
  | 0, _, _, _ => []
  | fuel + 1, res, x, n =>
    if n ≠ 0 then
      let calls := if n &&& 1 ≠ 0 then [(res, x)] else []
      let res := if n &&& 1 ≠ 0 then mul res x else res
      let n := n >>> 1
      if n = 0 then calls
      else calls ++ (x, x) :: powmodLoopCalls mul fuel res (mul x x) n
    else []

/-- The calls of `mul9x9mod` that `powmod(x, n)` makes. -/
def powmodCalls (mul : Limbs → Limbs → Limbs) (x : Limbs) (n : Nat) : List (Limbs × Limbs) :=
  powmodLoopCalls mul 64 one9 x n

/-- The calls of `mul9x9mod` that `init(seed)` makes. -/
def ranluxpp.init_calls (mul : Limbs → Limbs → Limbs) (g : ranluxpp) (seed : Nat) :
    List (Limbs × Limbs) :=
  let a := g._A
  let c1 := powmodCalls mul a (1 <<< 48)
  let a := powmod mul a (1 <<< 48)
  let c2 := powmodCalls mul a (1 <<< 48)
  let a := powmod mul a (1 <<< 48)
  let c3 := powmodCalls mul a seed
  let a := powmod mul a seed
  c1 ++ c2 ++ c3 ++ [(g._x, a)]

/-- The calls of `mul9x9mod` that the constructor makes. -/
def ranluxpp.ctor_calls (mul : Limbs → Limbs → Limbs) (seed p : Nat) : List (Limbs × Limbs) :=
  let g : ranluxpp :=
    { _x := one9, _A := powmod mul geta p,
      _doubles := List.replicate 11 none, _floats := List.replicate 24 none,
      _dpos := 11, _fpos := 24 }
  powmodCalls mul geta p ++ g.init_calls mul seed

/-- The calls of `mul9x9mod` (one per `nextstate()`) that the loop
`while(n>=24)` of `getarray(int, float*)` makes. -/
def floatsLoopCalls (mul : Limbs → Limbs → Limbs) : Nat → ranluxpp → Int → List (Limbs × Limbs)
  | 0, _, _ => []
  | fuel + 1, g, n =>
    if n ≥ 24 then (g._x, g._A) :: floatsLoopCalls mul fuel (g.nextstate mul) (n - 24)
    else []

/-- The calls of `mul9x9mod` that `getarray(int n, float *a)` makes: those of
the bulk loop and the one of `nextfloats()` in the tail. -/
def ranluxpp.getarray_float_calls (mul : Limbs → Limbs → Limbs) (g : ranluxpp) (n : Int) :
    List (Limbs × Limbs) :=
  let (g, n) :=
    if g._fpos < 24 then
      let rest := 24 - g._fpos
      let rest := if rest < n then rest else n
      ({ g with _fpos := g._fpos + rest }, n - rest)
    else (g, n)
  let calls := floatsLoopCalls mul n.toNat g n
  let (g, n, _) := floatsLoop mul n.toNat g n []
  if n ≠ 0 then calls ++ [(g._x, g._A)] else calls

/-- The calls of `mul9x9mod` that the loop `while(n>=11)` of
`getarray(int, double*)` makes. -/
def doublesLoopCalls (mul : Limbs → Limbs → Limbs) : Nat → ranluxpp → Int → List (Limbs × Limbs)
  | 0, _, _ => []
  | fuel + 1, g, n =>
    if n ≥ 11 then (g._x, g._A) :: doublesLoopCalls mul fuel (g.nextstate mul) (n - 11)
    else []

/-- The calls of `mul9x9mod` that `getarray(int n, double *a)` makes. -/
def ranluxpp.getarray_double_calls (mul : Limbs → Limbs → Limbs) (g : ranluxpp) (n : Int) :
    List (Limbs × Limbs) :=
  let (g, n) :=
    if g._dpos < 11 then
      let rest := 11 - g._dpos
      let rest := if rest < n then rest else n
      ({ g with _dpos := g._dpos + rest }, n - rest)
    else (g, n)
  let calls := doublesLoopCalls mul n.toNat g n
  let (g, n, _) := doublesLoop mul n.toNat g n []
  if n ≠ 0 then calls ++ [(g._x, g._A)] else calls

/-- The calls of `mul9x9mod` that `jump(n)` makes. -/
def ranluxpp.jump_calls (mul : Limbs → Limbs → Limbs) (g : ranluxpp) (n : Nat) :
    List (Limbs × Limbs) :=
  powmodCalls mul geta n ++ [(g._x, powmod mul geta n)]

/-- The calls of `mul9x9mod` that `setskip(n)` makes. -/
def ranluxpp.setskip_calls (mul : Limbs → Limbs → Limbs) (n : Nat) : List (Limbs × Limbs) :=
  powmodCalls mul geta n

/-- The calls of `mul9x9mod` that `primitive()` makes. -/
def ranluxpp.primitive_calls (mul : Limbs → Limbs → Limbs) : List (Limbs × Limbs) :=
  powmodCalls mul geta 2048

/-- Every call in a trace has both operands in `[0, m)`. -/
def CallsOk (calls : List (Limbs × Limbs)) : Prop := ∀ c ∈ calls, Residue c.1 ∧ Residue c.2

/-- The residue invariant at a state: `x` and `A` are residues, and every
call of `mul9x9mod` that an API operation started in this state makes has
both operands in `[0, m)`. -/
def ResidueInvariant (mul : Limbs → Limbs → Limbs) (g : ranluxpp) : Prop :=
  Residue g._x ∧ Residue g._A ∧
    (∀ n : Int, 0 ≤ n →
      CallsOk (g.getarray_float_calls mul n) ∧ CallsOk (g.getarray_double_calls mul n)) ∧
    (∀ n : Nat, n < 2 ^ 64 →
      CallsOk (g.jump_calls mul n) ∧ CallsOk (ranluxpp.setskip_calls mul n)) ∧
    CallsOk (ranluxpp.primitive_calls mul)

/-- Square-and-multiply on natural numbers: with enough fuel for the bits of
`e`, `acc * b^e` modulo `m`. Used to evaluate large modular powers. -/
def powModAux (m : Nat) : Nat → Nat → Nat → Nat → Nat
  | 0, acc, _, _ => acc
  | fuel + 1, acc, b, e =>
    if e = 0 then acc
    else powModAux m fuel (if e % 2 = 1 then acc * b % m else acc) (b * b % m) (e / 2)

/-- The number a list of prime powers `(q, e)` multiplies to. -/
def factorsProd (fs : List (Nat × Nat)) : Nat := (fs.map fun f => f.1 ^ f.2).prod

/-- The computational part of the Lucas test for `p` with base `a` and the
factorisation `fs` of `p - 1`: `a^(p-1) = 1` and `a^((p-1)/q) ≠ 1` modulo `p`
for every `q` in `fs`. -/
def lucasCheck (p a : Nat) (fs : List (Nat × Nat)) : Bool :=
  decide (1 < p) && decide (p < 2 ^ 600) && decide (factorsProd fs = p - 1) &&
    decide (powModAux p 600 1 a (p - 1) % p = 1) &&
    fs.all fun f => decide (powModAux p 600 1 a ((p - 1) / f.1) % p ≠ 1)

/-- The prime factorisation of `m - 1 = 2^240 * (2^336 - 1)`. -/
def modulusPredFactors : List (Nat × Nat) :=
  [(2, 240), (3, 2), (5, 1), (7, 2), (13, 1), (17, 1), (29, 1), (43, 1), (97, 1), (113, 1),
   (127, 1), (241, 1), (257, 1), (337, 1), (673, 1), (1429, 1), (2017, 1), (3361, 1),
   (5153, 1), (5419, 1), (14449, 1), (15790321, 1), (25629623713, 1), (54410972897, 1),
   (88959882481, 1), (1538595959564161, 1)]

/-! # Theorems -/

/-! ## Limb lists and their values -/

theorem wellFormed_cases {x : Limbs} (h : WellFormed x) :
    ∃ t0 t1 t2 t3 t4 t5 t6 t7 t8 : Nat, x = [t0, t1, t2, t3, t4, t5, t6, t7, t8] ∧
      t0 < 2 ^ 64 ∧ t1 < 2 ^ 64 ∧ t2 < 2 ^ 64 ∧ t3 < 2 ^ 64 ∧ t4 < 2 ^ 64 ∧
      t5 < 2 ^ 64 ∧ t6 < 2 ^ 64 ∧ t7 < 2 ^ 64 ∧ t8 < 2 ^ 64 := by
  obtain ⟨hl, hb⟩ := h
  match x, hl with
  | [t0, t1, t2, t3, t4, t5, t6, t7, t8], _ =>
    refine ⟨t0, t1, t2, t3, t4, t5, t6, t7, t8, rfl, ?_, ?_, ?_, ?_, ?_, ?_, ?_, ?_, ?_⟩ <;>
      exact hb _ (by simp)

theorem limbsVal_nine (t0 t1 t2 t3 t4 t5 t6 t7 t8 : Nat) :
    limbsVal [t0, t1, t2, t3, t4, t5, t6, t7, t8] =
      t0 + 2 ^ 64 * t1 + 2 ^ 128 * t2 + 2 ^ 192 * t3 + 2 ^ 256 * t4 + 2 ^ 320 * t5 +
        2 ^ 384 * t6 + 2 ^ 448 * t7 + 2 ^ 512 * t8 := by
  simp only [limbsVal]
  omega

theorem limbsVal_lt {x : Limbs} (h : WellFormed x) : limbsVal x < 2 ^ 576 := by
  obtain ⟨t0, t1, t2, t3, t4, t5, t6, t7, t8, rfl, h0, h1, h2, h3, h4, h5, h6, h7, h8⟩ :=
    wellFormed_cases h
  rw [limbsVal_nine]
  omega

theorem toLimbs_eq (v : Nat) :
    toLimbs v = [v % 2 ^ 64, v / 2 ^ 64 % 2 ^ 64, v / 2 ^ 128 % 2 ^ 64, v / 2 ^ 192 % 2 ^ 64,
      v / 2 ^ 256 % 2 ^ 64, v / 2 ^ 320 % 2 ^ 64, v / 2 ^ 384 % 2 ^ 64, v / 2 ^ 448 % 2 ^ 64,
      v / 2 ^ 512 % 2 ^ 64] := by
  simp [toLimbs, List.range, List.range.loop]

theorem toLimbs_wellFormed (v : Nat) : WellFormed (toLimbs v) := by
  rw [toLimbs_eq]
  refine ⟨rfl, ?_⟩
  intro l hl
  simp only [List.mem_cons, List.mem_singleton, List.not_mem_nil, or_false] at hl
  rcases hl with h | h | h | h | h | h | h | h | h <;> subst h <;> exact Nat.mod_lt _ (by norm_num)

theorem limbsVal_toLimbs {v : Nat} (h : v < 2 ^ 576) : limbsVal (toLimbs v) = v := by
  rw [toLimbs_eq, limbsVal_nine]
  omega

theorem limbsVal_injective {x y : Limbs} (hx : WellFormed x) (hy : WellFormed y)
    (h : limbsVal x = limbsVal y) : x = y := by
  obtain ⟨a0, a1, a2, a3, a4, a5, a6, a7, a8, rfl, _, _, _, _, _, _, _, _, _⟩ :=
    wellFormed_cases hx
  obtain ⟨b0, b1, b2, b3, b4, b5, b6, b7, b8, rfl, _, _, _, _, _, _, _, _, _⟩ :=
    wellFormed_cases hy
  rw [limbsVal_nine, limbsVal_nine] at h
  have e0 : a0 = b0 := by omega
  have e1 : a1 = b1 := by omega
  have e2 : a2 = b2 := by omega
  have e3 : a3 = b3 := by omega
  have e4 : a4 = b4 := by omega
  have e5 : a5 = b5 := by omega
  have e6 : a6 = b6 := by omega
  have e7 : a7 = b7 := by omega
  have e8 : a8 = b8 := by omega
  subst e0 e1 e2 e3 e4 e5 e6 e7 e8
  rfl

theorem modulus_lt : modulus < 2 ^ 576 := by decide

theorem modulus_pos : 0 < modulus := by decide

theorem mul9x9mod_contract : MulContract mul9x9mod := by
  intro r y _ _
  have hlt : limbsVal r * limbsVal y % modulus < modulus := Nat.mod_lt _ modulus_pos
  have hv : limbsVal (mul9x9mod r y) = limbsVal r * limbsVal y % modulus :=
    limbsVal_toLimbs (lt_trans hlt modulus_lt)
  exact ⟨⟨toLimbs_wellFormed _, hv ▸ hlt⟩, hv⟩

theorem residue_one9 : Residue one9 := by decide

theorem residue_geta : Residue geta := by decide

theorem limbsVal_one9 : limbsVal one9 = 1 := by decide

/-! ## Modular exponentiation -/

/-- The invariant of the `powmod` loop: with enough fuel for the bits of `n`
the loop leaves with `n = 0`, a residue in `res`, and `res * x^n mod m`. -/
theorem powmodLoop_spec {mul : Limbs → Limbs → Limbs} (hmul : MulContract mul) :
    ∀ (fuel : Nat) (res x : Limbs) (n : Nat), Residue res → Residue x → n < 2 ^ fuel →
      (powmodLoop mul fuel res x n).2.2 = 0 ∧ Residue (powmodLoop mul fuel res x n).1 ∧
        limbsVal (powmodLoop mul fuel res x n).1 = limbsVal res * limbsVal x ^ n % modulus := by
  intro fuel
  induction fuel with
  | zero =>
    intro res x n hres _ hn
    have h0 : n = 0 := by simpa using hn
    subst h0
    refine ⟨rfl, hres, ?_⟩
    simp only [powmodLoop, pow_zero, mul_one]
    exact (Nat.mod_eq_of_lt hres.2).symm
  | succ fuel ih =>
    intro res x n hres hx hn
    by_cases h0 : n = 0
    · subst h0
      refine ⟨by simp [powmodLoop], by simpa [powmodLoop] using hres, ?_⟩
      simp only [powmodLoop, ne_eq, not_true_eq_false, if_false, pow_zero, mul_one]
      exact (Nat.mod_eq_of_lt hres.2).symm
    · have hres1 : Residue (if n &&& 1 ≠ 0 then mul res x else res) ∧
          limbsVal (if n &&& 1 ≠ 0 then mul res x else res) =
            limbsVal res * limbsVal x ^ (n % 2) % modulus := by
        by_cases hodd : n &&& 1 ≠ 0
        · have h1 : n % 2 = 1 := by
            rw [Nat.and_one_is_mod] at hodd; omega
          rw [if_pos hodd, h1, pow_one]
          exact hmul res x hres hx
        · have h1 : n % 2 = 0 := by
            rw [Nat.and_one_is_mod] at hodd; omega
          rw [if_neg hodd, h1, pow_zero, mul_one]
          exact ⟨hres, (Nat.mod_eq_of_lt hres.2).symm⟩
      have hshift : n >>> 1 = n / 2 := by
        rw [Nat.shiftRight_eq_div_pow, pow_one]
      by_cases h1 : n >>> 1 = 0
      · have hn1 : n = 1 := by omega
        have hloop : powmodLoop mul (fuel + 1) res x n =
            (if n &&& 1 ≠ 0 then mul res x else res, x, n >>> 1) := by
          simp only [powmodLoop, ne_eq, h0, not_false_eq_true, if_true, h1]
        rw [hloop]
        refine ⟨h1, hres1.1, ?_⟩
        rw [hres1.2, hn1]
      · have hloop : powmodLoop mul (fuel + 1) res x n =
            powmodLoop mul fuel (if n &&& 1 ≠ 0 then mul res x else res) (mul x x) (n >>> 1) := by
          simp only [powmodLoop, ne_eq, h0, not_false_eq_true, if_true, h1, if_false]
        have hlt : n >>> 1 < 2 ^ fuel := by
          rw [hshift]
          rw [pow_succ] at hn
          omega
        obtain ⟨hxx, hxxv⟩ := hmul x x hx hx
        obtain ⟨e1, e2, e3⟩ := ih _ (mul x x) (n >>> 1) hres1.1 hxx hlt
        rw [hloop]
        refine ⟨e1, e2, ?_⟩
        rw [e3, hres1.2, hxxv, hshift]
        have hsplit : limbsVal x ^ n = limbsVal x ^ (n % 2) * (limbsVal x * limbsVal x) ^ (n / 2) := by
          rw [← pow_two, ← pow_mul, ← pow_add, Nat.mod_add_div]
        rw [hsplit, ← mul_assoc]
        conv_rhs => rw [Nat.mul_mod, Nat.pow_mod]
        conv_lhs => rw [Nat.mul_mod, Nat.mod_mod]

theorem powmod_spec {mul : Limbs → Limbs → Limbs} (hmul : MulContract mul) {b : Limbs}
    (hb : Residue b) {n : Nat} (hn : n < 2 ^ 64) :
    Residue (powmod mul b n) ∧ limbsVal (powmod mul b n) = limbsVal b ^ n % modulus := by
  obtain ⟨_, e2, e3⟩ := powmodLoop_spec hmul 64 one9 b n residue_one9 hb hn
  refine ⟨e2, ?_⟩
  unfold powmod
  rw [e3, limbsVal_one9, one_mul]

/-- More fuel than the loop needs does not change what it returns. -/
theorem powmodLoop_fuel (mul : Limbs → Limbs → Limbs) :
    ∀ (fuel extra : Nat) (res x : Limbs) (n : Nat), n < 2 ^ fuel →
      powmodLoop mul (fuel + extra) res x n = powmodLoop mul fuel res x n := by
  intro fuel
  induction fuel with
  | zero =>
    intro extra res x n hn
    have h0 : n = 0 := by simpa using hn
    subst h0
    cases extra <;> simp [powmodLoop]
  | succ fuel ih =>
    intro extra res x n hn
    have hlt : n >>> 1 < 2 ^ fuel := by
      rw [Nat.shiftRight_eq_div_pow, pow_one]
      rw [pow_succ] at hn
      omega
    rw [show fuel + 1 + extra = (fuel + extra) + 1 by omega]
    simp only [powmodLoop]
    rw [ih extra _ _ _ hlt]

theorem pow_mod_pow_mod (a p q m : Nat) : (a ^ p % m) ^ q % m = a ^ (p * q) % m := by
  rw [← Nat.pow_mod, ← pow_mul]

theorem mul_pow_mod_mod (x a m : Nat) : x * (a % m) % m = x * a % m := by
  rw [Nat.mul_mod, Nat.mod_mod, ← Nat.mul_mod]

/-- What the constructor computes, for any primitive that meets its contract. -/
theorem ctor_spec {mul : Limbs → Limbs → Limbs} (hmul : MulContract mul) {seed p : Nat}
    (hseed : seed < 2 ^ 64) (hp : p < 2 ^ 64) :
    Residue (ranluxpp.ctor mul seed p)._A ∧
      limbsVal (ranluxpp.ctor mul seed p)._A = limbsVal geta ^ p % modulus ∧
      Residue (ranluxpp.ctor mul seed p)._x ∧
      limbsVal (ranluxpp.ctor mul seed p)._x = limbsVal geta ^ (p * 2 ^ 96 * seed) % modulus := by
  have h48 : (1 <<< 48 : Nat) < 2 ^ 64 := by decide
  have e48 : (1 <<< 48 : Nat) = 2 ^ 48 := by decide
  obtain ⟨rA, vA⟩ := powmod_spec hmul residue_geta hp
  obtain ⟨r1, v1⟩ := powmod_spec hmul rA h48
  obtain ⟨r2, v2⟩ := powmod_spec hmul r1 h48
  obtain ⟨r3, v3⟩ := powmod_spec hmul r2 hseed
  obtain ⟨r4, v4⟩ := hmul one9 _ residue_one9 r3
  refine ⟨rA, vA, r4, ?_⟩
  show limbsVal (mul one9 _) = _
  rw [v4, v3, v2, v1, vA, limbsVal_one9, one_mul, Nat.mod_mod, e48, pow_mod_pow_mod,
    pow_mod_pow_mod, pow_mod_pow_mod]
  congr 2
  ring

/-- The state after `k` state advances. -/
theorem iterate_nextstate_spec {mul : Limbs → Limbs → Limbs} (hmul : MulContract mul)
    (g : ranluxpp) (hx : Residue g._x) (hA : Residue g._A) (k : Nat) :
    Residue ((ranluxpp.nextstate mul)^[k] g)._x ∧
      limbsVal ((ranluxpp.nextstate mul)^[k] g)._x = limbsVal g._x * limbsVal g._A ^ k % modulus ∧
      ((ranluxpp.nextstate mul)^[k] g)._A = g._A := by
  induction k with
  | zero =>
    refine ⟨hx, ?_, rfl⟩
    simp only [Function.iterate_zero, id_eq, pow_zero, mul_one]
    exact (Nat.mod_eq_of_lt hx.2).symm
  | succ k ih =>
    obtain ⟨r, v, eA⟩ := ih
    rw [Function.iterate_succ_apply']
    obtain ⟨r1, v1⟩ := hmul _ _ r (eA ▸ hA)
    refine ⟨r1, ?_, eA⟩
    show limbsVal (mul _ _) = _
    rw [v1, v, eA, Nat.mul_mod, Nat.mod_mod, ← Nat.mul_mod, pow_succ, mul_assoc]

theorem jump_spec {mul : Limbs → Limbs → Limbs} (hmul : MulContract mul)
    (g : ranluxpp) (hx : Residue g._x) {n : Nat} (hn : n < 2 ^ 64) :
    Residue (g.jump mul n)._x ∧
      limbsVal (g.jump mul n)._x = limbsVal g._x * limbsVal geta ^ n % modulus := by
  obtain ⟨ra, va⟩ := powmod_spec hmul residue_geta hn
  obtain ⟨r1, v1⟩ := hmul _ _ hx ra
  refine ⟨r1, ?_⟩
  show limbsVal (mul _ _) = _
  rw [v1, va, mul_pow_mod_mod]

theorem ctor_one_A {mul : Limbs → Limbs → Limbs} (hmul : MulContract mul) (seed : Nat) :
    (ranluxpp.ctor mul seed 1)._A = geta := by
  obtain ⟨rA, vA⟩ := powmod_spec hmul residue_geta (show 1 < 2 ^ 64 by decide)
  apply limbsVal_injective rA.1 residue_geta.1
  show limbsVal (powmod mul geta 1) = _
  rw [vA, pow_one]
  exact Nat.mod_eq_of_lt residue_geta.2

/-! ## Field extraction -/

theorem mask24 (v : Nat) : 0xffffff &&& v = v % 2 ^ 24 := by
  rw [Nat.and_comm]
  exact Nat.and_pow_two_sub_one_eq_mod v 24

theorem mask52 (v : Nat) : 0x000fffffffffffff &&& v = v % 2 ^ 52 := by
  rw [Nat.and_comm]
  exact Nat.and_pow_two_sub_one_eq_mod v 52

/-- A field that straddles two limbs: the OR of the high bits of `lo` and the
shifted low bits of `hi` is a window of the number `lo + 2^64 * hi`. -/
theorem shr_or_shl64 (lo hi s : Nat) (hs : s ≤ 64) (hlo : lo < 2 ^ 64) :
    (lo >>> s) ||| shl64 hi (64 - s) = (lo + 2 ^ 64 * hi) / 2 ^ s % 2 ^ 64 := by
  have hQ : 0 < 2 ^ s := Nat.pow_pos (by norm_num)
  have h64 : (2 : Nat) ^ 64 = 2 ^ s * 2 ^ (64 - s) := by
    rw [← pow_add]; congr 1; omega
  have hshl : shl64 hi (64 - s) = 2 ^ (64 - s) * (hi % 2 ^ s) := by
    unfold shl64
    rw [Nat.shiftLeft_eq, h64, Nat.mul_comm hi, Nat.mul_comm (2 ^ s), Nat.mul_mod_mul_left]
  have hlt : lo / 2 ^ s < 2 ^ (64 - s) := by
    rw [Nat.div_lt_iff_lt_mul hQ]
    rw [h64, Nat.mul_comm] at hlo
    exact hlo
  have e1 : (lo + 2 ^ 64 * hi) / 2 ^ s = lo / 2 ^ s + 2 ^ (64 - s) * hi := by
    rw [h64, Nat.mul_assoc, Nat.add_mul_div_left _ _ hQ]
  have hr : hi % 2 ^ s < 2 ^ s := Nat.mod_lt _ hQ
  have hbound : lo / 2 ^ s + 2 ^ (64 - s) * (hi % 2 ^ s) < 2 ^ (64 - s) * 2 ^ s :=
    calc lo / 2 ^ s + 2 ^ (64 - s) * (hi % 2 ^ s)
        < 2 ^ (64 - s) + 2 ^ (64 - s) * (hi % 2 ^ s) := by omega
      _ = 2 ^ (64 - s) * (hi % 2 ^ s + 1) := by ring
      _ ≤ 2 ^ (64 - s) * 2 ^ s := Nat.mul_le_mul_left _ hr
  have e2 : lo / 2 ^ s + 2 ^ (64 - s) * hi =
      lo / 2 ^ s + 2 ^ (64 - s) * (hi % 2 ^ s) + 2 ^ (64 - s) * 2 ^ s * (hi / 2 ^ s) := by
    conv_lhs => rw [← Nat.mod_add_div hi (2 ^ s)]
    ring
  rw [hshl, Nat.shiftRight_eq_div_pow, Nat.or_comm, ← Nat.mul_add_lt_is_or hlt, e1, e2,
    h64, Nat.mul_comm (2 ^ s), Nat.add_mul_mod_self_left, Nat.mod_eq_of_lt hbound, Nat.add_comm]

theorem toInt32_of_lt {v : Nat} (h : v < 2 ^ 31) : toInt32 v = (v : Int) := by
  unfold toInt32
  have : v % 2 ^ 32 = v := Nat.mod_eq_of_lt (by omega)
  rw [this, if_pos h]

theorem shr_or_shl64_of_add {s r : Nat} (h : s + r = 64) (lo hi : Nat) (hlo : lo < 2 ^ 64) :
    (lo >>> s) ||| shl64 hi r = (lo + 2 ^ 64 * hi) / 2 ^ s % 2 ^ 64 := by
  have hr : r = 64 - s := by omega
  subst hr
  exact shr_or_shl64 lo hi s (by omega) hlo

/-- The float built from a masked 24-bit field. -/
theorem float_field (v n : Nat) (h : v % 2 ^ 24 = n) :
    (1 / 2 ^ 24 : ℚ) * (toInt32 (0xffffff &&& v) : Int) = (n : ℚ) / 2 ^ 24 := by
  have hlt : v % 2 ^ 24 < 2 ^ 31 := lt_trans (Nat.mod_lt _ (by norm_num)) (by norm_num)
  rw [mask24, toInt32_of_lt hlt, h]
  push_cast
  ring

theorem unpackfloats_nine (t0 t1 t2 t3 t4 t5 t6 t7 t8 : Nat) (h0 : t0 < 2 ^ 64)
    (h1 : t1 < 2 ^ 64) (h2 : t2 < 2 ^ 64) (h3 : t3 < 2 ^ 64) (h4 : t4 < 2 ^ 64)
    (h5 : t5 < 2 ^ 64) (h6 : t6 < 2 ^ 64) (h7 : t7 < 2 ^ 64) (_h8 : t8 < 2 ^ 64) :
    unpackfloats [t0, t1, t2, t3, t4, t5, t6, t7, t8] =
      (List.range 24).map fun k =>
        ((limbsVal [t0, t1, t2, t3, t4, t5, t6, t7, t8] / 2 ^ (24 * k) % 2 ^ 24 : Nat) : ℚ) /
          2 ^ 24 := by
  rw [limbsVal_nine]
  have w01 := shr_or_shl64_of_add (show 48 + 16 = 64 by rfl) t0 t1 h0
  have w12 := shr_or_shl64_of_add (show 56 + 8 = 64 by rfl) t1 t2 h1
  have w34 := shr_or_shl64_of_add (show 48 + 16 = 64 by rfl) t3 t4 h3
  have w45 := shr_or_shl64_of_add (show 56 + 8 = 64 by rfl) t4 t5 h4
  have w67 := shr_or_shl64_of_add (show 48 + 16 = 64 by rfl) t6 t7 h6
  have w78 := shr_or_shl64_of_add (show 56 + 8 = 64 by rfl) t7 t8 h7
  simp only [Nat.shiftRight_eq_div_pow] at w01 w12 w34 w45 w67 w78
  simp only [unpackfloats, unpackfloatsGroup, List.range, List.range.loop, List.map,
    List.cons_append, List.nil_append, List.getD_cons_zero, List.getD_cons_succ,
    Nat.zero_mul, Nat.one_mul, Nat.zero_add, Nat.add_zero, Nat.reduceMul, Nat.reduceAdd,
    w01, w12, w34, w45, w67, w78, Nat.shiftRight_eq_div_pow, List.cons.injEq, and_true]
  refine ⟨?_, ?_, ?_, ?_, ?_, ?_, ?_, ?_, ?_, ?_, ?_, ?_, ?_, ?_, ?_, ?_, ?_, ?_, ?_, ?_,
    ?_, ?_, ?_, ?_⟩ <;> (apply float_field; omega)

theorem one_or_field {f : Nat} (h : f < 2 ^ 52) :
    0x3ff0000000000000 ||| f = 2 ^ 52 * 1023 + f := by
  rw [Nat.mul_add_lt_is_or h]

/-- The double with exponent field `0x3ff` and fraction `f`, minus one. -/
theorem doubleOfBits_one_or {f : Nat} (h : f < 2 ^ 52) :
    doubleOfBits (0x3ff0000000000000 ||| f) - 1 = (f : ℚ) / 2 ^ 52 := by
  rw [one_or_field h]
  unfold doubleOfBits
  have hs : (2 ^ 52 * 1023 + f) / 2 ^ 63 % 2 = 0 := by omega
  have he : (2 ^ 52 * 1023 + f) / 2 ^ 52 % 2 ^ 11 = 1023 := by omega
  have hf : (2 ^ 52 * 1023 + f) % 2 ^ 52 = f := by omega
  simp only [hs, he, hf]
  norm_num

theorem unpackdoublesBits_nine (t0 t1 t2 t3 t4 t5 t6 t7 t8 : Nat) (h0 : t0 < 2 ^ 64)
    (h1 : t1 < 2 ^ 64) (h2 : t2 < 2 ^ 64) (h3 : t3 < 2 ^ 64) (h4 : t4 < 2 ^ 64)
    (h5 : t5 < 2 ^ 64) (h6 : t6 < 2 ^ 64) (h7 : t7 < 2 ^ 64) (_h8 : t8 < 2 ^ 64) :
    unpackdoublesBits [t0, t1, t2, t3, t4, t5, t6, t7, t8] =
      (List.range 11).map fun k =>
        0x3ff0000000000000 |||
          (limbsVal [t0, t1, t2, t3, t4, t5, t6, t7, t8] / 2 ^ (52 * k) % 2 ^ 52) := by
  rw [limbsVal_nine]
  have w1 := shr_or_shl64_of_add (show 52 + 12 = 64 by rfl) t0 t1 h0
  have w2 := shr_or_shl64_of_add (show 40 + 24 = 64 by rfl) t1 t2 h1
  have w3 := shr_or_shl64_of_add (show 28 + 36 = 64 by rfl) t2 t3 h2
  have w4 := shr_or_shl64_of_add (show 16 + 48 = 64 by rfl) t3 t4 h3
  have w5 := shr_or_shl64_of_add (show 4 + 60 = 64 by rfl) t4 t5 h4
  have w6 := shr_or_shl64_of_add (show 56 + 8 = 64 by rfl) t4 t5 h4
  have w7 := shr_or_shl64_of_add (show 44 + 20 = 64 by rfl) t5 t6 h5
  have w8 := shr_or_shl64_of_add (show 32 + 32 = 64 by rfl) t6 t7 h6
  have w9 := shr_or_shl64_of_add (show 20 + 44 = 64 by rfl) t7 t8 h7
  simp only [unpackdoublesBits, List.range, List.range.loop, List.map,
    List.getD_cons_zero, List.getD_cons_succ, mask52,
    w1, w2, w3, w4, w5, w6, w7, w8, w9, List.cons.injEq, and_true]
  simp only [Nat.shiftRight_eq_div_pow]
  refine ⟨?_, ?_, ?_, ?_, ?_, ?_, ?_, ?_, ?_, ?_, ?_⟩ <;> (congr 1; omega)

theorem digits24_sum (X : Nat) (h : X < 2 ^ 576) :
    ∑ k in Finset.range 24, (X / 2 ^ (24 * k) % 2 ^ 24) * 2 ^ (24 * k) = X := by
  simp only [Finset.sum_range_succ, Finset.sum_range_zero, Nat.reduceMul]
  omega

theorem digits52_sum (X : Nat) :
    ∑ k in Finset.range 11, (X / 2 ^ (52 * k) % 2 ^ 52) * 2 ^ (52 * k) = X % 2 ^ 572 := by
  simp only [Finset.sum_range_succ, Finset.sum_range_zero, Nat.reduceMul]
  omega

/-! ## The two `getarray` overloads are one reader -/

theorem floatsLoop_eq (mul : Limbs → Limbs → Limbs) :
    ∀ (fuel : Nat) (g : ranluxpp) (n : Int) (out : List (Option ℚ)),
      floatsLoop mul fuel g n out =
        (g.withFloatReader
            (readLoop 24 (fun x => mul x g._A) unpackfloats fuel g.floatReader n out).1,
          (readLoop 24 (fun x => mul x g._A) unpackfloats fuel g.floatReader n out).2) := by
  intro fuel
  induction fuel with
  | zero => intro g n out; rfl
  | succ fuel ih =>
    intro g n out
    by_cases h : n ≥ 24
    · have h' : n ≥ ((24 : Nat) : Int) := h
      simp only [floatsLoop, readLoop, if_pos h, if_pos h']
      rw [ih]
      rfl
    · have h' : ¬ n ≥ ((24 : Nat) : Int) := h
      simp only [floatsLoop, readLoop, if_neg h, if_neg h']
      rfl

theorem getarray_float_eq (mul : Limbs → Limbs → Limbs) (g : ranluxpp) (n : Int) :
    g.getarray_float mul n =
      (g.withFloatReader (read 24 (fun x => mul x g._A) unpackfloats g.floatReader n).1,
        (read 24 (fun x => mul x g._A) unpackfloats g.floatReader n).2) := by
  unfold ranluxpp.getarray_float read
  simp only [floatsLoop_eq, ranluxpp.floatReader, Nat.cast_ofNat]
  by_cases h : g._fpos < 24
  · simp only [if_pos h]
    split_ifs <;> rfl
  · simp only [if_neg h]
    split_ifs <;> rfl

/-! ## The reader, phase by phase -/

section Reader

variable {B : Nat} {step : Limbs → Limbs} {unpack : Limbs → List ℚ}

theorem copyOut_zero (buf : List (Option ℚ)) (pos : Int) : copyOut buf pos 0 = [] := rfl

theorem copyOut_length (buf : List (Option ℚ)) (pos cnt : Int) :
    (copyOut buf pos cnt).length = cnt.toNat := by
  simp [copyOut]

theorem copyOut_add (buf : List (Option ℚ)) (pos : Int) {a b : Int} (ha : 0 ≤ a) (hb : 0 ≤ b) :
    copyOut buf pos (a + b) = copyOut buf pos a ++ copyOut buf (pos + a) b := by
  unfold copyOut
  have hab : (a + b).toNat = a.toNat + b.toNat := by omega
  rw [hab, List.range_add, List.map_append, List.map_map]
  congr 1
  apply List.map_congr_left
  intro i _
  simp only [Function.comp_apply]
  congr 1
  have : ((a.toNat : Int)) = a := Int.toNat_of_nonneg ha
  push_cast
  omega

theorem copyOut_all (l : List ℚ) : copyOut (l.map some) 0 l.length = l.map some := by
  unfold copyOut
  apply List.ext_getElem
  · simp
  · intro i h1 h2
    have hi : i < l.length := by simpa using h2
    simp [readBuf, hi]

theorem readLoop_lt (fuel : Nat) (r : Reader) {n : Int} (out : List (Option ℚ))
    (h : n < (B : Int)) : readLoop B step unpack fuel r n out = (r, n, out) := by
  cases fuel with
  | zero => rfl
  | succ fuel => simp only [readLoop, ge_iff_le, not_le.mpr h, if_false]

theorem readLoop_ge (fuel : Nat) (r : Reader) {n : Int} (out : List (Option ℚ))
    (h : (B : Int) ≤ n) :
    readLoop B step unpack (fuel + 1) r n out =
      readLoop B step unpack fuel { r with x := step r.x } (n - B)
        (out ++ (unpack (step r.x)).map some) := by
  simp only [readLoop, ge_iff_le, h, if_true]

theorem readLoop_fuel (hB : 0 < B) :
    ∀ (fuel1 fuel2 : Nat) (r : Reader) (n : Int) (out : List (Option ℚ)),
      n.toNat ≤ fuel1 → n.toNat ≤ fuel2 →
        readLoop B step unpack fuel1 r n out = readLoop B step unpack fuel2 r n out := by
  intro fuel1
  induction fuel1 with
  | zero =>
    intro fuel2 r n out h1 _
    have hn : n < (B : Int) := by omega
    rw [readLoop_lt 0 r out hn, readLoop_lt fuel2 r out hn]
  | succ fuel1 ih =>
    intro fuel2 r n out h1 h2
    by_cases hn : n < (B : Int)
    · rw [readLoop_lt _ r out hn, readLoop_lt fuel2 r out hn]
    · have hge : (B : Int) ≤ n := not_lt.mp hn
      obtain ⟨fuel2, rfl⟩ : ∃ k, fuel2 = k + 1 := ⟨fuel2 - 1, by omega⟩
      rw [readLoop_ge _ r out hge, readLoop_ge _ r out hge]
      exact ih fuel2 _ _ _ (by omega) (by omega)

theorem readLoop_out :
    ∀ (fuel : Nat) (r : Reader) (n : Int) (out : List (Option ℚ)),
      readLoop B step unpack fuel r n out =
        ((readLoop B step unpack fuel r n []).1, (readLoop B step unpack fuel r n []).2.1,
          out ++ (readLoop B step unpack fuel r n []).2.2) := by
  intro fuel
  induction fuel with
  | zero => intro r n out; simp [readLoop]
  | succ fuel ih =>
    intro r n out
    by_cases hn : n < (B : Int)
    · rw [readLoop_lt _ r out hn, readLoop_lt _ r [] hn]
      simp
    · have hge : (B : Int) ≤ n := not_lt.mp hn
      rw [readLoop_ge _ r out hge, readLoop_ge _ r [] hge, ih _ _ (out ++ _), ih _ _ ([] ++ _)]
      simp

/-- A read of nothing. -/
theorem read_zero (r : Reader) : read B step unpack r 0 = (r, []) := by
  unfold read
  by_cases h : r.pos < (B : Int)
  · have hrest : (if (B : Int) - r.pos < 0 then (B : Int) - r.pos else 0) = 0 := by
      rw [if_neg (by omega)]
    simp only [if_pos h, hrest, sub_zero, add_zero, Int.toNat_zero, readLoop, copyOut_zero,
      ne_eq, not_true_eq_false, if_false]
  · simp only [if_neg h, Int.toNat_zero, readLoop, ne_eq, not_true_eq_false, if_false]

/-- Drain phase only: the request fits in what the buffer still holds. -/
theorem read_drain (r : Reader) {n : Int} (h0 : 0 ≤ n) (h : r.pos + n ≤ B) :
    read B step unpack r n = ({ r with pos := r.pos + n }, copyOut r.buf r.pos n) := by
  by_cases hn : n = 0
  · subst hn
    rw [read_zero]
    simp [copyOut_zero]
  · unfold read
    have hpos : r.pos < (B : Int) := by omega
    have hrest : (if (B : Int) - r.pos < n then (B : Int) - r.pos else n) = n := by
      rw [if_neg (by omega)]
    simp only [if_pos hpos, hrest, sub_self, Int.toNat_zero, readLoop, ne_eq,
      not_true_eq_false, if_false]

/-- Tail phase only: an empty buffer and a request below one batch. -/
theorem read_tail (r : Reader) {n : Int} (hpos : r.pos = B) (h0 : 0 < n) (h : n < B) :
    read B step unpack r n =
      ({ x := step r.x, buf := (unpack (step r.x)).map some, pos := n },
        copyOut ((unpack (step r.x)).map some) 0 n) := by
  unfold read
  have hp : ¬ r.pos < (B : Int) := by omega
  have hn : n ≠ 0 := by omega
  simp only [if_neg hp, readLoop_lt _ r [] h, ne_eq, hn, not_false_eq_true, if_true,
    List.nil_append]

/-- Bulk phase: an empty buffer and a request of at least one batch peel one
state advance and one full batch. -/
theorem read_bulk (hB : 0 < B) (r : Reader) {n : Int} (hpos : r.pos = B) (h : (B : Int) ≤ n) :
    read B step unpack r n =
      ((read B step unpack { r with x := step r.x } (n - B)).1,
        (unpack (step r.x)).map some ++ (read B step unpack { r with x := step r.x } (n - B)).2) := by
  unfold read
  have hp : ¬ r.pos < (B : Int) := by omega
  have hp' : ¬ ({ r with x := step r.x } : Reader).pos < (B : Int) := hp
  obtain ⟨k, hk⟩ : ∃ k, n.toNat = k + 1 := ⟨n.toNat - 1, by omega⟩
  simp only [if_neg hp, if_neg hp', hk, readLoop_ge _ r [] h, List.nil_append]
  rw [readLoop_fuel hB k (n - B).toNat _ _ _ (by omega) (le_refl _), readLoop_out]
  split_ifs <;> simp

/-- Drain phase followed by the rest: the buffer is emptied first. -/
theorem read_drain_all (_hB : 0 < B) (r : Reader) {n : Int} (hpos : r.pos ≤ B)
    (h : (B : Int) - r.pos ≤ n) :
    read B step unpack r n =
      ((read B step unpack { r with pos := B } (n - (B - r.pos))).1,
        copyOut r.buf r.pos (B - r.pos) ++
          (read B step unpack { r with pos := B } (n - (B - r.pos))).2) := by
  by_cases hp : r.pos < (B : Int)
  · unfold read
    have hp' : ¬ ({ r with pos := (B : Int) } : Reader).pos < (B : Int) := lt_irrefl _
    have hrest : (if (B : Int) - r.pos < n then (B : Int) - r.pos else n) = (B : Int) - r.pos := by
      split_ifs <;> omega
    have hB' : r.pos + ((B : Int) - r.pos) = B := by omega
    simp only [if_pos hp, if_neg hp', hrest, hB']
    rw [readLoop_out]
    split_ifs <;> simp
  · have hp' : r.pos = B := by omega
    have hr : ({ r with pos := (B : Int) } : Reader) = r := by
      cases r; simp at hp'; simp [hp']
    rw [hr, hp']
    simp [copyOut_zero]


theorem readBuf_map_some (l : List ℚ) {i : Int} (h0 : 0 ≤ i) (h : i < l.length) :
    readBuf (l.map some) i = some (l.getD i.toNat 0) := by
  have hi : i.toNat < l.length := by omega
  simp [readBuf, h0, hi, List.getD_eq_getElem?_getD]

theorem mem_copyOut {buf : List (Option ℚ)} {pos cnt : Int} {o : Option ℚ}
    (h : o ∈ copyOut buf pos cnt) : ∃ i : Int, pos ≤ i ∧ i < pos + cnt ∧ o = readBuf buf i := by
  unfold copyOut at h
  obtain ⟨k, hk, rfl⟩ := List.mem_map.mp h
  have hk' : k < cnt.toNat := List.mem_range.mp hk
  exact ⟨pos + k, by omega, by omega, rfl⟩

theorem copyOut_congr {buf buf' : List (Option ℚ)} {pos cnt : Int}
    (h : ∀ i : Int, pos ≤ i → i < pos + cnt → readBuf buf i = readBuf buf' i) :
    copyOut buf pos cnt = copyOut buf' pos cnt := by
  unfold copyOut
  apply List.map_congr_left
  intro k hk
  have hk' : k < cnt.toNat := List.mem_range.mp hk
  exact h _ (by omega) (by omega)

/-! ### Every value read is a written field -/

theorem good_full (hlen : ∀ x, (unpack x).length = B) {P : ℚ → Prop}
    (hP : ∀ x, ∀ v ∈ unpack x, P v) (x : Limbs) (pos : Int) (h0 : 0 ≤ pos) (hB : pos ≤ B) :
    Reader.Good B P ⟨x, (unpack x).map some, pos⟩ := by
  refine ⟨h0, hB, ?_⟩
  intro i hi hiB
  have hi0 : 0 ≤ i := le_trans h0 hi
  have hlt : i < (unpack x).length := by rw [hlen]; exact hiB
  have hlt' : i.toNat < (unpack x).length := by omega
  refine ⟨_, readBuf_map_some _ hi0 hlt, hP x _ ?_⟩
  rw [List.getD_eq_getElem _ _ hlt']
  exact List.getElem_mem _

theorem mem_map_some_good {P : ℚ → Prop} (hP : ∀ x, ∀ v ∈ unpack x, P v) (x : Limbs)
    {o : Option ℚ} (h : o ∈ (unpack x).map some) : ∃ q, o = some q ∧ P q := by
  obtain ⟨v, hv, rfl⟩ := List.mem_map.mp h
  exact ⟨v, rfl, hP x v hv⟩

theorem read_good_full (hB : 0 < B) (hlen : ∀ x, (unpack x).length = B) {P : ℚ → Prop}
    (hP : ∀ x, ∀ v ∈ unpack x, P v) :
    ∀ (n : Nat) (r : Reader), r.pos = B →
      Reader.Good B P (read B step unpack r n).1 ∧
        ∀ o ∈ (read B step unpack r n).2, ∃ q, o = some q ∧ P q := by
  intro n
  induction n using Nat.strong_induction_on with
  | _ n ih =>
    intro r hpos
    by_cases hn0 : n = 0
    · subst hn0
      rw [Nat.cast_zero, read_zero]
      refine ⟨⟨?_, ?_, ?_⟩, ?_⟩
      · show 0 ≤ r.pos
        omega
      · show r.pos ≤ B
        omega
      · intro i hi hiB
        have hi' : r.pos ≤ i := hi
        omega
      · intro o ho; simp at ho
    · by_cases hnB : n < B
      · rw [read_tail r hpos (by omega) (by omega)]
        refine ⟨good_full hlen hP _ _ (by omega) (by omega), ?_⟩
        intro o ho
        obtain ⟨i, hi0, hin, rfl⟩ := mem_copyOut ho
        have hg := good_full hlen hP (step r.x) 0 (le_refl _) (by omega)
        exact hg.2.2 i hi0 (by omega)
      · have hge : (B : Int) ≤ (n : Int) := by omega
        rw [read_bulk hB r hpos hge]
        have hcast : (n : Int) - (B : Int) = ((n - B : Nat) : Int) := by omega
        rw [hcast]
        obtain ⟨g1, g2⟩ := ih (n - B) (by omega) { r with x := step r.x } hpos
        refine ⟨g1, ?_⟩
        intro o ho
        rcases List.mem_append.mp ho with h | h
        · exact mem_map_some_good hP _ h
        · exact g2 o h

theorem read_good (hB : 0 < B) (hlen : ∀ x, (unpack x).length = B) {P : ℚ → Prop}
    (hP : ∀ x, ∀ v ∈ unpack x, P v) (r : Reader) (hr : Reader.Good B P r) {n : Int}
    (hn : 0 ≤ n) :
    Reader.Good B P (read B step unpack r n).1 ∧
      ∀ o ∈ (read B step unpack r n).2, ∃ q, o = some q ∧ P q := by
  obtain ⟨h0, hle, hbuf⟩ := hr
  by_cases hfit : r.pos + n ≤ B
  · rw [read_drain r hn hfit]
    refine ⟨⟨by simp only; omega, hfit, ?_⟩, ?_⟩
    · intro i hi hiB
      exact hbuf i (by simp only at hi; omega) hiB
    · intro o ho
      obtain ⟨i, hi0, hin, rfl⟩ := mem_copyOut ho
      exact hbuf i hi0 (by omega)
  · rw [read_drain_all hB r hle (by omega)]
    obtain ⟨k, hk⟩ : ∃ k : Nat, n - ((B : Int) - r.pos) = (k : Int) :=
      ⟨(n - ((B : Int) - r.pos)).toNat, by omega⟩
    rw [hk]
    obtain ⟨g1, g2⟩ := @read_good_full B step unpack hB hlen _ hP k { r with pos := B } rfl
    refine ⟨g1, ?_⟩
    intro o ho
    rcases List.mem_append.mp ho with h | h
    · obtain ⟨i, hi0, hin, rfl⟩ := mem_copyOut h
      exact hbuf i hi0 (by omega)
    · exact g2 o h


/-! ### Batching -/

theorem Reader.Equiv.refl (r : Reader) : Reader.Equiv B r r := ⟨rfl, rfl, fun _ _ _ => rfl⟩

theorem Reader.equiv_of_full {r s : Reader} (hx : r.x = s.x) (hr : r.pos = B) (hs : s.pos = B) :
    Reader.Equiv B r s := by
  refine ⟨hx, by rw [hr, hs], ?_⟩
  intro i hi hiB
  omega

/-- With an empty buffer the old buffer contents do not matter. -/
theorem read_full_congr (hB : 0 < B) :
    ∀ (n : Nat) (r s : Reader), r.x = s.x → r.pos = B → s.pos = B →
      (read B step unpack r n).2 = (read B step unpack s n).2 ∧
        Reader.Equiv B (read B step unpack r n).1 (read B step unpack s n).1 := by
  intro n
  induction n using Nat.strong_induction_on with
  | _ n ih =>
    intro r s hx hr hs
    by_cases hn0 : n = 0
    · subst hn0
      rw [Nat.cast_zero, read_zero, read_zero]
      exact ⟨rfl, Reader.equiv_of_full hx hr hs⟩
    · by_cases hnB : n < B
      · rw [read_tail r hr (by omega) (by omega), read_tail s hs (by omega) (by omega), hx]
        exact ⟨rfl, Reader.Equiv.refl _⟩
      · have hge : (B : Int) ≤ (n : Int) := by omega
        rw [read_bulk hB r hr hge, read_bulk hB s hs hge]
        have hcast : (n : Int) - (B : Int) = ((n - B : Nat) : Int) := by omega
        rw [hcast]
        obtain ⟨e1, e2⟩ := ih (n - B) (by omega) { r with x := step r.x } { s with x := step s.x }
          (by simp only [hx]) hr hs
        refine ⟨?_, e2⟩
        rw [e1, hx]

/-- Batching from an empty buffer. -/
theorem read_split_full (hB : 0 < B) (hlen : ∀ x, (unpack x).length = B) :
    ∀ (n1 : Nat) (r : Reader) (n2 : Int), r.pos = B → 0 ≤ n2 →
      (read B step unpack r n1).2 ++ (read B step unpack (read B step unpack r n1).1 n2).2 =
          (read B step unpack r (n1 + n2)).2 ∧
        Reader.Equiv B (read B step unpack (read B step unpack r n1).1 n2).1
          (read B step unpack r (n1 + n2)).1 := by
  intro n1
  induction n1 using Nat.strong_induction_on with
  | _ n1 ih =>
    intro r n2 hr hn2
    by_cases hn0 : n1 = 0
    · subst hn0
      rw [Nat.cast_zero, read_zero, zero_add]
      exact ⟨rfl, Reader.Equiv.refl _⟩
    · by_cases hnB : n1 < B
      · -- the first read is a tail read
        rw [read_tail r hr (by omega) (by omega)]
        have hU : (((unpack (step r.x)).map some).length : Int) = B := by
          rw [List.length_map, hlen]
        have hall : copyOut ((unpack (step r.x)).map some) 0 (B : Int) =
            (unpack (step r.x)).map some := by
          have := copyOut_all (unpack (step r.x))
          rwa [hlen] at this
        have hjoin : ∀ c : Int, 0 ≤ c →
            copyOut ((unpack (step r.x)).map some) 0 (n1 : Int) ++
              copyOut ((unpack (step r.x)).map some) (n1 : Int) c =
            copyOut ((unpack (step r.x)).map some) 0 ((n1 : Int) + c) := by
          intro c hc
          have := copyOut_add ((unpack (step r.x)).map some) 0 (Int.natCast_nonneg n1) hc
          rw [zero_add] at this
          exact this.symm
        by_cases hfit : (n1 : Int) + n2 ≤ B
        · rw [read_drain _ hn2 hfit]
          by_cases hlt : (n1 : Int) + n2 < B
          · rw [read_tail r hr (by omega) hlt]
            exact ⟨hjoin n2 hn2, Reader.Equiv.refl _⟩
          · have heq : (n1 : Int) + n2 = B := by omega
            rw [heq, read_bulk hB r hr (le_refl _), sub_self, read_zero]
            refine ⟨?_, Reader.equiv_of_full rfl rfl hr⟩
            show copyOut _ 0 (n1 : Int) ++ copyOut _ (n1 : Int) n2 = _ ++ []
            rw [hjoin n2 hn2, heq, hall, List.append_nil]
        · have hge : (B : Int) ≤ (n1 : Int) + n2 := by omega
          rw [read_drain_all hB _ (show (n1 : Int) ≤ B by omega) (by simp only; omega),
            read_bulk hB r hr hge]
          obtain ⟨k, hk⟩ : ∃ k : Nat, (n1 : Int) + n2 - B = (k : Int) :=
            ⟨((n1 : Int) + n2 - B).toNat, by omega⟩
          have hk' : n2 - ((B : Int) - n1) = (k : Int) := by omega
          simp only [hk, hk']
          obtain ⟨e1, e2⟩ := @read_full_congr B step unpack hB k
            ⟨step r.x, (unpack (step r.x)).map some, B⟩ { r with x := step r.x } rfl rfl hr
          refine ⟨?_, e2⟩
          rw [← List.append_assoc, e1]
          congr 1
          show copyOut _ 0 (n1 : Int) ++ copyOut _ (n1 : Int) ((B : Int) - n1) = _
          rw [hjoin _ (by omega), show (n1 : Int) + ((B : Int) - n1) = B by omega, hall]
      · -- the first read starts with a full batch
        have hge1 : (B : Int) ≤ (n1 : Int) := by omega
        have hge : (B : Int) ≤ (n1 : Int) + n2 := by omega
        rw [read_bulk hB r hr hge1, read_bulk hB r hr hge]
        have hcast : (n1 : Int) - (B : Int) = ((n1 - B : Nat) : Int) := by omega
        have hcast2 : (n1 : Int) + n2 - (B : Int) = ((n1 - B : Nat) : Int) + n2 := by omega
        rw [hcast, hcast2]
        obtain ⟨e1, e2⟩ := ih (n1 - B) (by omega) { r with x := step r.x } n2 hr hn2
        refine ⟨?_, e2⟩
        rw [List.append_assoc, e1]

/-- Batching consistency of the reader: two reads in a row write what one
read of the total writes, and end in equivalent states. -/
theorem read_split (hB : 0 < B) (hlen : ∀ x, (unpack x).length = B) (r : Reader)
    (_h0 : 0 ≤ r.pos) (hle : r.pos ≤ B) {n1 n2 : Int} (hn1 : 0 ≤ n1) (hn2 : 0 ≤ n2) :
    (read B step unpack r n1).2 ++ (read B step unpack (read B step unpack r n1).1 n2).2 =
        (read B step unpack r (n1 + n2)).2 ∧
      Reader.Equiv B (read B step unpack (read B step unpack r n1).1 n2).1
        (read B step unpack r (n1 + n2)).1 := by
  by_cases hfit1 : r.pos + n1 ≤ B
  · rw [read_drain r hn1 hfit1]
    by_cases hfit : r.pos + (n1 + n2) ≤ B
    · rw [read_drain _ hn2 (by simp only; omega), read_drain r (by omega) hfit,
        copyOut_add _ _ hn1 hn2, add_assoc]
      exact ⟨rfl, Reader.Equiv.refl _⟩
    · rw [read_drain_all hB _ (show r.pos + n1 ≤ B from hfit1) (by simp only; omega),
        read_drain_all hB r hle (by omega)]
      have hcnt : n2 - ((B : Int) - (r.pos + n1)) = n1 + n2 - ((B : Int) - r.pos) := by omega
      simp only [hcnt]
      refine ⟨?_, Reader.Equiv.refl _⟩
      rw [← List.append_assoc]
      congr 1
      have hsplit := copyOut_add r.buf r.pos hn1 (show (0 : Int) ≤ (B : Int) - (r.pos + n1) by omega)
      rw [← hsplit]
      congr 1
      omega
  · rw [read_drain_all hB r hle (by omega), read_drain_all hB r hle (by omega)]
    obtain ⟨k, hk⟩ : ∃ k : Nat, n1 - ((B : Int) - r.pos) = (k : Int) :=
      ⟨(n1 - ((B : Int) - r.pos)).toNat, by omega⟩
    have hk' : n1 + n2 - ((B : Int) - r.pos) = (k : Int) + n2 := by omega
    simp only [hk, hk']
    obtain ⟨e1, e2⟩ := @read_split_full B step unpack hB hlen k { r with pos := B } n2 rfl hn2
    refine ⟨?_, e2⟩
    rw [List.append_assoc, e1]


/-! ### What a read from an empty buffer writes -/

theorem readBuf_map_some_nat (l : List ℚ) (i : Nat) : readBuf (l.map some) (i : Int) = l[i]? := by
  unfold readBuf
  rw [if_pos (Int.natCast_nonneg i), Int.toNat_ofNat, List.getD_eq_getElem?_getD,
    List.getElem?_map]
  cases l[i]? <;> rfl

theorem copyOut_getElem? (buf : List (Option ℚ)) (pos cnt : Int) {i : Nat} (h : i < cnt.toNat) :
    (copyOut buf pos cnt)[i]? = some (readBuf buf (pos + i)) := by
  unfold copyOut
  rw [List.getElem?_map, List.getElem?_range h]
  rfl

theorem getElem?_map_some_of_lt (l : List ℚ) {i : Nat} (h : i < l.length) :
    (l.map some)[i]? = some (l[i]?) := by
  rw [List.getElem?_map, List.getElem?_eq_getElem h]
  rfl

theorem read_full_spec (hB : 0 < B) (hlen : ∀ x, (unpack x).length = B) :
    ∀ (n : Nat) (r : Reader), r.pos = B →
      (read B step unpack r n).2.length = n ∧
        (∀ i, i < n →
          (read B step unpack r n).2[i]? = some ((unpack (step^[i / B + 1] r.x))[i % B]?)) ∧
        (read B step unpack r n).1.x = step^[(n + B - 1) / B] r.x ∧
        (read B step unpack r n).1.pos = (if n % B = 0 then (B : Int) else ((n % B : Nat) : Int)) := by
  intro n
  induction n using Nat.strong_induction_on with
  | _ n ih =>
    intro r hpos
    by_cases hn0 : n = 0
    · subst hn0
      rw [Nat.cast_zero, read_zero]
      refine ⟨rfl, fun i hi => absurd hi (Nat.not_lt_zero i), ?_, ?_⟩
      · rw [Nat.div_eq_of_lt (by omega)]
        rfl
      · simpa using hpos
    · by_cases hnB : n < B
      · rw [read_tail r hpos (by omega) (by omega)]
        refine ⟨?_, ?_, ?_, ?_⟩
        · rw [copyOut_length, Int.toNat_ofNat]
        · intro i hi
          show (copyOut _ 0 (n : Int))[i]? = _
          rw [copyOut_getElem? _ _ _ (by rw [Int.toNat_ofNat]; exact hi), zero_add,
            readBuf_map_some_nat, Nat.div_eq_of_lt (by omega), Nat.mod_eq_of_lt (by omega)]
          rfl
        · have h1 : (n + B - 1) / B = 1 := by
            rw [show n + B - 1 = (n - 1) + B by omega, Nat.add_div_right _ hB,
              Nat.div_eq_of_lt (by omega)]
          rw [h1]
          rfl
        · have hm : n % B = n := Nat.mod_eq_of_lt hnB
          rw [hm, if_neg hn0]
      · have hge : (B : Int) ≤ (n : Int) := by omega
        rw [read_bulk hB r hpos hge]
        have hcast : (n : Int) - (B : Int) = ((n - B : Nat) : Int) := by omega
        rw [hcast]
        obtain ⟨e1, e2, e3, e4⟩ := ih (n - B) (by omega) { r with x := step r.x } hpos
        have hUlen : ((unpack (step r.x)).map some).length = B := by
          rw [List.length_map, hlen]
        refine ⟨?_, ?_, ?_, ?_⟩
        · show List.length (_ ++ _) = n
          rw [List.length_append, e1, hUlen]
          omega
        · intro i hi
          simp only []
          by_cases hiB : i < B
          · rw [List.getElem?_append_left (by rw [hUlen]; exact hiB),
              getElem?_map_some_of_lt _ (by rw [hlen]; exact hiB), Nat.div_eq_of_lt hiB,
              Nat.mod_eq_of_lt hiB]
            rfl
          · obtain ⟨j, rfl⟩ : ∃ j, i = j + B := ⟨i - B, by omega⟩
            rw [List.getElem?_append_right (by rw [hUlen]; omega), hUlen, Nat.add_sub_cancel,
              e2 j (by omega), Nat.add_div_right _ hB, Nat.add_mod_right,
              ← Function.iterate_succ_apply]
        · show (read B step unpack _ _).1.x = _
          rw [e3, show n + B - 1 = (n - B + B - 1) + B by omega, Nat.add_div_right _ hB,
            ← Function.iterate_succ_apply]
        · show (read B step unpack _ _).1.pos = _
          rw [e4]
          have hm : (n - B) % B = n % B := by
            conv_rhs => rw [show n = (n - B) + B by omega, Nat.add_mod_right]
          rw [hm]

end Reader

theorem doublesLoop_eq (mul : Limbs → Limbs → Limbs) :
    ∀ (fuel : Nat) (g : ranluxpp) (n : Int) (out : List (Option ℚ)),
      doublesLoop mul fuel g n out =
        (g.withDoubleReader
            (readLoop 11 (fun x => mul x g._A) unpackdoubles fuel g.doubleReader n out).1,
          (readLoop 11 (fun x => mul x g._A) unpackdoubles fuel g.doubleReader n out).2) := by
  intro fuel
  induction fuel with
  | zero => intro g n out; rfl
  | succ fuel ih =>
    intro g n out
    by_cases h : n ≥ 11
    · have h' : n ≥ ((11 : Nat) : Int) := h
      simp only [doublesLoop, readLoop, if_pos h, if_pos h']
      rw [ih]
      rfl
    · have h' : ¬ n ≥ ((11 : Nat) : Int) := h
      simp only [doublesLoop, readLoop, if_neg h, if_neg h']
      rfl

theorem getarray_double_eq (mul : Limbs → Limbs → Limbs) (g : ranluxpp) (n : Int) :
    g.getarray_double mul n =
      (g.withDoubleReader (read 11 (fun x => mul x g._A) unpackdoubles g.doubleReader n).1,
        (read 11 (fun x => mul x g._A) unpackdoubles g.doubleReader n).2) := by
  unfold ranluxpp.getarray_double read
  simp only [doublesLoop_eq, ranluxpp.doubleReader, Nat.cast_ofNat]
  by_cases h : g._dpos < 11
  · simp only [if_pos h]
    split_ifs <;> rfl
  · simp only [if_neg h]
    split_ifs <;> rfl

theorem unpackfloats_length (x : Limbs) : (unpackfloats x).length = 24 := rfl

theorem unpackdoubles_length (x : Limbs) : (unpackdoubles x).length = 11 := rfl

theorem isField_bounds {w : Nat} {q : ℚ} (h : IsField w q) : 0 ≤ q ∧ q < 1 := by
  obtain ⟨k, hk, rfl⟩ := h
  have hpos : (0 : ℚ) < 2 ^ w := by positivity
  refine ⟨by positivity, ?_⟩
  rw [div_lt_one hpos]
  exact_mod_cast hk

theorem float_field_isField (v : Nat) :
    IsField 24 ((1 / 2 ^ 24 : ℚ) * (toInt32 (0xffffff &&& v) : Int)) :=
  ⟨v % 2 ^ 24, Nat.mod_lt _ (by norm_num), float_field v _ rfl⟩

theorem double_field_isField (v : Nat) :
    IsField 52 (doubleOfBits (0x3ff0000000000000 ||| (0x000fffffffffffff &&& v)) - 1) := by
  have hlt : v % 2 ^ 52 < 2 ^ 52 := Nat.mod_lt _ (by norm_num)
  refine ⟨v % 2 ^ 52, hlt, ?_⟩
  rw [mask52, doubleOfBits_one_or hlt]

theorem unpackfloatsGroup_isField (x : Limbs) (i : Nat) :
    ∀ v ∈ unpackfloatsGroup x i, IsField 24 v := by
  intro v hv
  simp only [unpackfloatsGroup, List.mem_cons, List.mem_singleton, List.not_mem_nil,
    or_false] at hv
  rcases hv with h | h | h | h | h | h | h | h <;> subst h <;> exact float_field_isField _

theorem unpackfloats_isField (x : Limbs) : ∀ v ∈ unpackfloats x, IsField 24 v := by
  intro v hv
  simp only [unpackfloats, List.mem_append] at hv
  rcases hv with (h | h) | h <;> exact unpackfloatsGroup_isField x _ v h

theorem unpackdoubles_isField (x : Limbs) : ∀ v ∈ unpackdoubles x, IsField 52 v := by
  intro v hv
  simp only [unpackdoubles, unpackdoublesBits, List.map, List.mem_cons, List.mem_singleton,
    List.not_mem_nil, or_false] at hv
  rcases hv with h | h | h | h | h | h | h | h | h | h | h <;> subst h <;>
    exact double_field_isField _

/-! ## The claims -/

/-- C1: assuming the contract of `mul9x9mod`, for every residue `b` and every
64-bit exponent `n` the loop of `powmod` leaves by its own test (with `n = 0`,
whatever fuel of at least 64 passes it is given), and `powmod(b, n)` leaves in
`x` the residue `b^n mod m`; `powmod(b, 0)` leaves `x = 1` for every `b`. -/
theorem C1_powmod_correct (mul : Limbs → Limbs → Limbs) (hmul : MulContract mul) (b : Limbs)
    (hb : Residue b) (n : Nat) (hn : n < 2 ^ 64) :
    (∀ fuel, 64 ≤ fuel → (powmodLoop mul fuel one9 b n).2.2 = 0 ∧
      (powmodLoop mul fuel one9 b n).1 = powmod mul b n) ∧
    Residue (powmod mul b n) ∧
    limbsVal (powmod mul b n) = limbsVal b ^ n % modulus ∧
    powmod mul b 0 = one9 ∧ limbsVal (powmod mul b 0) = 1 := by
  obtain ⟨r, v⟩ := powmod_spec hmul hb hn
  refine ⟨?_, r, v, rfl, limbsVal_one9⟩
  intro fuel hfuel
  obtain ⟨extra, rfl⟩ : ∃ e, fuel = 64 + e := ⟨fuel - 64, by omega⟩
  rw [powmodLoop_fuel mul 64 extra one9 b n hn]
  exact ⟨(powmodLoop_spec hmul 64 one9 b n residue_one9 hb hn).1, rfl⟩

theorem C1_powmod_correct_witness :
    MulContract mul9x9mod ∧ Residue geta ∧ 5 < 2 ^ 64 ∧
      limbsVal (powmod mul9x9mod geta 5) = limbsVal geta ^ 5 % modulus :=
  ⟨mul9x9mod_contract, residue_geta, by decide,
    (C1_powmod_correct mul9x9mod mul9x9mod_contract geta residue_geta 5 (by decide)).2.2.1⟩

/-- C2: for every 64-bit seed and skip exponent `p` the constructor leaves
`A = a^p mod m` and `x = a^(p * 2^96 * seed) mod m`, the float cursor at 24 and
the double cursor at 11. -/
theorem C2_constructor (mul : Limbs → Limbs → Limbs) (hmul : MulContract mul) (seed p : Nat)
    (hseed : seed < 2 ^ 64) (hp : p < 2 ^ 64) :
    Residue (ranluxpp.ctor mul seed p)._A ∧
    limbsVal (ranluxpp.ctor mul seed p)._A = limbsVal geta ^ p % modulus ∧
    Residue (ranluxpp.ctor mul seed p)._x ∧
    limbsVal (ranluxpp.ctor mul seed p)._x = limbsVal geta ^ (p * 2 ^ 96 * seed) % modulus ∧
    (ranluxpp.ctor mul seed p)._fpos = 24 ∧ (ranluxpp.ctor mul seed p)._dpos = 11 := by
  obtain ⟨h1, h2, h3, h4⟩ := ctor_spec hmul hseed hp
  exact ⟨h1, h2, h3, h4, rfl, rfl⟩

theorem C2_constructor_witness :
    MulContract mul9x9mod ∧ 7 < 2 ^ 64 ∧ 2048 < 2 ^ 64 ∧
      limbsVal (ranluxpp.ctor mul9x9mod 7 2048)._x =
        limbsVal geta ^ (2048 * 2 ^ 96 * 7) % modulus :=
  ⟨mul9x9mod_contract, by decide, by decide,
    (C2_constructor mul9x9mod mul9x9mod_contract 7 2048 (by decide) (by decide)).2.2.2.1⟩

theorem iterate_nextstate_x (mul : Limbs → Limbs → Limbs) (g : ranluxpp) (k : Nat) :
    ((ranluxpp.nextstate mul)^[k] g)._x = (fun x => mul x g._A)^[k] g._x ∧
      ((ranluxpp.nextstate mul)^[k] g)._A = g._A := by
  induction k with
  | zero => exact ⟨rfl, rfl⟩
  | succ k ih =>
    rw [Function.iterate_succ_apply', Function.iterate_succ_apply']
    refine ⟨?_, ih.2⟩
    show mul _ _ = mul _ _
    rw [ih.1, ih.2]

theorem iterate_mul_eq {mul : Limbs → Limbs → Limbs} (hmul : MulContract mul) (g : ranluxpp)
    (hx : Residue g._x) (hA : Residue g._A) (k : Nat) :
    (fun x => mul x g._A)^[k] g._x = toLimbs (limbsVal g._x * limbsVal g._A ^ k % modulus) := by
  obtain ⟨r, v, _⟩ := iterate_nextstate_spec hmul g hx hA k
  rw [(iterate_nextstate_x mul g k).1] at r v
  have hlt : limbsVal g._x * limbsVal g._A ^ k % modulus < 2 ^ 576 :=
    lt_trans (Nat.mod_lt _ modulus_pos) modulus_lt
  apply limbsVal_injective r.1 (toLimbs_wellFormed _)
  rw [v, limbsVal_toLimbs hlt]

/-- C3: a read of `n >= 0` values that starts with an empty buffer (cursor at
`B`) writes `n` values, the `i`-th being field `i mod B` of the state
`x * A^(i/B + 1) mod m`, and leaves `x * A^ceil(n/B) mod m` in `x`, reached by
exactly `ceil(n/B)` state advances; for floats (`B = 24`) and doubles
(`B = 11`). -/
theorem C3_getarray_from_empty (mul : Limbs → Limbs → Limbs) (hmul : MulContract mul)
    (g : ranluxpp) (hx : Residue g._x) (hA : Residue g._A) (n : Int) (hn : 0 ≤ n) :
    (g._fpos = 24 →
      (g.getarray_float mul n).2.length = n.toNat ∧
      (∀ i, i < n.toNat → (g.getarray_float mul n).2[i]? =
        some ((unpackfloats
          (toLimbs (limbsVal g._x * limbsVal g._A ^ (i / 24 + 1) % modulus)))[i % 24]?)) ∧
      (g.getarray_float mul n).1._x = ((ranluxpp.nextstate mul)^[(n.toNat + 23) / 24] g)._x ∧
      limbsVal (g.getarray_float mul n).1._x =
        limbsVal g._x * limbsVal g._A ^ ((n.toNat + 23) / 24) % modulus) ∧
    (g._dpos = 11 →
      (g.getarray_double mul n).2.length = n.toNat ∧
      (∀ i, i < n.toNat → (g.getarray_double mul n).2[i]? =
        some ((unpackdoubles
          (toLimbs (limbsVal g._x * limbsVal g._A ^ (i / 11 + 1) % modulus)))[i % 11]?)) ∧
      (g.getarray_double mul n).1._x = ((ranluxpp.nextstate mul)^[(n.toNat + 10) / 11] g)._x ∧
      limbsVal (g.getarray_double mul n).1._x =
        limbsVal g._x * limbsVal g._A ^ ((n.toNat + 10) / 11) % modulus) := by
  have hcast : n = ((n.toNat : Nat) : Int) := (Int.toNat_of_nonneg hn).symm
  constructor
  · intro hpos
    obtain ⟨e1, e2, e3, _⟩ := @read_full_spec 24 (fun x => mul x g._A) unpackfloats
      (by norm_num) unpackfloats_length n.toNat
      g.floatReader hpos
    rw [← hcast] at e1 e2 e3
    rw [getarray_float_eq]
    refine ⟨e1, ?_, ?_, ?_⟩
    · intro i hi
      rw [← iterate_mul_eq hmul g hx hA]
      exact e2 i hi
    · rw [(iterate_nextstate_x mul g _).1]
      exact e3
    · obtain ⟨_, v, _⟩ := iterate_nextstate_spec hmul g hx hA ((n.toNat + 23) / 24)
      rw [← v, (iterate_nextstate_x mul g _).1]
      exact congrArg limbsVal e3
  · intro hpos
    obtain ⟨e1, e2, e3, _⟩ := @read_full_spec 11 (fun x => mul x g._A) unpackdoubles
      (by norm_num) unpackdoubles_length n.toNat
      g.doubleReader hpos
    rw [← hcast] at e1 e2 e3
    rw [getarray_double_eq]
    refine ⟨e1, ?_, ?_, ?_⟩
    · intro i hi
      rw [← iterate_mul_eq hmul g hx hA]
      exact e2 i hi
    · rw [(iterate_nextstate_x mul g _).1]
      exact e3
    · obtain ⟨_, v, _⟩ := iterate_nextstate_spec hmul g hx hA ((n.toNat + 10) / 11)
      rw [← v, (iterate_nextstate_x mul g _).1]
      exact congrArg limbsVal e3

theorem C3_getarray_from_empty_witness :
    MulContract mul9x9mod ∧ Residue (ranluxpp.ctor mul9x9mod 1 1)._x ∧
      Residue (ranluxpp.ctor mul9x9mod 1 1)._A ∧ (0 : Int) ≤ 30 ∧
      (ranluxpp.ctor mul9x9mod 1 1)._fpos = 24 ∧ (ranluxpp.ctor mul9x9mod 1 1)._dpos = 11 ∧
      ((ranluxpp.ctor mul9x9mod 1 1).getarray_float mul9x9mod 30).2.length = 30 ∧
      ((ranluxpp.ctor mul9x9mod 1 1).getarray_double mul9x9mod 30).2.length = 30 :=
  have hc := ctor_spec mul9x9mod_contract (show 1 < 2 ^ 64 by decide) (show 1 < 2 ^ 64 by decide)
  ⟨mul9x9mod_contract, hc.2.2.1, hc.1, by decide, rfl, rfl,
    ((C3_getarray_from_empty mul9x9mod mul9x9mod_contract (ranluxpp.ctor mul9x9mod 1 1)
      hc.2.2.1 hc.1 30 (by decide)).1 rfl).1,
    ((C3_getarray_from_empty mul9x9mod mul9x9mod_contract (ranluxpp.ctor mul9x9mod 1 1)
      hc.2.2.1 hc.1 30 (by decide)).2 rfl).1⟩

/-- C4: batching consistency. For a cursor in `[0, B]` and counts
`n1, n2 >= 0`, `getarray(n1)` followed by `getarray(n2)` writes the same
values in the same order as `getarray(n1 + n2)`, and both ways end with the
same `x`, the same cursor and the same buffered fields from the cursor on (and
the same `A` and other-precision members); for floats and for doubles. -/
theorem C4_batching (mul : Limbs → Limbs → Limbs) (g : ranluxpp) (n1 n2 : Int)
    (hn1 : 0 ≤ n1) (hn2 : 0 ≤ n2) :
    (0 ≤ g._fpos → g._fpos ≤ 24 →
      (g.getarray_float mul n1).2 ++ ((g.getarray_float mul n1).1.getarray_float mul n2).2 =
        (g.getarray_float mul (n1 + n2)).2 ∧
      ((g.getarray_float mul n1).1.getarray_float mul n2).1._x =
        (g.getarray_float mul (n1 + n2)).1._x ∧
      ((g.getarray_float mul n1).1.getarray_float mul n2).1._fpos =
        (g.getarray_float mul (n1 + n2)).1._fpos ∧
      (∀ i : Int, (g.getarray_float mul (n1 + n2)).1._fpos ≤ i → i < 24 →
        readBuf ((g.getarray_float mul n1).1.getarray_float mul n2).1._floats i =
          readBuf (g.getarray_float mul (n1 + n2)).1._floats i) ∧
      ((g.getarray_float mul n1).1.getarray_float mul n2).1._A =
        (g.getarray_float mul (n1 + n2)).1._A ∧
      ((g.getarray_float mul n1).1.getarray_float mul n2).1._dpos =
        (g.getarray_float mul (n1 + n2)).1._dpos ∧
      ((g.getarray_float mul n1).1.getarray_float mul n2).1._doubles =
        (g.getarray_float mul (n1 + n2)).1._doubles) ∧
    (0 ≤ g._dpos → g._dpos ≤ 11 →
      (g.getarray_double mul n1).2 ++ ((g.getarray_double mul n1).1.getarray_double mul n2).2 =
        (g.getarray_double mul (n1 + n2)).2 ∧
      ((g.getarray_double mul n1).1.getarray_double mul n2).1._x =
        (g.getarray_double mul (n1 + n2)).1._x ∧
      ((g.getarray_double mul n1).1.getarray_double mul n2).1._dpos =
        (g.getarray_double mul (n1 + n2)).1._dpos ∧
      (∀ i : Int, (g.getarray_double mul (n1 + n2)).1._dpos ≤ i → i < 11 →
        readBuf ((g.getarray_double mul n1).1.getarray_double mul n2).1._doubles i =
          readBuf (g.getarray_double mul (n1 + n2)).1._doubles i) ∧
      ((g.getarray_double mul n1).1.getarray_double mul n2).1._A =
        (g.getarray_double mul (n1 + n2)).1._A ∧
      ((g.getarray_double mul n1).1.getarray_double mul n2).1._fpos =
        (g.getarray_double mul (n1 + n2)).1._fpos ∧
      ((g.getarray_double mul n1).1.getarray_double mul n2).1._floats =
        (g.getarray_double mul (n1 + n2)).1._floats) := by
  constructor
  · intro h0 hle
    obtain ⟨e1, e2, e3, e4⟩ := @read_split 24 (fun x => mul x g._A) unpackfloats (by norm_num)
      unpackfloats_length g.floatReader h0 hle n1 n2 hn1 hn2
    simp only [getarray_float_eq]
    refine ⟨e1, e2, e3, ?_, rfl, rfl, rfl⟩
    intro i hi hi24
    exact e4 i (e3 ▸ hi) hi24
  · intro h0 hle
    obtain ⟨e1, e2, e3, e4⟩ := @read_split 11 (fun x => mul x g._A) unpackdoubles (by norm_num)
      unpackdoubles_length g.doubleReader h0 hle n1 n2 hn1 hn2
    simp only [getarray_double_eq]
    refine ⟨e1, e2, e3, ?_, rfl, rfl, rfl⟩
    intro i hi hi11
    exact e4 i (e3 ▸ hi) hi11

theorem C4_batching_witness :
    (0 : Int) ≤ 5 ∧ (0 : Int) ≤ 43 ∧ (0 : Int) ≤ (ranluxpp.ctor mul9x9mod 1 1)._fpos ∧
      (ranluxpp.ctor mul9x9mod 1 1)._fpos ≤ 24 ∧
      (0 : Int) ≤ (ranluxpp.ctor mul9x9mod 1 1)._dpos ∧
      (ranluxpp.ctor mul9x9mod 1 1)._dpos ≤ 11 ∧
      ((ranluxpp.ctor mul9x9mod 1 1).getarray_float mul9x9mod 5).2 ++
          (((ranluxpp.ctor mul9x9mod 1 1).getarray_float mul9x9mod 5).1.getarray_float
            mul9x9mod 43).2 =
        ((ranluxpp.ctor mul9x9mod 1 1).getarray_float mul9x9mod (5 + 43)).2 ∧
      ((ranluxpp.ctor mul9x9mod 1 1).getarray_double mul9x9mod 5).2 ++
          (((ranluxpp.ctor mul9x9mod 1 1).getarray_double mul9x9mod 5).1.getarray_double
            mul9x9mod 43).2 =
        ((ranluxpp.ctor mul9x9mod 1 1).getarray_double mul9x9mod (5 + 43)).2 :=
  ⟨by decide, by decide, by decide, by decide, by decide, by decide,
    ((C4_batching mul9x9mod (ranluxpp.ctor mul9x9mod 1 1) 5 43 (by decide) (by decide)).1
      (by decide) (by decide)).1,
    ((C4_batching mul9x9mod (ranluxpp.ctor mul9x9mod 1 1) 5 43 (by decide) (by decide)).2
      (by decide) (by decide)).1⟩

/-- The buffer invariant of a generator: on each side the cursor is in range
and every field from the cursor on has been written by an extraction. -/
theorem reachable_good (mul : Limbs → Limbs → Limbs) {g : ranluxpp} (hg : Reachable mul g) :
    Reader.Good 24 (IsField 24) g.floatReader ∧ Reader.Good 11 (IsField 52) g.doubleReader := by
  induction hg with
  | ctor seed p _ _ =>
    constructor
    · refine ⟨show (0 : Int) ≤ 24 by decide, show (24 : Int) ≤ 24 by decide, ?_⟩
      intro i hi hi24
      have hi' : (24 : Int) ≤ i := hi
      have hi24' : i < 24 := hi24
      omega
    · refine ⟨show (0 : Int) ≤ 11 by decide, show (11 : Int) ≤ 11 by decide, ?_⟩
      intro i hi hi11
      have hi' : (11 : Int) ≤ i := hi
      have hi11' : i < 11 := hi11
      omega
  | getarray_float g n _ hn _ ih =>
    rw [getarray_float_eq]
    exact ⟨(read_good (by norm_num) unpackfloats_length unpackfloats_isField _ ih.1 hn).1, ih.2⟩
  | getarray_double g n _ hn _ ih =>
    rw [getarray_double_eq]
    exact ⟨ih.1, (read_good (by norm_num) unpackdoubles_length unpackdoubles_isField _ ih.2 hn).1⟩
  | jump g n _ _ ih => exact ih
  | setskip g n _ _ ih => exact ih
  | primitive g _ ih => exact ih

/-- C5: every value that either `getarray` writes, from any generator state
reachable from the constructor by API calls with non-negative read counts, is
a written field `k / 2^24` (floats) or `k / 2^52` (doubles) with
`0 <= k < 2^24` (`2^52`), hence lies in `[0, 1)`; no unwritten buffer slot is
ever copied out. -/
theorem C5_values_in_unit_interval (mul : Limbs → Limbs → Limbs) (g : ranluxpp)
    (hg : Reachable mul g) (n : Int) (hn : 0 ≤ n) :
    (∀ o ∈ (g.getarray_float mul n).2,
      ∃ q : ℚ, o = some q ∧ IsField 24 q ∧ 0 ≤ q ∧ q < 1) ∧
    (∀ o ∈ (g.getarray_double mul n).2,
      ∃ q : ℚ, o = some q ∧ IsField 52 q ∧ 0 ≤ q ∧ q < 1) := by
  obtain ⟨hf, hd⟩ := reachable_good mul hg
  constructor
  · intro o ho
    rw [getarray_float_eq] at ho
    obtain ⟨q, rfl, hq⟩ :=
      (read_good (by norm_num) unpackfloats_length unpackfloats_isField _ hf hn).2 o ho
    exact ⟨q, rfl, hq, isField_bounds hq⟩
  · intro o ho
    rw [getarray_double_eq] at ho
    obtain ⟨q, rfl, hq⟩ :=
      (read_good (by norm_num) unpackdoubles_length unpackdoubles_isField _ hd hn).2 o ho
    exact ⟨q, rfl, hq, isField_bounds hq⟩

theorem C5_values_in_unit_interval_witness :
    Reachable mul9x9mod (((ranluxpp.ctor mul9x9mod 1 2048).jump mul9x9mod 5).getarray_float
      mul9x9mod 7).1 ∧ (0 : Int) ≤ 100 ∧
    ∀ o ∈ ((((ranluxpp.ctor mul9x9mod 1 2048).jump mul9x9mod 5).getarray_float
        mul9x9mod 7).1.getarray_double mul9x9mod 100).2,
      ∃ q : ℚ, o = some q ∧ IsField 52 q ∧ 0 ≤ q ∧ q < 1 :=
  have hr : Reachable mul9x9mod
      (((ranluxpp.ctor mul9x9mod 1 2048).jump mul9x9mod 5).getarray_float mul9x9mod 7).1 :=
    Reachable.getarray_float _ 7
      (Reachable.jump _ 5 (Reachable.ctor 1 2048 (by decide) (by decide)) (by decide))
      (by decide) (by decide)
  ⟨hr, by decide, (C5_values_in_unit_interval mul9x9mod _ hr 100 (by decide)).2⟩

theorem wellFormed_val_cases {x : Limbs} (h : WellFormed x) :
    unpackfloats x = (List.range 24).map (fun k =>
        ((limbsVal x / 2 ^ (24 * k) % 2 ^ 24 : Nat) : ℚ) / 2 ^ 24) ∧
      unpackdoublesBits x = (List.range 11).map (fun k =>
        0x3ff0000000000000 ||| (limbsVal x / 2 ^ (52 * k) % 2 ^ 52)) := by
  obtain ⟨t0, t1, t2, t3, t4, t5, t6, t7, t8, rfl, h0, h1, h2, h3, h4, h5, h6, h7, h8⟩ :=
    wellFormed_cases h
  exact ⟨unpackfloats_nine t0 t1 t2 t3 t4 t5 t6 t7 t8 h0 h1 h2 h3 h4 h5 h6 h7 h8,
    unpackdoublesBits_nine t0 t1 t2 t3 t4 t5 t6 t7 t8 h0 h1 h2 h3 h4 h5 h6 h7 h8⟩

/-- C6: for nine limbs of value `X`, `unpackfloats` writes 24 values, the
`k`-th being `(X / 2^(24 k) mod 2^24) / 2^24`; the 24 fields are the base-`2^24`
digits of `X` in ascending order, so they cover all 576 bits
(`sum field_k * 2^(24 k) = X`); and the extraction leaves `x` as the state
advance left it. -/
theorem C6_unpackfloats_fields (x : Limbs) (hx : WellFormed x) :
    (unpackfloats x).length = 24 ∧
    (∀ k, k < 24 → (unpackfloats x)[k]? =
      some (((limbsVal x / 2 ^ (24 * k) % 2 ^ 24 : Nat) : ℚ) / 2 ^ 24)) ∧
    (∑ k in Finset.range 24, (limbsVal x / 2 ^ (24 * k) % 2 ^ 24) * 2 ^ (24 * k) =
      limbsVal x) ∧
    (∀ (mul : Limbs → Limbs → Limbs) (g : ranluxpp),
      (g.nextfloats mul)._x = (g.nextstate mul)._x) := by
  refine ⟨rfl, ?_, digits24_sum _ (limbsVal_lt hx), fun _ _ => rfl⟩
  intro k hk
  rw [(wellFormed_val_cases hx).1, List.getElem?_map, List.getElem?_range hk]
  rfl

theorem C6_unpackfloats_fields_witness :
    WellFormed geta ∧
      (unpackfloats geta)[9]? =
        some (((limbsVal geta / 2 ^ (24 * 9) % 2 ^ 24 : Nat) : ℚ) / 2 ^ 24) :=
  ⟨residue_geta.1, (C6_unpackfloats_fields geta residue_geta.1).2.1 9 (by decide)⟩

/-- C7: for nine limbs of value `X`, `unpackdoubles` writes 11 values; the
bit pattern built for value `k` is `0x3ff0000000000000 OR (X / 2^(52 k) mod 2^52)`
and the value left is `(X / 2^(52 k) mod 2^52) / 2^52`; the 11 mantissa fields
are the base-`2^52` digits of `X mod 2^572`, so bits 572..575 do not reach the
output; and the extraction leaves `x` as the state advance left it. -/
theorem C7_unpackdoubles_fields (x : Limbs) (hx : WellFormed x) :
    (unpackdoubles x).length = 11 ∧
    (∀ k, k < 11 →
      (unpackdoublesBits x)[k]? =
        some (0x3ff0000000000000 ||| (limbsVal x / 2 ^ (52 * k) % 2 ^ 52)) ∧
      (unpackdoubles x)[k]? =
        some (((limbsVal x / 2 ^ (52 * k) % 2 ^ 52 : Nat) : ℚ) / 2 ^ 52)) ∧
    (∑ k in Finset.range 11, (limbsVal x / 2 ^ (52 * k) % 2 ^ 52) * 2 ^ (52 * k) =
      limbsVal x % 2 ^ 572) ∧
    (∀ y : Limbs, WellFormed y → limbsVal y % 2 ^ 572 = limbsVal x % 2 ^ 572 →
      unpackdoubles y = unpackdoubles x) ∧
    (∀ (mul : Limbs → Limbs → Limbs) (g : ranluxpp),
      (g.nextdoubles mul)._x = (g.nextstate mul)._x) := by
  have hbits : ∀ k, k < 11 → (unpackdoublesBits x)[k]? =
      some (0x3ff0000000000000 ||| (limbsVal x / 2 ^ (52 * k) % 2 ^ 52)) := by
    intro k hk
    rw [(wellFormed_val_cases hx).2, List.getElem?_map, List.getElem?_range hk]
    rfl
  refine ⟨rfl, ?_, digits52_sum _, ?_, fun _ _ => rfl⟩
  · intro k hk
    refine ⟨hbits k hk, ?_⟩
    unfold unpackdoubles
    rw [List.getElem?_map, hbits k hk]
    show some (doubleOfBits _ - 1) = _
    rw [doubleOfBits_one_or (Nat.mod_lt _ (by norm_num))]
  · intro y hy hxy
    unfold unpackdoubles
    rw [(wellFormed_val_cases hy).2, (wellFormed_val_cases hx).2]
    congr 1
    apply List.map_congr_left
    intro k hk
    have hk' : k < 11 := List.mem_range.mp hk
    have key : ∀ X : Nat, X / 2 ^ (52 * k) % 2 ^ 52 = X % 2 ^ 572 / 2 ^ (52 * k) % 2 ^ 52 := by
      intro X
      interval_cases k <;> omega
    rw [key (limbsVal y), key (limbsVal x), hxy]

theorem C7_unpackdoubles_fields_witness :
    WellFormed geta ∧
      (unpackdoubles geta)[10]? =
        some (((limbsVal geta / 2 ^ (52 * 10) % 2 ^ 52 : Nat) : ℚ) / 2 ^ 52) :=
  ⟨residue_geta.1, ((C7_unpackdoubles_fields geta residue_geta.1).2.1 10 (by decide)).2⟩

/-- C8: for a state whose `x` is a residue and a 64-bit `n`, `jump(n)` leaves
`x * a^n mod m` in `x`, with `a` the constant of `geta` and not the current
multiplier `A`; `A`, both cursors and both field buffers are unchanged, and
`jump(0)` leaves the whole state unchanged. -/
theorem C8_jump (mul : Limbs → Limbs → Limbs) (hmul : MulContract mul) (g : ranluxpp)
    (hx : Residue g._x) (n : Nat) (hn : n < 2 ^ 64) :
    Residue (g.jump mul n)._x ∧
    limbsVal (g.jump mul n)._x = limbsVal g._x * limbsVal geta ^ n % modulus ∧
    (g.jump mul n)._A = g._A ∧
    (g.jump mul n)._fpos = g._fpos ∧ (g.jump mul n)._dpos = g._dpos ∧
    (g.jump mul n)._floats = g._floats ∧ (g.jump mul n)._doubles = g._doubles ∧
    g.jump mul 0 = g := by
  obtain ⟨r, v⟩ := jump_spec hmul g hx hn
  refine ⟨r, v, rfl, rfl, rfl, rfl, rfl, ?_⟩
  obtain ⟨r0, v0⟩ := jump_spec hmul g hx (show 0 < 2 ^ 64 by decide)
  have hx0 : (g.jump mul 0)._x = g._x := by
    apply limbsVal_injective r0.1 hx.1
    rw [v0, pow_zero, mul_one]
    exact Nat.mod_eq_of_lt hx.2
  have hrec : g.jump mul 0 = { g with _x := (g.jump mul 0)._x } := rfl
  rw [hrec, hx0]

theorem C8_jump_witness :
    MulContract mul9x9mod ∧ Residue (ranluxpp.ctor mul9x9mod 3 2048)._x ∧ 1000 < 2 ^ 64 ∧
      limbsVal ((ranluxpp.ctor mul9x9mod 3 2048).jump mul9x9mod 1000)._x =
        limbsVal (ranluxpp.ctor mul9x9mod 3 2048)._x * limbsVal geta ^ 1000 % modulus :=
  have hc := ctor_spec mul9x9mod_contract (show 3 < 2 ^ 64 by decide)
    (show 2048 < 2 ^ 64 by decide)
  ⟨mul9x9mod_contract, hc.2.2.1, by decide,
    (C8_jump mul9x9mod mul9x9mod_contract _ hc.2.2.1 1000 (by decide)).2.1⟩

set_option maxRecDepth 100000 in
/-- C9 fails as stated: with seed 1 and skip exponent 2, `jump(1)` and one
state advance leave different states `x`. -/
theorem C9_jump_equivalence_counterexample :
    ((ranluxpp.ctor mul9x9mod 1 2).jump mul9x9mod 1)._x ≠
      ((ranluxpp.nextstate mul9x9mod)^[1] (ranluxpp.ctor mul9x9mod 1 2))._x := by
  decide

/-- C9, amended: when the multiplier `A` is the fixed base `a` (as it is after
construction with skip exponent 1), for a residue `x` and every 64-bit `n` the
state `x` after `jump(n)` is the state `x` after `n` state advances, so the
field batches extracted next agree. -/
theorem C9_jump_equivalence_base (mul : Limbs → Limbs → Limbs) (hmul : MulContract mul)
    (g : ranluxpp) (hx : Residue g._x) (hA : g._A = geta) (n : Nat) (hn : n < 2 ^ 64) :
    (g.jump mul n)._x = ((ranluxpp.nextstate mul)^[n] g)._x ∧
    ((g.jump mul n).nextfloats mul)._floats =
      (((ranluxpp.nextstate mul)^[n] g).nextfloats mul)._floats ∧
    ((g.jump mul n).nextdoubles mul)._doubles =
      (((ranluxpp.nextstate mul)^[n] g).nextdoubles mul)._doubles ∧
    (∀ seed, seed < 2 ^ 64 →
      Residue (ranluxpp.ctor mul seed 1)._x ∧ (ranluxpp.ctor mul seed 1)._A = geta) := by
  obtain ⟨r, v⟩ := jump_spec hmul g hx hn
  obtain ⟨r', v', eA⟩ := iterate_nextstate_spec hmul g hx (hA ▸ residue_geta) n
  have hxx : (g.jump mul n)._x = ((ranluxpp.nextstate mul)^[n] g)._x := by
    apply limbsVal_injective r.1 r'.1
    rw [v, v', hA]
  refine ⟨hxx, ?_, ?_, ?_⟩
  · show List.map some (unpackfloats (mul (g.jump mul n)._x (g.jump mul n)._A)) =
      List.map some (unpackfloats (mul _ ((ranluxpp.nextstate mul)^[n] g)._A))
    rw [hxx, eA]
    rfl
  · show List.map some (unpackdoubles (mul (g.jump mul n)._x (g.jump mul n)._A)) =
      List.map some (unpackdoubles (mul _ ((ranluxpp.nextstate mul)^[n] g)._A))
    rw [hxx, eA]
    rfl
  · intro seed hseed
    exact ⟨(ctor_spec hmul hseed (show 1 < 2 ^ 64 by decide)).2.2.1, ctor_one_A hmul seed⟩

theorem C9_jump_equivalence_base_witness :
    MulContract mul9x9mod ∧ Residue (ranluxpp.ctor mul9x9mod 1 1)._x ∧
      (ranluxpp.ctor mul9x9mod 1 1)._A = geta ∧ 1000 < 2 ^ 64 ∧
      ((ranluxpp.ctor mul9x9mod 1 1).jump mul9x9mod 1000)._x =
        ((ranluxpp.nextstate mul9x9mod)^[1000] (ranluxpp.ctor mul9x9mod 1 1))._x :=
  have hc := ctor_spec mul9x9mod_contract (show 1 < 2 ^ 64 by decide)
    (show 1 < 2 ^ 64 by decide)
  ⟨mul9x9mod_contract, hc.2.2.1, ctor_one_A mul9x9mod_contract 1, by decide,
    (C9_jump_equivalence_base mul9x9mod mul9x9mod_contract _ hc.2.2.1
      (ctor_one_A mul9x9mod_contract 1) 1000 (by decide)).1⟩

/-- C10: for every state and 64-bit `n`, `setskip(n)` sets `A = a^n mod m`
whatever `A` was before, the same `A` as construction with skip exponent `n`
gives, also when called after `primitive()`; `x`, both cursors and both field
buffers are unchanged. -/
theorem C10_setskip (mul : Limbs → Limbs → Limbs) (hmul : MulContract mul) (g : ranluxpp)
    (n : Nat) (hn : n < 2 ^ 64) :
    Residue (g.setskip mul n)._A ∧
    limbsVal (g.setskip mul n)._A = limbsVal geta ^ n % modulus ∧
    (∀ seed, (g.setskip mul n)._A = (ranluxpp.ctor mul seed n)._A) ∧
    ((g.primitive mul).setskip mul n)._A = (g.setskip mul n)._A ∧
    (g.setskip mul n)._x = g._x ∧
    (g.setskip mul n)._fpos = g._fpos ∧ (g.setskip mul n)._dpos = g._dpos ∧
    (g.setskip mul n)._floats = g._floats ∧ (g.setskip mul n)._doubles = g._doubles := by
  obtain ⟨r, v⟩ := powmod_spec hmul residue_geta hn
  exact ⟨r, v, fun _ => rfl, rfl, rfl, rfl, rfl, rfl, rfl⟩

theorem C10_setskip_witness :
    MulContract mul9x9mod ∧ 389 < 2 ^ 64 ∧
      limbsVal (((ranluxpp.ctor mul9x9mod 1 2048).primitive mul9x9mod).setskip
        mul9x9mod 389)._A = limbsVal geta ^ 389 % modulus :=
  ⟨mul9x9mod_contract, by decide,
    (C10_setskip mul9x9mod mul9x9mod_contract _ 389 (by decide)).2.1⟩

/-- C19: the constant of `geta()` denotes `a = m - (m - 1)/2^24 =
2^576 - 2^552 - 2^240 + 2^216 + 1`; it is a residue with `0 < a < m` and
`a * 2^24 = 1 (mod m)`, so it is the inverse of `2^24` modulo `m`. -/
theorem C19_geta_constant :
    limbsVal geta = modulus - (modulus - 1) / 2 ^ 24 ∧
    limbsVal geta = 2 ^ 576 - 2 ^ 552 - 2 ^ 240 + 2 ^ 216 + 1 ∧
    Residue geta ∧ 0 < limbsVal geta ∧ limbsVal geta < modulus ∧
    limbsVal geta * 2 ^ 24 % modulus = 1 ∧
    (∃ b, b < modulus ∧ limbsVal geta * b % modulus = 1) := by
  refine ⟨by decide, by decide, residue_geta, by decide, residue_geta.2, by decide,
    2 ^ 24, by decide, by decide⟩

/-- C14: for 64-bit `p` and a seed `s < 2^64 - 1`, the initial `x` of the
generator constructed with `(s + 1, p)` is the initial `x` of the one
constructed with `(s, p)` after exactly `2^96` state advances, that is
`x_s * A^(2^96) mod m` with `A = a^p mod m`; seed 0 gives `x = 1` for every
`p`. -/
theorem C14_seed_step (mul : Limbs → Limbs → Limbs) (hmul : MulContract mul) (s p : Nat)
    (hs : s < 2 ^ 64 - 1) (hp : p < 2 ^ 64) :
    (ranluxpp.ctor mul (s + 1) p)._x =
      ((ranluxpp.nextstate mul)^[2 ^ 96] (ranluxpp.ctor mul s p))._x ∧
    limbsVal (ranluxpp.ctor mul (s + 1) p)._x =
      limbsVal (ranluxpp.ctor mul s p)._x * (limbsVal geta ^ p % modulus) ^ 2 ^ 96 % modulus ∧
    limbsVal (ranluxpp.ctor mul s p)._A = limbsVal geta ^ p % modulus ∧
    (ranluxpp.ctor mul 0 p)._x = one9 ∧ limbsVal (ranluxpp.ctor mul 0 p)._x = 1 := by
  obtain ⟨rA, vA, rx, vx⟩ := ctor_spec hmul (show s < 2 ^ 64 by omega) hp
  obtain ⟨_, _, rx1, vx1⟩ := ctor_spec hmul (show s + 1 < 2 ^ 64 by omega) hp
  obtain ⟨_, _, rx0, vx0⟩ := ctor_spec hmul (show 0 < 2 ^ 64 by decide) hp
  obtain ⟨ri, vi, _⟩ := iterate_nextstate_spec hmul _ rx rA (2 ^ 96)
  have hval : limbsVal (ranluxpp.ctor mul (s + 1) p)._x =
      limbsVal (ranluxpp.ctor mul s p)._x * (limbsVal geta ^ p % modulus) ^ 2 ^ 96 % modulus := by
    rw [vx1, vx, Nat.mul_mod, Nat.mod_mod, pow_mod_pow_mod, ← Nat.mul_mod, ← pow_add]
    congr 2
  have h0 : limbsVal (ranluxpp.ctor mul 0 p)._x = 1 := by
    rw [vx0, Nat.mul_zero, pow_zero]
    decide
  refine ⟨?_, hval, vA, ?_, h0⟩
  · apply limbsVal_injective rx1.1 ri.1
    rw [hval, vi, vA]
  · apply limbsVal_injective rx0.1 residue_one9.1
    rw [h0, limbsVal_one9]

theorem C14_seed_step_witness :
    MulContract mul9x9mod ∧ 41 < 2 ^ 64 - 1 ∧ 2048 < 2 ^ 64 ∧
      (ranluxpp.ctor mul9x9mod (41 + 1) 2048)._x =
        ((ranluxpp.nextstate mul9x9mod)^[2 ^ 96] (ranluxpp.ctor mul9x9mod 41 2048))._x :=
  ⟨mul9x9mod_contract, by decide, by decide,
    (C14_seed_step mul9x9mod mul9x9mod_contract 41 2048 (by decide) (by decide)).1⟩

/-- C15: when the multiplier is `A = a^p mod m` (as the constructor with skip
exponent `p` and `setskip(p)` leave it) and `k * p < 2^64`, `k` state advances
leave the same `x` as `jump(k * p)` from the same state; one state advance is
`jump(p)`. -/
theorem C15_skip_counts_base_steps (mul : Limbs → Limbs → Limbs) (hmul : MulContract mul)
    (g : ranluxpp) (hx : Residue g._x) (p k : Nat) (hp : p < 2 ^ 64)
    (hA : g._A = powmod mul geta p) (hk : k * p < 2 ^ 64) :
    ((ranluxpp.nextstate mul)^[k] g)._x = (g.jump mul (k * p))._x ∧
    (g.nextstate mul)._x = (g.jump mul p)._x ∧
    (∀ seed, (ranluxpp.ctor mul seed p)._A = powmod mul geta p) ∧
    (∀ h : ranluxpp, (h.setskip mul p)._A = powmod mul geta p) := by
  obtain ⟨rA, vA⟩ := powmod_spec hmul residue_geta hp
  have key : ∀ j, j * p < 2 ^ 64 →
      ((ranluxpp.nextstate mul)^[j] g)._x = (g.jump mul (j * p))._x := by
    intro j hj
    obtain ⟨ri, vi, _⟩ := iterate_nextstate_spec hmul g hx (hA ▸ rA) j
    obtain ⟨rj, vj⟩ := jump_spec hmul g hx hj
    apply limbsVal_injective ri.1 rj.1
    rw [vi, vj, hA, vA, Nat.mul_mod, pow_mod_pow_mod, ← Nat.mul_mod, Nat.mul_comm p j]
  refine ⟨key k hk, ?_, fun _ => rfl, fun _ => rfl⟩
  have h1 := key 1 (by omega)
  rwa [Function.iterate_one, Nat.one_mul] at h1

theorem C15_skip_counts_base_steps_witness :
    MulContract mul9x9mod ∧ Residue (ranluxpp.ctor mul9x9mod 1 2048)._x ∧ 2048 < 2 ^ 64 ∧
      (ranluxpp.ctor mul9x9mod 1 2048)._A = powmod mul9x9mod geta 2048 ∧ 5 * 2048 < 2 ^ 64 ∧
      ((ranluxpp.nextstate mul9x9mod)^[5] (ranluxpp.ctor mul9x9mod 1 2048))._x =
        ((ranluxpp.ctor mul9x9mod 1 2048).jump mul9x9mod (5 * 2048))._x :=
  have hc := ctor_spec mul9x9mod_contract (show 1 < 2 ^ 64 by decide)
    (show 2048 < 2 ^ 64 by decide)
  ⟨mul9x9mod_contract, hc.2.2.1, by decide, rfl, by decide,
    (C15_skip_counts_base_steps mul9x9mod mul9x9mod_contract _ hc.2.2.1 2048 5 (by decide) rfl
      (by decide)).1⟩

/-- C16: stale fields after a jump. With cursor `c < B` and `0 <= k <= B - c`,
`jump(n)` followed by `getarray(k)` writes the same `k` values as `getarray(k)`
without the jump: the buffer entries `c .. c+k-1`, extracted before the jump;
for floats and for doubles. -/
theorem C16_stale_fields_after_jump (mul : Limbs → Limbs → Limbs) (g : ranluxpp) (n : Nat)
    (k : Int) (hk : 0 ≤ k) :
    (g._fpos < 24 → k ≤ 24 - g._fpos →
      ((g.jump mul n).getarray_float mul k).2 = (g.getarray_float mul k).2 ∧
      ((g.jump mul n).getarray_float mul k).2 = copyOut g._floats g._fpos k ∧
      ((g.jump mul n).getarray_float mul k).2.length = k.toNat) ∧
    (g._dpos < 11 → k ≤ 11 - g._dpos →
      ((g.jump mul n).getarray_double mul k).2 = (g.getarray_double mul k).2 ∧
      ((g.jump mul n).getarray_double mul k).2 = copyOut g._doubles g._dpos k ∧
      ((g.jump mul n).getarray_double mul k).2.length = k.toNat) := by
  constructor
  · intro _ hfit
    have h1 : ((g.jump mul n).getarray_float mul k).2 = copyOut g._floats g._fpos k := by
      rw [getarray_float_eq]
      show (read 24 _ unpackfloats (g.jump mul n).floatReader k).2 = _
      rw [read_drain _ hk (show (g.jump mul n).floatReader.pos + k ≤ ((24 : Nat) : Int) by
        show g._fpos + k ≤ 24; omega)]
      rfl
    have h2 : (g.getarray_float mul k).2 = copyOut g._floats g._fpos k := by
      rw [getarray_float_eq]
      show (read 24 _ unpackfloats g.floatReader k).2 = _
      rw [read_drain _ hk (show g.floatReader.pos + k ≤ ((24 : Nat) : Int) by
        show g._fpos + k ≤ 24; omega)]
      rfl
    exact ⟨h1.trans h2.symm, h1, by rw [h1, copyOut_length]⟩
  · intro _ hfit
    have h1 : ((g.jump mul n).getarray_double mul k).2 = copyOut g._doubles g._dpos k := by
      rw [getarray_double_eq]
      show (read 11 _ unpackdoubles (g.jump mul n).doubleReader k).2 = _
      rw [read_drain _ hk (show (g.jump mul n).doubleReader.pos + k ≤ ((11 : Nat) : Int) by
        show g._dpos + k ≤ 11; omega)]
      rfl
    have h2 : (g.getarray_double mul k).2 = copyOut g._doubles g._dpos k := by
      rw [getarray_double_eq]
      show (read 11 _ unpackdoubles g.doubleReader k).2 = _
      rw [read_drain _ hk (show g.doubleReader.pos + k ≤ ((11 : Nat) : Int) by
        show g._dpos + k ≤ 11; omega)]
      rfl
    exact ⟨h1.trans h2.symm, h1, by rw [h1, copyOut_length]⟩

set_option maxRecDepth 100000 in
theorem C16_stale_fields_after_jump_witness :
    (0 : Int) ≤ 4 ∧
      (((ranluxpp.ctor mul9x9mod 1 1).getarray_float mul9x9mod 5).1.getarray_double
        mul9x9mod 3).1._fpos < 24 ∧
      (4 : Int) ≤ 24 - (((ranluxpp.ctor mul9x9mod 1 1).getarray_float mul9x9mod 5).1.getarray_double
        mul9x9mod 3).1._fpos ∧
      (((ranluxpp.ctor mul9x9mod 1 1).getarray_float mul9x9mod 5).1.getarray_double
        mul9x9mod 3).1._dpos < 11 ∧
      (4 : Int) ≤ 11 - (((ranluxpp.ctor mul9x9mod 1 1).getarray_float mul9x9mod 5).1.getarray_double
        mul9x9mod 3).1._dpos ∧
      (((((ranluxpp.ctor mul9x9mod 1 1).getarray_float mul9x9mod 5).1.getarray_double
        mul9x9mod 3).1.jump mul9x9mod 9).getarray_float mul9x9mod 4).2.length = 4 ∧
      (((((ranluxpp.ctor mul9x9mod 1 1).getarray_float mul9x9mod 5).1.getarray_double
        mul9x9mod 3).1.jump mul9x9mod 9).getarray_double mul9x9mod 4).2.length = 4 :=
  ⟨by decide, by decide, by decide, by decide, by decide,
    ((C16_stale_fields_after_jump mul9x9mod _ 9 4 (by decide)).1 (by decide) (by decide)).2.2,
    ((C16_stale_fields_after_jump mul9x9mod _ 9 4 (by decide)).2 (by decide) (by decide)).2.2⟩

/-- What `powmod(a, 2048)` leaves, for any primitive meeting the contract. -/
theorem powmod_geta_2048 {mul : Limbs → Limbs → Limbs} (hmul : MulContract mul) :
    powmod mul geta 2048 = toLimbs (limbsVal geta ^ 2048 % modulus) := by
  obtain ⟨r, v⟩ := powmod_spec hmul residue_geta (show 2048 < 2 ^ 64 by decide)
  apply limbsVal_injective r.1 (toLimbs_wellFormed _)
  rw [v, limbsVal_toLimbs (lt_trans (Nat.mod_lt _ modulus_pos) modulus_lt)]

/-- The limbs `primitive()` leaves in `_A`, for any primitive meeting the
contract. -/
theorem primitive_A {mul : Limbs → Limbs → Limbs} (hmul : MulContract mul) (g : ranluxpp) :
    (g.primitive mul)._A = toLimbs ((limbsVal geta ^ 2048 + 13) % modulus) ∧
      (powmod mul geta 2048).getD 0 0 + 13 < 2 ^ 64 ∧
      limbsVal (powmod mul geta 2048) + 13 < modulus := by
  have hA : (g.primitive mul)._A =
      (powmod mul geta 2048).set 0 (((powmod mul geta 2048).getD 0 0 + 13) % 2 ^ 64) := rfl
  rw [hA, powmod_geta_2048 hmul]
  refine ⟨by decide, by decide, by decide⟩

/-- C11: after `primitive()` the limbs of `A` hold the residue
`(a^2048 + 13) mod m`: adding 13 to limb 0 of `a^2048 mod m` neither wraps the
limb nor reaches `m`, so no carry and no reduction are needed; `x`, the
cursors and the buffers are unchanged. -/
theorem C11_primitive_multiplier (mul : Limbs → Limbs → Limbs) (hmul : MulContract mul)
    (g : ranluxpp) :
    Residue (g.primitive mul)._A ∧
    limbsVal (g.primitive mul)._A = (limbsVal geta ^ 2048 + 13) % modulus ∧
    (powmod mul geta 2048).getD 0 0 + 13 < 2 ^ 64 ∧
    limbsVal (powmod mul geta 2048) + 13 < modulus ∧
    limbsVal (g.primitive mul)._A = limbsVal (powmod mul geta 2048) + 13 ∧
    (g.primitive mul)._x = g._x ∧
    (g.primitive mul)._fpos = g._fpos ∧ (g.primitive mul)._dpos = g._dpos ∧
    (g.primitive mul)._floats = g._floats ∧ (g.primitive mul)._doubles = g._doubles := by
  obtain ⟨hA, hwrap, hlt⟩ := primitive_A hmul g
  have hm : (limbsVal geta ^ 2048 + 13) % modulus < modulus := Nat.mod_lt _ modulus_pos
  have hv : limbsVal (g.primitive mul)._A = (limbsVal geta ^ 2048 + 13) % modulus := by
    rw [hA, limbsVal_toLimbs (lt_trans hm modulus_lt)]
  have hsum : limbsVal (powmod mul geta 2048) + 13 = (limbsVal geta ^ 2048 + 13) % modulus := by
    have hp := (powmod_spec hmul residue_geta (show 2048 < 2 ^ 64 by decide)).2
    rw [hp] at hlt ⊢
    rw [Nat.add_mod, Nat.mod_eq_of_lt (show 13 < modulus by decide), Nat.mod_eq_of_lt hlt]
  refine ⟨⟨?_, hv ▸ hm⟩, hv, hwrap, hlt, hv.trans hsum.symm, rfl, rfl, rfl, rfl, rfl⟩
  rw [hA]
  exact toLimbs_wellFormed _

theorem C11_primitive_multiplier_witness :
    MulContract mul9x9mod ∧
      limbsVal ((ranluxpp.ctor mul9x9mod 1 2048).primitive mul9x9mod)._A =
        (limbsVal geta ^ 2048 + 13) % modulus :=
  ⟨mul9x9mod_contract,
    (C11_primitive_multiplier mul9x9mod mul9x9mod_contract (ranluxpp.ctor mul9x9mod 1 2048)).2.1⟩

theorem ReachableNoPrimitive.reachable {mul : Limbs → Limbs → Limbs} {g : ranluxpp}
    (h : ReachableNoPrimitive mul g) : Reachable mul g := by
  induction h with
  | ctor seed p hs hp => exact Reachable.ctor seed p hs hp
  | getarray_float g n _ h0 h1 ih => exact Reachable.getarray_float g n ih h0 h1
  | getarray_double g n _ h0 h1 ih => exact Reachable.getarray_double g n ih h0 h1
  | jump g n _ hn ih => exact Reachable.jump g n ih hn
  | setskip g n _ hn ih => exact Reachable.setskip g n ih hn

section Reader

variable {B : Nat} {step : Limbs → Limbs} {unpack : Limbs → List ℚ}

/-- A read advances the state a whole number of times. -/
theorem read_x_iterate (hB : 0 < B) (hlen : ∀ x, (unpack x).length = B) (r : Reader)
    (hle : r.pos ≤ B) {n : Int} (hn : 0 ≤ n) :
    ∃ j, (read B step unpack r n).1.x = step^[j] r.x := by
  by_cases hfit : r.pos + n ≤ B
  · rw [read_drain r hn hfit]
    exact ⟨0, rfl⟩
  · rw [read_drain_all hB r hle (by omega)]
    obtain ⟨k, hk⟩ : ∃ k : Nat, n - ((B : Int) - r.pos) = (k : Int) :=
      ⟨(n - ((B : Int) - r.pos)).toNat, by omega⟩
    rw [hk]
    exact ⟨_, (@read_full_spec B step unpack hB hlen k { r with pos := B } rfl).2.2.1⟩

end Reader

/-- Powers of the fixed base are invertible modulo `m`, hence nonzero. -/
theorem geta_pow_unit (k : Nat) :
    limbsVal geta ^ k % modulus * (2 ^ 24) ^ k % modulus = 1 := by
  rw [Nat.mod_mul_mod, ← Nat.mul_pow, Nat.pow_mod,
    show limbsVal geta * 2 ^ 24 % modulus = 1 by decide, one_pow]
  decide

/-- The invariant behind C20: `x` and `A` are residues and powers of `a`. -/
theorem reachableNoPrimitive_powers {mul : Limbs → Limbs → Limbs} (hmul : MulContract mul)
    {g : ranluxpp} (hg : ReachableNoPrimitive mul g) :
    Residue g._x ∧ Residue g._A ∧ (∃ k, limbsVal g._x = limbsVal geta ^ k % modulus) ∧
      ∃ p, limbsVal g._A = limbsVal geta ^ p % modulus := by
  have hread : ∀ (g : ranluxpp) (x' : Limbs), Residue g._x → Residue g._A →
      (∃ k, limbsVal g._x = limbsVal geta ^ k % modulus) →
      (∃ p, limbsVal g._A = limbsVal geta ^ p % modulus) →
      (∃ j, x' = (fun x => mul x g._A)^[j] g._x) →
      Residue x' ∧ ∃ k, limbsVal x' = limbsVal geta ^ k % modulus := by
    rintro g x' rx rA ⟨k, hk⟩ ⟨p, hp⟩ ⟨j, rfl⟩
    obtain ⟨r, v, _⟩ := iterate_nextstate_spec hmul g rx rA j
    rw [(iterate_nextstate_x mul g j).1] at r v
    refine ⟨r, k + p * j, ?_⟩
    rw [v, hk, hp, Nat.mul_mod, Nat.mod_mod, pow_mod_pow_mod, ← Nat.mul_mod, ← pow_add]
  induction hg with
  | ctor seed p hs hp =>
    obtain ⟨rA, vA, rx, vx⟩ := ctor_spec hmul hs hp
    exact ⟨rx, rA, ⟨_, vx⟩, ⟨_, vA⟩⟩
  | getarray_float g n hg h0 _ ih =>
    obtain ⟨rx, rA, hk, hp⟩ := ih
    have hle := (reachable_good mul hg.reachable).1.2.1
    have hj := @read_x_iterate 24 (fun x => mul x g._A) unpackfloats (by norm_num)
      unpackfloats_length g.floatReader hle n h0
    rw [getarray_float_eq]
    obtain ⟨r', hk'⟩ := hread g _ rx rA hk hp hj
    exact ⟨r', rA, hk', hp⟩
  | getarray_double g n hg h0 _ ih =>
    obtain ⟨rx, rA, hk, hp⟩ := ih
    have hle := (reachable_good mul hg.reachable).2.2.1
    have hj := @read_x_iterate 11 (fun x => mul x g._A) unpackdoubles (by norm_num)
      unpackdoubles_length g.doubleReader hle n h0
    rw [getarray_double_eq]
    obtain ⟨r', hk'⟩ := hread g _ rx rA hk hp hj
    exact ⟨r', rA, hk', hp⟩
  | jump g n _ hn ih =>
    obtain ⟨rx, rA, ⟨k, hk⟩, hp⟩ := ih
    obtain ⟨r, v⟩ := jump_spec hmul g rx hn
    refine ⟨r, rA, ⟨k + n, ?_⟩, hp⟩
    rw [v, hk, Nat.mod_mul_mod, ← pow_add]
  | setskip g n _ hn ih =>
    obtain ⟨rx, _, hk, _⟩ := ih
    obtain ⟨r, v⟩ := powmod_spec hmul residue_geta hn
    exact ⟨rx, r, hk, ⟨n, v⟩⟩

/-- C20: the state never collapses to zero. For every generator constructed
with any seed and skip exponent and then driven by `getarray` (counts `>= 0`),
`jump` and `setskip` calls, `x` is `a^k mod m` for some `k`, hence invertible
modulo `m` and different from zero. -/
theorem C20_state_is_power_of_base (mul : Limbs → Limbs → Limbs) (hmul : MulContract mul)
    (g : ranluxpp) (hg : ReachableNoPrimitive mul g) :
    (∃ k, limbsVal g._x = limbsVal geta ^ k % modulus) ∧
    (∃ y, y < modulus ∧ limbsVal g._x * y % modulus = 1) ∧
    limbsVal g._x ≠ 0 ∧ g._x ≠ toLimbs 0 := by
  obtain ⟨_, _, ⟨k, hk⟩, _⟩ := reachableNoPrimitive_powers hmul hg
  have hunit := geta_pow_unit k
  rw [← hk] at hunit
  have hne : limbsVal g._x ≠ 0 := by
    intro h0
    rw [h0, Nat.zero_mul] at hunit
    exact absurd hunit (by decide)
  refine ⟨⟨k, hk⟩, ⟨(2 ^ 24) ^ k % modulus, Nat.mod_lt _ modulus_pos, ?_⟩, hne, ?_⟩
  · rw [Nat.mul_mod, Nat.mod_mod, ← Nat.mul_mod]
    exact hunit
  · intro h
    apply hne
    rw [h]
    decide

theorem C20_state_is_power_of_base_witness :
    MulContract mul9x9mod ∧
      ReachableNoPrimitive mul9x9mod
        (((ranluxpp.ctor mul9x9mod 1 2048).getarray_float mul9x9mod 100).1.jump mul9x9mod 7) ∧
      limbsVal
        (((ranluxpp.ctor mul9x9mod 1 2048).getarray_float mul9x9mod 100).1.jump
          mul9x9mod 7)._x ≠ 0 :=
  have hr : ReachableNoPrimitive mul9x9mod
      (((ranluxpp.ctor mul9x9mod 1 2048).getarray_float mul9x9mod 100).1.jump mul9x9mod 7) :=
    ReachableNoPrimitive.jump _ 7
      (ReachableNoPrimitive.getarray_float _ 100
        (ReachableNoPrimitive.ctor 1 2048 (by decide) (by decide)) (by decide) (by decide))
      (by decide)
  ⟨mul9x9mod_contract, hr,
    (C20_state_is_power_of_base mul9x9mod mul9x9mod_contract _ hr).2.2.1⟩

/-! ## Buffer indices -/

theorem copyOut_eq_map_copyIdx (buf : List (Option ℚ)) (pos cnt : Int) :
    copyOut buf pos cnt = (copyIdx pos cnt).map (readBuf buf) := by
  unfold copyOut copyIdx
  rw [List.map_map]
  rfl

theorem mem_copyIdx {pos cnt i : Int} (h : i ∈ copyIdx pos cnt) : pos ≤ i ∧ i < pos + cnt := by
  unfold copyIdx at h
  obtain ⟨k, hk, rfl⟩ := List.mem_map.mp h
  have hk' : k < cnt.toNat := List.mem_range.mp hk
  constructor <;> omega

/-- The bulk loop leaves with a remaining count in `[0, B)`: its fuel is never
what stops it. -/
theorem readLoop_rem {B : Nat} {step : Limbs → Limbs} {unpack : Limbs → List ℚ} (hB : 0 < B) :
    ∀ (fuel : Nat) (r : Reader) (n : Int) (out : List (Option ℚ)), n.toNat ≤ fuel → 0 ≤ n →
      0 ≤ (readLoop B step unpack fuel r n out).2.1 ∧
        (readLoop B step unpack fuel r n out).2.1 < B := by
  intro fuel
  induction fuel with
  | zero =>
    intro r n out h1 h0
    have hn : n < (B : Int) := by omega
    rw [readLoop_lt 0 r out hn]
    exact ⟨h0, hn⟩
  | succ fuel ih =>
    intro r n out h1 h0
    by_cases hn : n < (B : Int)
    · rw [readLoop_lt _ r out hn]
      exact ⟨h0, hn⟩
    · have hge : (B : Int) ≤ n := not_lt.mp hn
      rw [readLoop_ge _ r out hge]
      exact ih _ _ _ (by omega) (by omega)

theorem getarray_float_reads_bounds (mul : Limbs → Limbs → Limbs) (g : ranluxpp)
    (h0 : 0 ≤ g._fpos) (hle : g._fpos ≤ 24) (n : Int) (hn : 0 ≤ n) :
    ∀ i ∈ g.getarray_float_reads mul n, 0 ≤ i ∧ i < 24 := by
  have hrem : ∀ (g : ranluxpp) (k : Int), 0 ≤ k →
      0 ≤ (floatsLoop mul k.toNat g k []).2.1 ∧ (floatsLoop mul k.toNat g k []).2.1 < 24 := by
    intro g k hk
    rw [floatsLoop_eq]
    exact @readLoop_rem 24 _ _ (by norm_num) k.toNat _ k [] (le_refl _) hk
  have htail : ∀ (g : ranluxpp) (k : Int), 0 ≤ k →
      ∀ i ∈ copyIdx 0 (floatsLoop mul k.toNat g k []).2.1, 0 ≤ i ∧ i < 24 := by
    intro g k hk i hi
    obtain ⟨a, b⟩ := mem_copyIdx hi
    have := (hrem g k hk).2
    constructor <;> omega
  intro i hi
  unfold ranluxpp.getarray_float_reads at hi
  by_cases hpos : g._fpos < 24
  · simp only [if_pos hpos] at hi
    have hrest : 0 ≤ (if 24 - g._fpos < n then 24 - g._fpos else n) ∧
        (if 24 - g._fpos < n then 24 - g._fpos else n) ≤ 24 - g._fpos ∧
        (if 24 - g._fpos < n then 24 - g._fpos else n) ≤ n := by
      split_ifs <;> omega
    have hdrain : ∀ j ∈ copyIdx g._fpos (if 24 - g._fpos < n then 24 - g._fpos else n),
        0 ≤ j ∧ j < 24 := by
      intro j hj
      obtain ⟨a, b⟩ := mem_copyIdx hj
      constructor <;> omega
    generalize (if 24 - g._fpos < n then 24 - g._fpos else n) = rest at hi hrest hdrain
    split_ifs at hi
    · rcases List.mem_append.mp hi with h | h
      · exact hdrain i h
      · exact htail _ _ (by omega) i h
    · exact hdrain i hi
  · simp only [if_neg hpos] at hi
    split_ifs at hi
    · rw [List.nil_append] at hi
      exact htail _ _ hn i hi
    · exact absurd hi (List.not_mem_nil i)

theorem getarray_double_reads_bounds (mul : Limbs → Limbs → Limbs) (g : ranluxpp)
    (h0 : 0 ≤ g._dpos) (hle : g._dpos ≤ 11) (n : Int) (hn : 0 ≤ n) :
    ∀ i ∈ g.getarray_double_reads mul n, 0 ≤ i ∧ i < 11 := by
  have hrem : ∀ (g : ranluxpp) (k : Int), 0 ≤ k →
      0 ≤ (doublesLoop mul k.toNat g k []).2.1 ∧ (doublesLoop mul k.toNat g k []).2.1 < 11 := by
    intro g k hk
    rw [doublesLoop_eq]
    exact @readLoop_rem 11 _ _ (by norm_num) k.toNat _ k [] (le_refl _) hk
  have htail : ∀ (g : ranluxpp) (k : Int), 0 ≤ k →
      ∀ i ∈ copyIdx 0 (doublesLoop mul k.toNat g k []).2.1, 0 ≤ i ∧ i < 11 := by
    intro g k hk i hi
    obtain ⟨a, b⟩ := mem_copyIdx hi
    have := (hrem g k hk).2
    constructor <;> omega
  intro i hi
  unfold ranluxpp.getarray_double_reads at hi
  by_cases hpos : g._dpos < 11
  · simp only [if_pos hpos] at hi
    have hrest : 0 ≤ (if 11 - g._dpos < n then 11 - g._dpos else n) ∧
        (if 11 - g._dpos < n then 11 - g._dpos else n) ≤ 11 - g._dpos ∧
        (if 11 - g._dpos < n then 11 - g._dpos else n) ≤ n := by
      split_ifs <;> omega
    have hdrain : ∀ j ∈ copyIdx g._dpos (if 11 - g._dpos < n then 11 - g._dpos else n),
        0 ≤ j ∧ j < 11 := by
      intro j hj
      obtain ⟨a, b⟩ := mem_copyIdx hj
      constructor <;> omega
    generalize (if 11 - g._dpos < n then 11 - g._dpos else n) = rest at hi hrest hdrain
    split_ifs at hi
    · rcases List.mem_append.mp hi with h | h
      · exact hdrain i h
      · exact htail _ _ (by omega) i h
    · exact hdrain i hi
  · simp only [if_neg hpos] at hi
    split_ifs at hi
    · rw [List.nil_append] at hi
      exact htail _ _ hn i hi
    · exact absurd hi (List.not_mem_nil i)

/-- C18: cursor invariant. In every generator state reachable from the
constructor by API calls with read counts `>= 0`, `0 <= _fpos <= 24` and
`0 <= _dpos <= 11`, and every index at which a `getarray` with count `>= 0`
reads `_floats` (`_doubles`) lies in `0..23` (`0..10`). -/
theorem C18_cursor_invariant (mul : Limbs → Limbs → Limbs) (g : ranluxpp)
    (hg : Reachable mul g) :
    0 ≤ g._fpos ∧ g._fpos ≤ 24 ∧ 0 ≤ g._dpos ∧ g._dpos ≤ 11 ∧
    ∀ n : Int, 0 ≤ n →
      (∀ i ∈ g.getarray_float_reads mul n, 0 ≤ i ∧ i < 24) ∧
      (∀ i ∈ g.getarray_double_reads mul n, 0 ≤ i ∧ i < 11) := by
  obtain ⟨⟨f0, fle, _⟩, ⟨d0, dle, _⟩⟩ := reachable_good mul hg
  refine ⟨f0, fle, d0, dle, ?_⟩
  intro n hn
  exact ⟨getarray_float_reads_bounds mul g f0 fle n hn,
    getarray_double_reads_bounds mul g d0 dle n hn⟩

/-! ## The residue invariant and the operands of every multiplication -/

theorem MulContract.range {mul : Limbs → Limbs → Limbs} (h : MulContract mul) : MulRange mul :=
  fun r y hr hy => (h r y hr hy).1

theorem CallsOk.append {a b : List (Limbs × Limbs)} (ha : CallsOk a) (hb : CallsOk b) :
    CallsOk (a ++ b) := by
  intro c hc
  rcases List.mem_append.mp hc with h | h
  · exact ha c h
  · exact hb c h

theorem CallsOk.nil : CallsOk [] := fun c hc => absurd hc (List.not_mem_nil c)

theorem CallsOk.single {r y : Limbs} (hr : Residue r) (hy : Residue y) : CallsOk [(r, y)] := by
  intro c hc
  rw [List.mem_singleton] at hc
  subst hc
  exact ⟨hr, hy⟩

theorem CallsOk.cons {r y : Limbs} {cs : List (Limbs × Limbs)} (hr : Residue r) (hy : Residue y)
    (hcs : CallsOk cs) : CallsOk ((r, y) :: cs) :=
  CallsOk.append (CallsOk.single hr hy) hcs

/-- Under the range condition alone the loop of `powmod` multiplies residues
only and leaves a residue. -/
theorem powmodLoop_range {mul : Limbs → Limbs → Limbs} (hmul : MulRange mul) :
    ∀ (fuel : Nat) (res x : Limbs) (n : Nat), Residue res → Residue x →
      CallsOk (powmodLoopCalls mul fuel res x n) ∧ Residue (powmodLoop mul fuel res x n).1 := by
  intro fuel
  induction fuel with
  | zero => intro res x n hres _; exact ⟨CallsOk.nil, hres⟩
  | succ fuel ih =>
    intro res x n hres hx
    by_cases h0 : n = 0
    · subst h0
      exact ⟨CallsOk.nil, hres⟩
    · have hres1 : Residue (if n &&& 1 ≠ 0 then mul res x else res) := by
        split_ifs
        · exact hmul res x hres hx
        · exact hres
      have hc1 : CallsOk (if n &&& 1 ≠ 0 then [(res, x)] else []) := by
        split_ifs
        · exact CallsOk.single hres hx
        · exact CallsOk.nil
      by_cases h1 : n >>> 1 = 0
      · simp only [powmodLoopCalls, powmodLoop, ne_eq, h0, not_false_eq_true, if_true, h1]
        exact ⟨hc1, hres1⟩
      · simp only [powmodLoopCalls, powmodLoop, ne_eq, h0, not_false_eq_true, if_true, h1,
          if_false]
        obtain ⟨e1, e2⟩ := ih _ (mul x x) (n >>> 1) hres1 (hmul x x hx hx)
        exact ⟨CallsOk.append hc1 (CallsOk.cons hx hx e1), e2⟩

theorem powmod_range {mul : Limbs → Limbs → Limbs} (hmul : MulRange mul) {x : Limbs}
    (hx : Residue x) (n : Nat) : CallsOk (powmodCalls mul x n) ∧ Residue (powmod mul x n) :=
  powmodLoop_range hmul 64 one9 x n residue_one9 hx

theorem init_range {mul : Limbs → Limbs → Limbs} (hmul : MulRange mul) (g : ranluxpp)
    (hx : Residue g._x) (hA : Residue g._A) (seed : Nat) :
    CallsOk (g.init_calls mul seed) ∧ Residue (g.init mul seed)._x ∧
      (g.init mul seed)._A = g._A := by
  obtain ⟨c1, r1⟩ := powmod_range hmul hA (1 <<< 48)
  obtain ⟨c2, r2⟩ := powmod_range hmul r1 (1 <<< 48)
  obtain ⟨c3, r3⟩ := powmod_range hmul r2 seed
  exact ⟨CallsOk.append (CallsOk.append (CallsOk.append c1 c2) c3) (CallsOk.single hx r3),
    hmul _ _ hx r3, rfl⟩

theorem ctor_range {mul : Limbs → Limbs → Limbs} (hmul : MulRange mul) (seed p : Nat) :
    CallsOk (ranluxpp.ctor_calls mul seed p) ∧ Residue (ranluxpp.ctor mul seed p)._x ∧
      Residue (ranluxpp.ctor mul seed p)._A := by
  obtain ⟨c0, rA⟩ := powmod_range hmul residue_geta p
  obtain ⟨c1, rx, _⟩ := init_range hmul
    { _x := one9, _A := powmod mul geta p, _doubles := List.replicate 11 none,
      _floats := List.replicate 24 none, _dpos := 11, _fpos := 24 } residue_one9 rA seed
  exact ⟨CallsOk.append c0 c1, rx, rA⟩

theorem floatsLoop_range {mul : Limbs → Limbs → Limbs} (hmul : MulRange mul) :
    ∀ (fuel : Nat) (g : ranluxpp) (n : Int) (out : List (Option ℚ)),
      Residue g._x → Residue g._A →
        CallsOk (floatsLoopCalls mul fuel g n) ∧ Residue (floatsLoop mul fuel g n out).1._x ∧
          (floatsLoop mul fuel g n out).1._A = g._A := by
  intro fuel
  induction fuel with
  | zero => intro g n out hx _; exact ⟨CallsOk.nil, hx, rfl⟩
  | succ fuel ih =>
    intro g n out hx hA
    by_cases h : n ≥ 24
    · have e : floatsLoop mul (fuel + 1) g n out = floatsLoop mul fuel (g.nextstate mul) (n - 24)
          (out ++ (unpackfloats (g.nextstate mul)._x).map some) := by
        simp only [floatsLoop, if_pos h]
      have ec : floatsLoopCalls mul (fuel + 1) g n =
          (g._x, g._A) :: floatsLoopCalls mul fuel (g.nextstate mul) (n - 24) := by
        simp only [floatsLoopCalls, if_pos h]
      rw [e, ec]
      obtain ⟨e1, e2, e3⟩ := ih (g.nextstate mul) (n - 24)
        (out ++ (unpackfloats (g.nextstate mul)._x).map some) (hmul _ _ hx hA) hA
      exact ⟨CallsOk.cons hx hA e1, e2, e3⟩
    · have e : floatsLoop mul (fuel + 1) g n out = (g, n, out) := by
        simp only [floatsLoop, if_neg h]
      have ec : floatsLoopCalls mul (fuel + 1) g n = [] := by
        simp only [floatsLoopCalls, if_neg h]
      rw [e, ec]
      exact ⟨CallsOk.nil, hx, rfl⟩

/-- The values already written do not influence the bulk loop. -/
theorem floatsLoop_out (mul : Limbs → Limbs → Limbs) (fuel : Nat) (g : ranluxpp) (n : Int)
    (out : List (Option ℚ)) :
    floatsLoop mul fuel g n out =
      ((floatsLoop mul fuel g n []).1, (floatsLoop mul fuel g n []).2.1,
        out ++ (floatsLoop mul fuel g n []).2.2) := by
  rw [floatsLoop_eq, floatsLoop_eq, readLoop_out]

theorem getarray_float_range {mul : Limbs → Limbs → Limbs} (hmul : MulRange mul) (g : ranluxpp)
    (hx : Residue g._x) (hA : Residue g._A) (n : Int) :
    CallsOk (g.getarray_float_calls mul n) ∧ Residue (g.getarray_float mul n).1._x ∧
      (g.getarray_float mul n).1._A = g._A := by
  have tail : ∀ (h : ranluxpp) (k : Int), Residue h._x → h._A = g._A →
      CallsOk
          (if (floatsLoop mul k.toNat h k []).2.1 ≠ 0 then
            floatsLoopCalls mul k.toNat h k ++
              [((floatsLoop mul k.toNat h k []).1._x, (floatsLoop mul k.toNat h k []).1._A)]
          else floatsLoopCalls mul k.toNat h k) ∧
        Residue (mul (floatsLoop mul k.toNat h k []).1._x (floatsLoop mul k.toNat h k []).1._A) ∧
        Residue (floatsLoop mul k.toNat h k []).1._x ∧
        (floatsLoop mul k.toNat h k []).1._A = g._A := by
    intro h k hhx hhA
    obtain ⟨e1, e2, e3⟩ := floatsLoop_range hmul k.toNat h k [] hhx (hhA ▸ hA)
    have rA : Residue (floatsLoop mul k.toNat h k []).1._A := by rw [e3, hhA]; exact hA
    refine ⟨?_, hmul _ _ e2 rA, e2, e3.trans hhA⟩
    split_ifs
    · exact CallsOk.append e1 (CallsOk.single e2 rA)
    · exact e1
  unfold ranluxpp.getarray_float_calls ranluxpp.getarray_float
  by_cases hpos : g._fpos < 24
  · simp only [if_pos hpos]
    generalize (if 24 - g._fpos < n then 24 - g._fpos else n) = rest
    rw [floatsLoop_out mul _ _ _ (copyOut g._floats g._fpos rest)]
    obtain ⟨t1, t2, t3, t4⟩ := tail { g with _fpos := g._fpos + rest } (n - rest) hx rfl
    refine ⟨t1, ?_, ?_⟩
    · split_ifs
      · exact t2
      · exact t3
    · split_ifs
      · exact t4
      · exact t4
  · simp only [if_neg hpos]
    obtain ⟨t1, t2, t3, t4⟩ := tail g n hx rfl
    refine ⟨t1, ?_, ?_⟩
    · split_ifs
      · exact t2
      · exact t3
    · split_ifs
      · exact t4
      · exact t4

theorem doublesLoop_range {mul : Limbs → Limbs → Limbs} (hmul : MulRange mul) :
    ∀ (fuel : Nat) (g : ranluxpp) (n : Int) (out : List (Option ℚ)),
      Residue g._x → Residue g._A →
        CallsOk (doublesLoopCalls mul fuel g n) ∧ Residue (doublesLoop mul fuel g n out).1._x ∧
          (doublesLoop mul fuel g n out).1._A = g._A := by
  intro fuel
  induction fuel with
  | zero => intro g n out hx _; exact ⟨CallsOk.nil, hx, rfl⟩
  | succ fuel ih =>
    intro g n out hx hA
    by_cases h : n ≥ 11
    · have e : doublesLoop mul (fuel + 1) g n out = doublesLoop mul fuel (g.nextstate mul) (n - 11)
          (out ++ (unpackdoubles (g.nextstate mul)._x).map some) := by
        simp only [doublesLoop, if_pos h]
      have ec : doublesLoopCalls mul (fuel + 1) g n =
          (g._x, g._A) :: doublesLoopCalls mul fuel (g.nextstate mul) (n - 11) := by
        simp only [doublesLoopCalls, if_pos h]
      rw [e, ec]
      obtain ⟨e1, e2, e3⟩ := ih (g.nextstate mul) (n - 11)
        (out ++ (unpackdoubles (g.nextstate mul)._x).map some) (hmul _ _ hx hA) hA
      exact ⟨CallsOk.cons hx hA e1, e2, e3⟩
    · have e : doublesLoop mul (fuel + 1) g n out = (g, n, out) := by
        simp only [doublesLoop, if_neg h]
      have ec : doublesLoopCalls mul (fuel + 1) g n = [] := by
        simp only [doublesLoopCalls, if_neg h]
      rw [e, ec]
      exact ⟨CallsOk.nil, hx, rfl⟩

/-- The values already written do not influence the bulk loop. -/
theorem doublesLoop_out (mul : Limbs → Limbs → Limbs) (fuel : Nat) (g : ranluxpp) (n : Int)
    (out : List (Option ℚ)) :
    doublesLoop mul fuel g n out =
      ((doublesLoop mul fuel g n []).1, (doublesLoop mul fuel g n []).2.1,
        out ++ (doublesLoop mul fuel g n []).2.2) := by
  rw [doublesLoop_eq, doublesLoop_eq, readLoop_out]

theorem getarray_double_range {mul : Limbs → Limbs → Limbs} (hmul : MulRange mul) (g : ranluxpp)
    (hx : Residue g._x) (hA : Residue g._A) (n : Int) :
    CallsOk (g.getarray_double_calls mul n) ∧ Residue (g.getarray_double mul n).1._x ∧
      (g.getarray_double mul n).1._A = g._A := by
  have tail : ∀ (h : ranluxpp) (k : Int), Residue h._x → h._A = g._A →
      CallsOk
          (if (doublesLoop mul k.toNat h k []).2.1 ≠ 0 then
            doublesLoopCalls mul k.toNat h k ++
              [((doublesLoop mul k.toNat h k []).1._x, (doublesLoop mul k.toNat h k []).1._A)]
          else doublesLoopCalls mul k.toNat h k) ∧
        Residue (mul (doublesLoop mul k.toNat h k []).1._x (doublesLoop mul k.toNat h k []).1._A) ∧
        Residue (doublesLoop mul k.toNat h k []).1._x ∧
        (doublesLoop mul k.toNat h k []).1._A = g._A := by
    intro h k hhx hhA
    obtain ⟨e1, e2, e3⟩ := doublesLoop_range hmul k.toNat h k [] hhx (hhA ▸ hA)
    have rA : Residue (doublesLoop mul k.toNat h k []).1._A := by rw [e3, hhA]; exact hA
    refine ⟨?_, hmul _ _ e2 rA, e2, e3.trans hhA⟩
    split_ifs
    · exact CallsOk.append e1 (CallsOk.single e2 rA)
    · exact e1
  unfold ranluxpp.getarray_double_calls ranluxpp.getarray_double
  by_cases hpos : g._dpos < 11
  · simp only [if_pos hpos]
    generalize (if 11 - g._dpos < n then 11 - g._dpos else n) = rest
    rw [doublesLoop_out mul _ _ _ (copyOut g._doubles g._dpos rest)]
    obtain ⟨t1, t2, t3, t4⟩ := tail { g with _dpos := g._dpos + rest } (n - rest) hx rfl
    refine ⟨t1, ?_, ?_⟩
    · split_ifs
      · exact t2
      · exact t3
    · split_ifs
      · exact t4
      · exact t4
  · simp only [if_neg hpos]
    obtain ⟨t1, t2, t3, t4⟩ := tail g n hx rfl
    refine ⟨t1, ?_, ?_⟩
    · split_ifs
      · exact t2
      · exact t3
    · split_ifs
      · exact t4
      · exact t4

theorem primitive_residue {mul : Limbs → Limbs → Limbs} (hmul : MulContract mul) (g : ranluxpp) :
    Residue (g.primitive mul)._A := by
  have hm : (limbsVal geta ^ 2048 + 13) % modulus < modulus := Nat.mod_lt _ modulus_pos
  rw [(primitive_A hmul g).1]
  exact ⟨toLimbs_wellFormed _, by rw [limbsVal_toLimbs (lt_trans hm modulus_lt)]; exact hm⟩

/-- With residues in `x` and `A`, every API operation multiplies residues
only. -/
theorem residueInvariant_of_residues {mul : Limbs → Limbs → Limbs} (hmul : MulRange mul)
    (g : ranluxpp) (hx : Residue g._x) (hA : Residue g._A) : ResidueInvariant mul g := by
  refine ⟨hx, hA, ?_, ?_, (powmod_range hmul residue_geta 2048).1⟩
  · intro n _
    exact ⟨(getarray_float_range hmul g hx hA n).1, (getarray_double_range hmul g hx hA n).1⟩
  · intro n _
    obtain ⟨c, r⟩ := powmod_range hmul residue_geta n
    exact ⟨CallsOk.append c (CallsOk.single hx r), c⟩

theorem reachableNoPrimitive_residues {mul : Limbs → Limbs → Limbs} (hmul : MulRange mul)
    {g : ranluxpp} (hg : ReachableNoPrimitive mul g) : Residue g._x ∧ Residue g._A := by
  induction hg with
  | ctor seed p _ _ => exact (ctor_range hmul seed p).2
  | getarray_float g n _ _ _ ih =>
    obtain ⟨_, r, e⟩ := getarray_float_range hmul g ih.1 ih.2 n
    exact ⟨r, e ▸ ih.2⟩
  | getarray_double g n _ _ _ ih =>
    obtain ⟨_, r, e⟩ := getarray_double_range hmul g ih.1 ih.2 n
    exact ⟨r, e ▸ ih.2⟩
  | jump g n _ _ ih => exact ⟨hmul _ _ ih.1 (powmod_range hmul residue_geta n).2, ih.2⟩
  | setskip g n _ _ ih => exact ⟨ih.1, (powmod_range hmul residue_geta n).2⟩

theorem reachable_residues {mul : Limbs → Limbs → Limbs} (hmul : MulContract mul)
    {g : ranluxpp} (hg : Reachable mul g) : Residue g._x ∧ Residue g._A := by
  have hr := hmul.range
  induction hg with
  | ctor seed p _ _ => exact (ctor_range hr seed p).2
  | getarray_float g n _ _ _ ih =>
    obtain ⟨_, r, e⟩ := getarray_float_range hr g ih.1 ih.2 n
    exact ⟨r, e ▸ ih.2⟩
  | getarray_double g n _ _ _ ih =>
    obtain ⟨_, r, e⟩ := getarray_double_range hr g ih.1 ih.2 n
    exact ⟨r, e ▸ ih.2⟩
  | jump g n _ _ ih => exact ⟨hr _ _ ih.1 (powmod_range hr residue_geta n).2, ih.2⟩
  | setskip g n _ _ ih => exact ⟨ih.1, (powmod_range hr residue_geta n).2⟩
  | primitive g _ ih => exact ⟨ih.1, primitive_residue hmul g⟩

/-- The range part of the contract is enough as long as `primitive()` is not
called: the constructor multiplies residues only, and every state reached by
`getarray` (counts `>= 0`), `jump` and `setskip` calls satisfies the residue
invariant. -/
theorem residueInvariant_of_range {mul : Limbs → Limbs → Limbs} (hmul : MulRange mul) :
    (∀ seed p, CallsOk (ranluxpp.ctor_calls mul seed p)) ∧
      ∀ g, ReachableNoPrimitive mul g → ResidueInvariant mul g := by
  refine ⟨fun seed p => (ctor_range hmul seed p).1, ?_⟩
  intro g hg
  obtain ⟨rx, rA⟩ := reachableNoPrimitive_residues hmul hg
  exact residueInvariant_of_residues hmul g rx rA

/-- C17: residue invariant. For a primitive that meets the contract of
`mul9x9mod` (on operands in `[0, m)` it returns `r * y mod m`, a value in
`[0, m)`), the constructor with any 64-bit seed and skip exponent calls it
with both operands in `[0, m)`; every state reachable from the constructor by
`getarray` (counts `>= 0`), `jump`, `setskip` and `primitive` calls has
`0 <= x < m` and `0 <= A < m`; and every call that an API operation makes from
such a state, those inside `powmod` included, has both operands in `[0, m)`. -/
theorem C17_residue_invariant (mul : Limbs → Limbs → Limbs) (hmul : MulContract mul) :
    MulRange mul ∧
    (∀ seed p, seed < 2 ^ 64 → p < 2 ^ 64 → CallsOk (ranluxpp.ctor_calls mul seed p)) ∧
    (∀ g, Reachable mul g →
      Residue g._x ∧ Residue g._A ∧ limbsVal g._x < modulus ∧ limbsVal g._A < modulus ∧
        ResidueInvariant mul g) := by
  refine ⟨hmul.range, fun seed p _ _ => (ctor_range hmul.range seed p).1, ?_⟩
  intro g hg
  obtain ⟨rx, rA⟩ := reachable_residues hmul hg
  exact ⟨rx, rA, rx.2, rA.2, residueInvariant_of_residues hmul.range g rx rA⟩

theorem C17_residue_invariant_witness :
    MulContract mul9x9mod ∧
      Reachable mul9x9mod
        (((ranluxpp.ctor mul9x9mod 0 0).primitive mul9x9mod).getarray_double mul9x9mod 30).1 ∧
      ResidueInvariant mul9x9mod
        (((ranluxpp.ctor mul9x9mod 0 0).primitive mul9x9mod).getarray_double
          mul9x9mod 30).1 ∧
      ∀ g, Reachable mul9x9mod g → ResidueInvariant mul9x9mod g :=
  have h2 : Reachable mul9x9mod
      (((ranluxpp.ctor mul9x9mod 0 0).primitive mul9x9mod).getarray_double
        mul9x9mod 30).1 :=
    Reachable.getarray_double _ 30
      (Reachable.primitive _ (Reachable.ctor 0 0 (by decide) (by decide)))
      (by decide) (by decide)
  ⟨mul9x9mod_contract, h2,
    ((C17_residue_invariant mul9x9mod mul9x9mod_contract).2.2 _ h2).2.2.2.2,
    fun g hg => ((C17_residue_invariant mul9x9mod mul9x9mod_contract).2.2 g hg).2.2.2.2⟩

theorem C18_cursor_invariant_witness :
    Reachable mul9x9mod
        (((ranluxpp.ctor mul9x9mod 1 2048).primitive mul9x9mod).getarray_double mul9x9mod 30).1 ∧
      (((ranluxpp.ctor mul9x9mod 1 2048).primitive mul9x9mod).getarray_double
        mul9x9mod 30).1._dpos ≤ 11 :=
  have h2 : Reachable mul9x9mod
      (((ranluxpp.ctor mul9x9mod 1 2048).primitive mul9x9mod).getarray_double
        mul9x9mod 30).1 :=
    Reachable.getarray_double _ 30
      (Reachable.primitive _ (Reachable.ctor 1 2048 (by decide) (by decide)))
      (by decide) (by decide)
  ⟨h2, (C18_cursor_invariant mul9x9mod _ h2).2.2.2.1⟩

/-! ## The call traces are complete

An operation run with another primitive that agrees with `mul` on the calls
of its trace computes the same result: the trace leaves out no call. -/

theorem powmodLoop_congr (mul mul2 : Limbs → Limbs → Limbs) :
    ∀ (fuel : Nat) (res x : Limbs) (n : Nat),
      (∀ c ∈ powmodLoopCalls mul fuel res x n, mul2 c.1 c.2 = mul c.1 c.2) →
        powmodLoop mul2 fuel res x n = powmodLoop mul fuel res x n := by
  intro fuel
  induction fuel with
  | zero => intro res x n _; rfl
  | succ fuel ih =>
    intro res x n h
    by_cases h0 : n = 0
    · subst h0
      simp only [powmodLoop, ne_eq, not_true_eq_false, if_false]
    · have hres : (if n &&& 1 ≠ 0 then mul2 res x else res) =
          (if n &&& 1 ≠ 0 then mul res x else res) := by
        by_cases hodd : n &&& 1 ≠ 0
        · rw [if_pos hodd, if_pos hodd]
          apply h (res, x)
          simp only [powmodLoopCalls, ne_eq, h0, not_false_eq_true, if_true]
          rw [if_pos hodd]
          split_ifs <;> simp
        · rw [if_neg hodd, if_neg hodd]
      by_cases h1 : n >>> 1 = 0
      · simp only [powmodLoop, ne_eq, h0, not_false_eq_true, if_true, h1]
        rw [hres]
      · have hxx : mul2 x x = mul x x := by
          apply h (x, x)
          simp only [powmodLoopCalls, ne_eq, h0, not_false_eq_true, if_true, h1, if_false]
          simp
        simp only [powmodLoop, ne_eq, h0, not_false_eq_true, if_true, h1, if_false]
        rw [hres, hxx]
        apply ih
        intro c hc
        apply h c
        simp only [powmodLoopCalls, ne_eq, h0, not_false_eq_true, if_true, h1, if_false]
        exact List.mem_append_right _ (List.mem_cons_of_mem _ hc)

theorem powmod_congr (mul mul2 : Limbs → Limbs → Limbs) (x : Limbs) (n : Nat)
    (h : ∀ c ∈ powmodCalls mul x n, mul2 c.1 c.2 = mul c.1 c.2) :
    powmod mul2 x n = powmod mul x n := by
  unfold powmod
  rw [powmodLoop_congr mul mul2 64 one9 x n h]

theorem jump_congr (mul mul2 : Limbs → Limbs → Limbs) (g : ranluxpp) (n : Nat)
    (h : ∀ c ∈ g.jump_calls mul n, mul2 c.1 c.2 = mul c.1 c.2) :
    g.jump mul2 n = g.jump mul n := by
  have hp : powmod mul2 geta n = powmod mul geta n :=
    powmod_congr mul mul2 geta n (fun c hc => h c (List.mem_append_left _ hc))
  have hx : mul2 g._x (powmod mul geta n) = mul g._x (powmod mul geta n) :=
    h (g._x, powmod mul geta n) (List.mem_append_right _ (List.mem_singleton.mpr rfl))
  unfold ranluxpp.jump
  simp only [hp, hx]

theorem setskip_congr (mul mul2 : Limbs → Limbs → Limbs) (g : ranluxpp) (n : Nat)
    (h : ∀ c ∈ ranluxpp.setskip_calls mul n, mul2 c.1 c.2 = mul c.1 c.2) :
    g.setskip mul2 n = g.setskip mul n := by
  unfold ranluxpp.setskip
  rw [powmod_congr mul mul2 geta n h]

theorem primitive_congr (mul mul2 : Limbs → Limbs → Limbs) (g : ranluxpp)
    (h : ∀ c ∈ ranluxpp.primitive_calls mul, mul2 c.1 c.2 = mul c.1 c.2) :
    g.primitive mul2 = g.primitive mul := by
  unfold ranluxpp.primitive
  rw [powmod_congr mul mul2 geta 2048 h]

theorem init_congr (mul mul2 : Limbs → Limbs → Limbs) (g : ranluxpp) (seed : Nat)
    (h : ∀ c ∈ g.init_calls mul seed, mul2 c.1 c.2 = mul c.1 c.2) :
    g.init mul2 seed = g.init mul seed := by
  have h1 : powmod mul2 g._A (1 <<< 48) = powmod mul g._A (1 <<< 48) :=
    powmod_congr mul mul2 _ _ (fun c hc => h c
      (List.mem_append_left _ (List.mem_append_left _ (List.mem_append_left _ hc))))
  have h2 : powmod mul2 (powmod mul g._A (1 <<< 48)) (1 <<< 48) =
      powmod mul (powmod mul g._A (1 <<< 48)) (1 <<< 48) :=
    powmod_congr mul mul2 _ _ (fun c hc => h c
      (List.mem_append_left _ (List.mem_append_left _ (List.mem_append_right _ hc))))
  have h3 : powmod mul2 (powmod mul (powmod mul g._A (1 <<< 48)) (1 <<< 48)) seed =
      powmod mul (powmod mul (powmod mul g._A (1 <<< 48)) (1 <<< 48)) seed :=
    powmod_congr mul mul2 _ _ (fun c hc => h c
      (List.mem_append_left _ (List.mem_append_right _ hc)))
  have h4 : mul2 g._x (powmod mul (powmod mul (powmod mul g._A (1 <<< 48)) (1 <<< 48)) seed) =
      mul g._x (powmod mul (powmod mul (powmod mul g._A (1 <<< 48)) (1 <<< 48)) seed) :=
    h (_, _) (List.mem_append_right _ (List.mem_singleton.mpr rfl))
  unfold ranluxpp.init
  simp only [h1, h2, h3, h4]

theorem ctor_congr (mul mul2 : Limbs → Limbs → Limbs) (seed p : Nat)
    (h : ∀ c ∈ ranluxpp.ctor_calls mul seed p, mul2 c.1 c.2 = mul c.1 c.2) :
    ranluxpp.ctor mul2 seed p = ranluxpp.ctor mul seed p := by
  have h1 : powmod mul2 geta p = powmod mul geta p :=
    powmod_congr mul mul2 _ _ (fun c hc => h c (List.mem_append_left _ hc))
  unfold ranluxpp.ctor
  simp only [h1]
  exact init_congr mul mul2 _ seed (fun c hc => h c (List.mem_append_right _ hc))

theorem floatsLoop_congr (mul mul2 : Limbs → Limbs → Limbs) :
    ∀ (fuel : Nat) (g : ranluxpp) (n : Int) (out : List (Option ℚ)),
      (∀ c ∈ floatsLoopCalls mul fuel g n, mul2 c.1 c.2 = mul c.1 c.2) →
        floatsLoop mul2 fuel g n out = floatsLoop mul fuel g n out := by
  intro fuel
  induction fuel with
  | zero => intro g n out _; rfl
  | succ fuel ih =>
    intro g n out h
    by_cases hn : n ≥ 24
    · have ec : floatsLoopCalls mul (fuel + 1) g n =
          (g._x, g._A) :: floatsLoopCalls mul fuel (g.nextstate mul) (n - 24) := by
        simp only [floatsLoopCalls, if_pos hn]
      rw [ec] at h
      have hx : mul2 g._x g._A = mul g._x g._A := h (g._x, g._A) (List.mem_cons_self _ _)
      have hs : g.nextstate mul2 = g.nextstate mul := by
        unfold ranluxpp.nextstate
        rw [hx]
      simp only [floatsLoop, if_pos hn, hs]
      exact ih _ _ _ (fun c hc => h c (List.mem_cons_of_mem _ hc))
    · simp only [floatsLoop, if_neg hn]

theorem getarray_float_congr (mul mul2 : Limbs → Limbs → Limbs) (g : ranluxpp) (n : Int)
    (h : ∀ c ∈ g.getarray_float_calls mul n, mul2 c.1 c.2 = mul c.1 c.2) :
    g.getarray_float mul2 n = g.getarray_float mul n := by
  have tail : ∀ (g1 : ranluxpp) (k : Int) (out : List (Option ℚ)),
      (∀ c ∈ (if (floatsLoop mul k.toNat g1 k []).2.1 ≠ 0 then
            floatsLoopCalls mul k.toNat g1 k ++
              [((floatsLoop mul k.toNat g1 k []).1._x, (floatsLoop mul k.toNat g1 k []).1._A)]
          else floatsLoopCalls mul k.toNat g1 k), mul2 c.1 c.2 = mul c.1 c.2) →
        floatsLoop mul2 k.toNat g1 k out = floatsLoop mul k.toNat g1 k out ∧
          ((floatsLoop mul k.toNat g1 k []).2.1 ≠ 0 →
            (floatsLoop mul k.toNat g1 k []).1.nextfloats mul2 =
              (floatsLoop mul k.toNat g1 k []).1.nextfloats mul) := by
    intro g1 k out hc
    constructor
    · apply floatsLoop_congr
      intro c hmem
      apply hc c
      split_ifs
      · exact List.mem_append_left _ hmem
      · exact hmem
    · intro hne
      rw [if_pos hne] at hc
      have hx := hc (_, _) (List.mem_append_right _ (List.mem_singleton.mpr rfl))
      unfold ranluxpp.nextfloats ranluxpp.nextstate
      simp only [hx]
  unfold ranluxpp.getarray_float_calls at h
  unfold ranluxpp.getarray_float
  by_cases hpos : g._fpos < 24
  · simp only [if_pos hpos] at h ⊢
    generalize (if 24 - g._fpos < n then 24 - g._fpos else n) = rest at h ⊢
    obtain ⟨t1, t2⟩ := tail { g with _fpos := g._fpos + rest } (n - rest)
      (copyOut g._floats g._fpos rest) h
    rw [t1, floatsLoop_out mul _ _ _ (copyOut g._floats g._fpos rest)]
    by_cases hne : (floatsLoop mul (n - rest).toNat { g with _fpos := g._fpos + rest }
        (n - rest) []).2.1 ≠ 0
    · simp only [hne, ne_eq, not_false_eq_true, if_true, t2 hne]
    · simp only [hne, if_false]
  · simp only [if_neg hpos] at h ⊢
    obtain ⟨t1, t2⟩ := tail g n [] h
    rw [t1]
    by_cases hne : (floatsLoop mul n.toNat g n []).2.1 ≠ 0
    · simp only [hne, ne_eq, not_false_eq_true, if_true, t2 hne]
    · simp only [hne, if_false]

theorem doublesLoop_congr (mul mul2 : Limbs → Limbs → Limbs) :
    ∀ (fuel : Nat) (g : ranluxpp) (n : Int) (out : List (Option ℚ)),
      (∀ c ∈ doublesLoopCalls mul fuel g n, mul2 c.1 c.2 = mul c.1 c.2) →
        doublesLoop mul2 fuel g n out = doublesLoop mul fuel g n out := by
  intro fuel
  induction fuel with
  | zero => intro g n out _; rfl
  | succ fuel ih =>
    intro g n out h
    by_cases hn : n ≥ 11
    · have ec : doublesLoopCalls mul (fuel + 1) g n =
          (g._x, g._A) :: doublesLoopCalls mul fuel (g.nextstate mul) (n - 11) := by
        simp only [doublesLoopCalls, if_pos hn]
      rw [ec] at h
      have hx : mul2 g._x g._A = mul g._x g._A := h (g._x, g._A) (List.mem_cons_self _ _)
      have hs : g.nextstate mul2 = g.nextstate mul := by
        unfold ranluxpp.nextstate
        rw [hx]
      simp only [doublesLoop, if_pos hn, hs]
      exact ih _ _ _ (fun c hc => h c (List.mem_cons_of_mem _ hc))
    · simp only [doublesLoop, if_neg hn]

theorem getarray_double_congr (mul mul2 : Limbs → Limbs → Limbs) (g : ranluxpp) (n : Int)
    (h : ∀ c ∈ g.getarray_double_calls mul n, mul2 c.1 c.2 = mul c.1 c.2) :
    g.getarray_double mul2 n = g.getarray_double mul n := by
  have tail : ∀ (g1 : ranluxpp) (k : Int) (out : List (Option ℚ)),
      (∀ c ∈ (if (doublesLoop mul k.toNat g1 k []).2.1 ≠ 0 then
            doublesLoopCalls mul k.toNat g1 k ++
              [((doublesLoop mul k.toNat g1 k []).1._x, (doublesLoop mul k.toNat g1 k []).1._A)]
          else doublesLoopCalls mul k.toNat g1 k), mul2 c.1 c.2 = mul c.1 c.2) →
        doublesLoop mul2 k.toNat g1 k out = doublesLoop mul k.toNat g1 k out ∧
          ((doublesLoop mul k.toNat g1 k []).2.1 ≠ 0 →
            (doublesLoop mul k.toNat g1 k []).1.nextdoubles mul2 =
              (doublesLoop mul k.toNat g1 k []).1.nextdoubles mul) := by
    intro g1 k out hc
    constructor
    · apply doublesLoop_congr
      intro c hmem
      apply hc c
      split_ifs
      · exact List.mem_append_left _ hmem
      · exact hmem
    · intro hne
      rw [if_pos hne] at hc
      have hx := hc (_, _) (List.mem_append_right _ (List.mem_singleton.mpr rfl))
      unfold ranluxpp.nextdoubles ranluxpp.nextstate
      simp only [hx]
  unfold ranluxpp.getarray_double_calls at h
  unfold ranluxpp.getarray_double
  by_cases hpos : g._dpos < 11
  · simp only [if_pos hpos] at h ⊢
    generalize (if 11 - g._dpos < n then 11 - g._dpos else n) = rest at h ⊢
    obtain ⟨t1, t2⟩ := tail { g with _dpos := g._dpos + rest } (n - rest)
      (copyOut g._doubles g._dpos rest) h
    rw [t1, doublesLoop_out mul _ _ _ (copyOut g._doubles g._dpos rest)]
    by_cases hne : (doublesLoop mul (n - rest).toNat { g with _dpos := g._dpos + rest }
        (n - rest) []).2.1 ≠ 0
    · simp only [hne, ne_eq, not_false_eq_true, if_true, t2 hne]
    · simp only [hne, if_false]
  · simp only [if_neg hpos] at h ⊢
    obtain ⟨t1, t2⟩ := tail g n [] h
    rw [t1]
    by_cases hne : (doublesLoop mul n.toNat g n []).2.1 ≠ 0
    · simp only [hne, ne_eq, not_false_eq_true, if_true, t2 hne]
    · simp only [hne, if_false]

/-! ## Modular powers -/

theorem powModAux_spec (m : Nat) :
    ∀ (fuel acc b e : Nat), e < 2 ^ fuel → powModAux m fuel acc b e % m = acc * b ^ e % m := by
  intro fuel
  induction fuel with
  | zero =>
    intro acc b e he
    have h0 : e = 0 := by simpa using he
    subst h0
    simp [powModAux]
  | succ fuel ih =>
    intro acc b e he
    by_cases h0 : e = 0
    · subst h0
      simp [powModAux]
    · have hlt : e / 2 < 2 ^ fuel := by
        rw [pow_succ] at he
        omega
      have hsplit : b ^ e = b ^ (e % 2) * (b * b) ^ (e / 2) := by
        rw [← pow_two, ← pow_mul, ← pow_add, Nat.mod_add_div]
      simp only [powModAux, h0, if_false]
      rw [ih _ _ _ hlt, hsplit]
      by_cases hodd : e % 2 = 1
      · rw [if_pos hodd, hodd, pow_one, ← mul_assoc]
        conv_lhs => rw [Nat.mul_mod, Nat.mod_mod, Nat.pow_mod, Nat.mod_mod, ← Nat.pow_mod,
          ← Nat.mul_mod]
      · have hev : e % 2 = 0 := by omega
        rw [if_neg hodd, hev, pow_zero, one_mul]
        conv_lhs => rw [Nat.mul_mod, Nat.pow_mod, Nat.mod_mod, ← Nat.pow_mod, ← Nat.mul_mod]

theorem powModAux_eq_pow_mod {m fuel b e : Nat} (he : e < 2 ^ fuel) :
    powModAux m fuel 1 b e % m = b ^ e % m := by
  rw [powModAux_spec m fuel 1 b e he, one_mul]

theorem prime_mem_of_dvd_factorsProd {q : Nat} (hq : q.Prime) :
    ∀ fs : List (Nat × Nat), (∀ f ∈ fs, f.1.Prime) → q ∣ factorsProd fs →
      ∃ f ∈ fs, f.1 = q := by
  intro fs
  induction fs with
  | nil =>
    intro _ h
    have h1 : q ∣ 1 := h
    exact absurd (Nat.dvd_one.mp h1) hq.one_lt.ne'
  | cons f fs ih =>
    intro hfs h
    have hprod : factorsProd (f :: fs) = f.1 ^ f.2 * factorsProd fs := by
      simp [factorsProd]
    rw [hprod] at h
    rcases (Nat.Prime.dvd_mul hq).mp h with h1 | h1
    · have h2 := hq.dvd_of_dvd_pow h1
      have h3 := (Nat.prime_dvd_prime_iff_eq hq (hfs f (List.mem_cons_self f fs))).mp h2
      exact ⟨f, List.mem_cons_self f fs, h3.symm⟩
    · obtain ⟨f', hf', e⟩ := ih (fun f' hf' => hfs f' (List.mem_cons_of_mem f hf')) h1
      exact ⟨f', List.mem_cons_of_mem f hf', e⟩

theorem natCast_pow_eq_one_iff {p a e : Nat} (hp : 1 < p) :
    ((a : ZMod p) ^ e = 1) ↔ a ^ e % p = 1 := by
  have h := ZMod.natCast_eq_natCast_iff' (a ^ e) 1 p
  rw [Nat.cast_pow, Nat.cast_one, Nat.mod_eq_of_lt hp] at h
  exact h

/-- The Lucas test: when the check succeeds and the listed factors are prime,
`p` is prime and `a` is a primitive root modulo `p`. -/
theorem lucas_of_check {p a : Nat} {fs : List (Nat × Nat)} (h : lucasCheck p a fs = true)
    (hfs : ∀ f ∈ fs, f.1.Prime) : p.Prime ∧ orderOf (a : ZMod p) = p - 1 := by
  simp only [lucasCheck, Bool.and_eq_true, decide_eq_true_eq, List.all_eq_true] at h
  obtain ⟨⟨⟨⟨hp, hlt⟩, hprod⟩, h1⟩, hd⟩ := h
  have hfuel : ∀ e, e ≤ p - 1 → e < 2 ^ 600 := fun e he => by omega
  have ha : (a : ZMod p) ^ (p - 1) = 1 := by
    rw [natCast_pow_eq_one_iff hp, ← powModAux_eq_pow_mod (hfuel _ (le_refl _))]
    exact h1
  have hq : ∀ q : Nat, q.Prime → q ∣ p - 1 → (a : ZMod p) ^ ((p - 1) / q) ≠ 1 := by
    intro q hq hdvd
    rw [← hprod] at hdvd
    obtain ⟨f, hf, rfl⟩ := prime_mem_of_dvd_factorsProd hq fs hfs hdvd
    rw [Ne, natCast_pow_eq_one_iff hp, ← powModAux_eq_pow_mod (hfuel _ (Nat.div_le_self _ _))]
    exact hd f hf
  exact ⟨lucas_primality p a ha hq, orderOf_eq_of_pow_and_pow_div_prime (by omega) ha hq⟩

/-! ### Lucas certificates for the prime factors of `m - 1` -/

theorem prime_1429 : Nat.Prime 1429 := by
  refine (@lucas_of_check 1429 6
    [(2, 2), (3, 1), (7, 1), (17, 1)] (by decide) ?_).1
  intro f hf
  simp only [List.mem_cons, List.mem_singleton, List.not_mem_nil, or_false] at hf
  rcases hf with h | h | h | h <;> subst h
  all_goals first
    | norm_num

theorem prime_1811 : Nat.Prime 1811 := by
  refine (@lucas_of_check 1811 6
    [(2, 1), (5, 1), (181, 1)] (by decide) ?_).1
  intro f hf
  simp only [List.mem_cons, List.mem_singleton, List.not_mem_nil, or_false] at hf
  rcases hf with h | h | h <;> subst h
  all_goals first
    | norm_num

theorem prime_2017 : Nat.Prime 2017 := by
  refine (@lucas_of_check 2017 5
    [(2, 5), (3, 2), (7, 1)] (by decide) ?_).1
  intro f hf
  simp only [List.mem_cons, List.mem_singleton, List.not_mem_nil, or_false] at hf
  rcases hf with h | h | h <;> subst h
  all_goals first
    | norm_num

theorem prime_2179 : Nat.Prime 2179 := by
  refine (@lucas_of_check 2179 7
    [(2, 1), (3, 2), (11, 2)] (by decide) ?_).1
  intro f hf
  simp only [List.mem_cons, List.mem_singleton, List.not_mem_nil, or_false] at hf
  rcases hf with h | h | h <;> subst h
  all_goals first
    | norm_num

theorem prime_2609 : Nat.Prime 2609 := by
  refine (@lucas_of_check 2609 3
    [(2, 4), (163, 1)] (by decide) ?_).1
  intro f hf
  simp only [List.mem_cons, List.mem_singleton, List.not_mem_nil, or_false] at hf
  rcases hf with h | h <;> subst h
  all_goals first
    | norm_num

theorem prime_3361 : Nat.Prime 3361 := by
  refine (@lucas_of_check 3361 22
    [(2, 5), (3, 1), (5, 1), (7, 1)] (by decide) ?_).1
  intro f hf
  simp only [List.mem_cons, List.mem_singleton, List.not_mem_nil, or_false] at hf
  rcases hf with h | h | h | h <;> subst h
  all_goals first
    | norm_num

theorem prime_3623 : Nat.Prime 3623 := by
  refine (@lucas_of_check 3623 5
    [(2, 1), (1811, 1)] (by decide) ?_).1
  intro f hf
  simp only [List.mem_cons, List.mem_singleton, List.not_mem_nil, or_false] at hf
  rcases hf with h | h <;> subst h
  all_goals first
    | exact prime_1811
    | norm_num

theorem prime_5153 : Nat.Prime 5153 := by
  refine (@lucas_of_check 5153 5
    [(2, 5), (7, 1), (23, 1)] (by decide) ?_).1
  intro f hf
  simp only [List.mem_cons, List.mem_singleton, List.not_mem_nil, or_false] at hf
  rcases hf with h | h | h <;> subst h
  all_goals first
    | norm_num

theorem prime_5419 : Nat.Prime 5419 := by
  refine (@lucas_of_check 5419 3
    [(2, 1), (3, 2), (7, 1), (43, 1)] (by decide) ?_).1
  intro f hf
  simp only [List.mem_cons, List.mem_singleton, List.not_mem_nil, or_false] at hf
  rcases hf with h | h | h | h <;> subst h
  all_goals first
    | norm_num

theorem prime_14449 : Nat.Prime 14449 := by
  refine (@lucas_of_check 14449 22
    [(2, 4), (3, 1), (7, 1), (43, 1)] (by decide) ?_).1
  intro f hf
  simp only [List.mem_cons, List.mem_singleton, List.not_mem_nil, or_false] at hf
  rcases hf with h | h | h | h <;> subst h
  all_goals first
    | norm_num

theorem prime_20873 : Nat.Prime 20873 := by
  refine (@lucas_of_check 20873 3
    [(2, 3), (2609, 1)] (by decide) ?_).1
  intro f hf
  simp only [List.mem_cons, List.mem_singleton, List.not_mem_nil, or_false] at hf
  rcases hf with h | h <;> subst h
  all_goals first
    | exact prime_2609
    | norm_num

theorem prime_660071 : Nat.Prime 660071 := by
  refine (@lucas_of_check 660071 11
    [(2, 1), (5, 1), (149, 1), (443, 1)] (by decide) ?_).1
  intro f hf
  simp only [List.mem_cons, List.mem_singleton, List.not_mem_nil, or_false] at hf
  rcases hf with h | h | h | h <;> subst h
  all_goals first
    | norm_num

theorem prime_790333 : Nat.Prime 790333 := by
  refine (@lucas_of_check 790333 2
    [(2, 2), (3, 1), (67, 1), (983, 1)] (by decide) ?_).1
  intro f hf
  simp only [List.mem_cons, List.mem_singleton, List.not_mem_nil, or_false] at hf
  rcases hf with h | h | h | h <;> subst h
  all_goals first
    | norm_num

theorem prime_15790321 : Nat.Prime 15790321 := by
  refine (@lucas_of_check 15790321 19
    [(2, 4), (3, 2), (5, 1), (7, 1), (13, 1), (241, 1)] (by decide) ?_).1
  intro f hf
  simp only [List.mem_cons, List.mem_singleton, List.not_mem_nil, or_false] at hf
  rcases hf with h | h | h | h | h | h <;> subst h
  all_goals first
    | norm_num

theorem prime_242906129 : Nat.Prime 242906129 := by
  refine (@lucas_of_check 242906129 3
    [(2, 4), (23, 1), (660071, 1)] (by decide) ?_).1
  intro f hf
  simp only [List.mem_cons, List.mem_singleton, List.not_mem_nil, or_false] at hf
  rcases hf with h | h | h <;> subst h
  all_goals first
    | exact prime_660071
    | norm_num

theorem prime_25629623713 : Nat.Prime 25629623713 := by
  refine (@lucas_of_check 25629623713 5
    [(2, 5), (3, 2), (7, 1), (11, 2), (29, 1), (3623, 1)] (by decide) ?_).1
  intro f hf
  simp only [List.mem_cons, List.mem_singleton, List.not_mem_nil, or_false] at hf
  rcases hf with h | h | h | h | h | h <;> subst h
  all_goals first
    | exact prime_3623
    | norm_num

theorem prime_54410972897 : Nat.Prime 54410972897 := by
  refine (@lucas_of_check 54410972897 3
    [(2, 5), (7, 1), (242906129, 1)] (by decide) ?_).1
  intro f hf
  simp only [List.mem_cons, List.mem_singleton, List.not_mem_nil, or_false] at hf
  rcases hf with h | h | h <;> subst h
  all_goals first
    | exact prime_242906129
    | norm_num

theorem prime_88959882481 : Nat.Prime 88959882481 := by
  refine (@lucas_of_check 88959882481 26
    [(2, 4), (3, 1), (5, 1), (7, 1), (67, 1), (790333, 1)] (by decide) ?_).1
  intro f hf
  simp only [List.mem_cons, List.mem_singleton, List.not_mem_nil, or_false] at hf
  rcases hf with h | h | h | h | h | h <;> subst h
  all_goals first
    | exact prime_790333
    | norm_num

theorem prime_1538595959564161 : Nat.Prime 1538595959564161 := by
  refine (@lucas_of_check 1538595959564161 23
    [(2, 7), (3, 2), (5, 1), (7, 1), (839, 1), (2179, 1), (20873, 1)] (by decide) ?_).1
  intro f hf
  simp only [List.mem_cons, List.mem_singleton, List.not_mem_nil, or_false] at hf
  rcases hf with h | h | h | h | h | h | h <;> subst h
  all_goals first
    | exact prime_2179
    | exact prime_20873
    | norm_num

theorem modulusPredFactors_prime : ∀ f ∈ modulusPredFactors, f.1.Prime := by
  intro f hf
  simp only [modulusPredFactors, List.mem_cons, List.mem_singleton, List.not_mem_nil,
    or_false] at hf
  rcases hf with h | h | h | h | h | h | h | h | h | h | h | h | h | h | h | h | h | h | h |
    h | h | h | h | h | h | h <;> subst h
  all_goals first
    | exact prime_1429
    | exact prime_2017
    | exact prime_3361
    | exact prime_5153
    | exact prime_5419
    | exact prime_14449
    | exact prime_15790321
    | exact prime_25629623713
    | exact prime_54410972897
    | exact prime_88959882481
    | exact prime_1538595959564161
    | norm_num

set_option maxRecDepth 1000000 in
theorem lucasCheck_modulus :
    lucasCheck modulus ((limbsVal geta ^ 2048 + 13) % modulus) modulusPredFactors = true := by
  decide

/-- The modulus is prime and `a^2048 + 13` is a primitive root modulo it. -/
theorem modulus_prime_and_order :
    modulus.Prime ∧
      orderOf ((((limbsVal geta ^ 2048 + 13) % modulus : Nat) : ZMod modulus)) = modulus - 1 :=
  lucas_of_check lucasCheck_modulus modulusPredFactors_prime

/-- A full-period multiplier modulo a prime: from any nonzero `x` the
recurrence `x <- x * A mod p` takes `p - 1` distinct nonzero values, every
nonzero residue among them, and returns to `x` after `p - 1` steps. -/
theorem full_period_of_order {p A : Nat} (hp : p.Prime)
    (hord : orderOf (A : ZMod p) = p - 1) (x : Nat) (hx0 : 0 < x) (hxp : x < p) :
    (∀ i j, i < p - 1 → j < p - 1 → x * A ^ i % p = x * A ^ j % p → i = j) ∧
    (∀ k, x * A ^ k % p ≠ 0) ∧
    (∀ y, 0 < y → y < p → ∃ k, k < p - 1 ∧ x * A ^ k % p = y) ∧
    x * A ^ (p - 1) % p = x := by
  haveI : Fact p.Prime := ⟨hp⟩
  have hp1 : 0 < p - 1 := by have := hp.two_le; omega
  have hone : (A : ZMod p) ^ (p - 1) = 1 := by rw [← hord]; exact pow_orderOf_eq_one _
  have hA0 : (A : ZMod p) ≠ 0 := by
    intro h
    rw [h, zero_pow hp1.ne'] at hone
    exact zero_ne_one hone
  have hx : (x : ZMod p) ≠ 0 := by
    rw [Ne, ZMod.natCast_zmod_eq_zero_iff_dvd]
    intro h
    exact absurd (Nat.le_of_dvd hx0 h) (not_le.mpr hxp)
  have cast : ∀ u v : Nat, u % p = v % p ↔ (u : ZMod p) = v := fun u v =>
    (ZMod.natCast_eq_natCast_iff' u v p).symm
  have key : ∀ i j, i ≤ j → j < p - 1 → (A : ZMod p) ^ i = (A : ZMod p) ^ j → i = j := by
    intro i j hij hj h
    have h1 : (A : ZMod p) ^ (j - i) = 1 := by
      have h2 : (A : ZMod p) ^ i * (A : ZMod p) ^ (j - i) = (A : ZMod p) ^ i * 1 := by
        rw [← pow_add, Nat.add_sub_cancel' hij, mul_one, h]
      exact mul_left_cancel₀ (pow_ne_zero i hA0) h2
    have h3 := orderOf_dvd_of_pow_eq_one h1
    rw [hord] at h3
    have h4 : j - i = 0 := Nat.eq_zero_of_dvd_of_lt h3 (by omega)
    omega
  refine ⟨?_, ?_, ?_, ?_⟩
  · intro i j hi hj h
    rw [cast] at h
    push_cast at h
    have h' := mul_left_cancel₀ hx h
    rcases Nat.le_total i j with hij | hij
    · exact key i j hij hj h'
    · exact (key j i hij hi h'.symm).symm
  · intro k h
    have h0 : x * A ^ k % p = 0 % p := by rw [h, Nat.zero_mod]
    rw [cast] at h0
    push_cast at h0
    exact mul_ne_zero hx (pow_ne_zero k hA0) h0
  · intro y hy0 hyp
    have hy : (y : ZMod p) ≠ 0 := by
      rw [Ne, ZMod.natCast_zmod_eq_zero_iff_dvd]
      intro h
      exact absurd (Nat.le_of_dvd hy0 h) (not_le.mpr hyp)
    let u : (ZMod p)ˣ := Units.mk0 (A : ZMod p) hA0
    let v : (ZMod p)ˣ := Units.mk0 ((y : ZMod p) / (x : ZMod p)) (div_ne_zero hy hx)
    have hu : orderOf u = p - 1 := by
      rw [← orderOf_units]
      exact hord
    have htop : Subgroup.zpowers u = ⊤ := by
      apply Subgroup.eq_top_of_card_eq
      rw [Nat.card_zpowers, hu, Nat.card_eq_fintype_card, ZMod.card_units]
    have hv : v ∈ Subgroup.zpowers u := by rw [htop]; exact Subgroup.mem_top v
    have hfin : IsOfFinOrder u := isOfFinOrder_of_finite u
    rw [← mem_powers_iff_mem_zpowers, mem_powers_iff_mem_range_orderOf, hu] at hv
    obtain ⟨k, hk, hkv⟩ := Finset.mem_image.mp hv
    refine ⟨k, Finset.mem_range.mp hk, ?_⟩
    have hval : (A : ZMod p) ^ k = (y : ZMod p) / (x : ZMod p) := by
      have := congrArg (fun w : (ZMod p)ˣ => (w : ZMod p)) hkv
      simpa [u, v] using this
    have hcast : ((x * A ^ k : Nat) : ZMod p) = (y : ZMod p) := by
      push_cast
      rw [hval, mul_div_cancel₀ _ hx]
    rw [← cast] at hcast
    rw [hcast, Nat.mod_eq_of_lt hyp]
  · have hcast : ((x * A ^ (p - 1) : Nat) : ZMod p) = (x : ZMod p) := by
      push_cast
      rw [hone, mul_one]
    rw [← cast] at hcast
    rw [hcast, Nat.mod_eq_of_lt hxp]

/-- C12: the multiplier that `primitive()` sets, `A = a^2048 + 13 mod m`, is
a primitive root modulo `m = 2^576 - 2^240 + 1`: `m` is prime and the
multiplicative order of `A` is `m - 1`, so from any nonzero `x` the recurrence
`x <- x * A mod m` takes `m - 1` distinct nonzero values, every nonzero
residue among them, before it returns to `x`. -/
theorem C12_primitive_root (mul : Limbs → Limbs → Limbs) (hmul : MulContract mul)
    (g : ranluxpp) :
    modulus.Prime ∧
    orderOf ((limbsVal (g.primitive mul)._A : Nat) : ZMod modulus) = modulus - 1 ∧
    ∀ x, 0 < x → x < modulus →
      (∀ i j, i < modulus - 1 → j < modulus - 1 →
        x * limbsVal (g.primitive mul)._A ^ i % modulus =
          x * limbsVal (g.primitive mul)._A ^ j % modulus → i = j) ∧
      (∀ k, x * limbsVal (g.primitive mul)._A ^ k % modulus ≠ 0) ∧
      (∀ y, 0 < y → y < modulus →
        ∃ k, k < modulus - 1 ∧ x * limbsVal (g.primitive mul)._A ^ k % modulus = y) ∧
      x * limbsVal (g.primitive mul)._A ^ (modulus - 1) % modulus = x := by
  have hm : (limbsVal geta ^ 2048 + 13) % modulus < modulus := Nat.mod_lt _ modulus_pos
  have hv : limbsVal (g.primitive mul)._A = (limbsVal geta ^ 2048 + 13) % modulus := by
    rw [(primitive_A hmul g).1, limbsVal_toLimbs (lt_trans hm modulus_lt)]
  obtain ⟨hp, hord⟩ := modulus_prime_and_order
  rw [hv]
  exact ⟨hp, hord, fun x hx0 hxp => full_period_of_order hp hord x hx0 hxp⟩

theorem C12_primitive_root_witness :
    MulContract mul9x9mod ∧ modulus.Prime ∧
      orderOf ((limbsVal ((ranluxpp.ctor mul9x9mod 1 2048).primitive mul9x9mod)._A : Nat) :
        ZMod modulus) = modulus - 1 :=
  ⟨mul9x9mod_contract,
    (C12_primitive_root mul9x9mod mul9x9mod_contract (ranluxpp.ctor mul9x9mod 1 2048)).1,
    (C12_primitive_root mul9x9mod mul9x9mod_contract (ranluxpp.ctor mul9x9mod 1 2048)).2.1⟩

/-! ## The order of the fixed base -/

set_option maxRecDepth 1000000 in
theorem geta_pow_sixteenth :
    powModAux modulus 600 1 (limbsVal geta) (2 ^ 236 * (2 ^ 336 - 1)) % modulus = 1 := by
  decide

set_option maxRecDepth 1000000 in
theorem geta_pow_thirtysecond :
    powModAux modulus 600 1 (limbsVal geta) (2 ^ 235 * (2 ^ 336 - 1)) % modulus ≠ 1 := by
  decide

/-- The multiplicative order of `a` modulo `m` is a multiple of `2^236`. -/
theorem geta_order_dvd : 2 ^ 236 ∣ orderOf (limbsVal geta : ZMod modulus) := by
  have hm : 1 < modulus := by decide
  have h16 : (limbsVal geta : ZMod modulus) ^ (2 ^ 236 * (2 ^ 336 - 1)) = 1 := by
    rw [natCast_pow_eq_one_iff hm, ← powModAux_eq_pow_mod (show _ < 2 ^ 600 by decide)]
    exact geta_pow_sixteenth
  have h32 : (limbsVal geta : ZMod modulus) ^ (2 ^ 235 * (2 ^ 336 - 1)) ≠ 1 := by
    rw [Ne, natCast_pow_eq_one_iff hm, ← powModAux_eq_pow_mod (show _ < 2 ^ 600 by decide)]
    exact geta_pow_thirtysecond
  have hd := orderOf_dvd_of_pow_eq_one h16
  obtain ⟨d1, d2, hd1, hd2, hmul⟩ := (Nat.dvd_mul).mp hd
  obtain ⟨j, hj, rfl⟩ := (Nat.dvd_prime_pow Nat.prime_two).mp hd1
  by_cases hj' : j = 236
  · subst hj'
    exact ⟨d2, hmul.symm⟩
  · exfalso
    apply h32
    apply orderOf_dvd_iff_pow_eq_one.mp
    rw [← hmul]
    exact Nat.mul_dvd_mul (pow_dvd_pow 2 (by omega)) hd2

/-- No power `a^k` with `0 < k < 2^236` is `1` modulo `m`. -/
theorem geta_pow_ne_one {k : Nat} (h0 : 0 < k) (hk : k < 2 ^ 236) :
    limbsVal geta ^ k % modulus ≠ 1 := by
  intro h
  have hm : 1 < modulus := by decide
  have h1 : (limbsVal geta : ZMod modulus) ^ k = 1 := (natCast_pow_eq_one_iff hm).mpr h
  have h2 := Nat.dvd_trans geta_order_dvd (orderOf_dvd_of_pow_eq_one h1)
  exact absurd (Nat.le_of_dvd h0 h2) (not_le.mpr hk)

/-- Powers of `a` whose exponents are less than `2^236` apart differ. -/
theorem geta_pow_ne {e1 e2 : Nat} (h : e1 < e2) (hd : e2 - e1 < 2 ^ 236) :
    limbsVal geta ^ e1 % modulus ≠ limbsVal geta ^ e2 % modulus := by
  intro heq
  apply geta_pow_ne_one (show 0 < e2 - e1 by omega) hd
  have hXZ : limbsVal geta ^ e1 * (2 ^ 24) ^ e1 ≡ 1 [MOD modulus] := by
    have hunit := geta_pow_unit e1
    rw [Nat.mod_mul_mod] at hunit
    show _ % modulus = 1 % modulus
    rw [hunit]
    decide
  have hXY : limbsVal geta ^ e1 ≡ limbsVal geta ^ e1 * limbsVal geta ^ (e2 - e1)
      [MOD modulus] := by
    show _ % modulus = _ % modulus
    rw [← pow_add, Nat.add_sub_cancel' (le_of_lt h)]
    exact heq
  have hY : limbsVal geta ^ (e2 - e1) ≡ 1 [MOD modulus] :=
    calc limbsVal geta ^ (e2 - e1)
        = 1 * limbsVal geta ^ (e2 - e1) := (one_mul _).symm
      _ ≡ limbsVal geta ^ e1 * (2 ^ 24) ^ e1 * limbsVal geta ^ (e2 - e1) [MOD modulus] :=
          (hXZ.symm).mul_right _
      _ = limbsVal geta ^ e1 * limbsVal geta ^ (e2 - e1) * (2 ^ 24) ^ e1 := by ring
      _ ≡ limbsVal geta ^ e1 * (2 ^ 24) ^ e1 [MOD modulus] := (hXY.symm).mul_right _
      _ ≡ 1 [MOD modulus] := hXZ
  have h1 : limbsVal geta ^ (e2 - e1) % modulus = 1 % modulus := hY
  rw [h1]
  decide

/-- The state after `i` state advances of a freshly constructed generator. -/
theorem ctor_iterate_val {mul : Limbs → Limbs → Limbs} (hmul : MulContract mul) {s p : Nat}
    (hs : s < 2 ^ 64) (hp : p < 2 ^ 64) (i : Nat) :
    limbsVal ((ranluxpp.nextstate mul)^[i] (ranluxpp.ctor mul s p))._x =
      limbsVal geta ^ (p * 2 ^ 96 * s + p * i) % modulus := by
  obtain ⟨rA, vA, rx, vx⟩ := ctor_spec hmul hs hp
  obtain ⟨_, v, _⟩ := iterate_nextstate_spec hmul _ rx rA i
  rw [v, vx, vA, Nat.mul_mod, Nat.mod_mod, pow_mod_pow_mod, ← Nat.mul_mod, ← pow_add]

set_option maxRecDepth 100000 in
/-- C13 fails as stated: with skip exponent 0 the multiplier is 1, and the
generators constructed with seeds 0 and 1 start in the same state (`i = j = 0`). -/
theorem C13_seed_separation_counterexample :
    ((ranluxpp.nextstate mul9x9mod)^[0] (ranluxpp.ctor mul9x9mod 0 0))._x =
      ((ranluxpp.nextstate mul9x9mod)^[0] (ranluxpp.ctor mul9x9mod (0 + 1) 0))._x := by
  decide

/-- C13, amended: seed separation for every skip exponent `p >= 1`. For every
seed `s < 2^64 - 1` and all `i, j < 2^96`, the state after `i` state advances
of the generator constructed with `(s, p)` differs from the state after `j`
state advances of the one constructed with `(s + 1, p)`; and distinct seeds
give distinct initial states. -/
theorem C13_seed_separation (mul : Limbs → Limbs → Limbs) (hmul : MulContract mul) (p : Nat)
    (hp0 : 0 < p) (hp : p < 2 ^ 64) :
    (∀ s i j, s < 2 ^ 64 - 1 → i < 2 ^ 96 → j < 2 ^ 96 →
      ((ranluxpp.nextstate mul)^[i] (ranluxpp.ctor mul s p))._x ≠
        ((ranluxpp.nextstate mul)^[j] (ranluxpp.ctor mul (s + 1) p))._x) ∧
    (∀ s1 s2, s1 < 2 ^ 64 → s2 < 2 ^ 64 → s1 ≠ s2 →
      (ranluxpp.ctor mul s1 p)._x ≠ (ranluxpp.ctor mul s2 p)._x) := by
  constructor
  · intro s i j hs hi hj heq
    have h1 := ctor_iterate_val hmul (show s < 2 ^ 64 by omega) hp i
    have h2 := ctor_iterate_val hmul (show s + 1 < 2 ^ 64 by omega) hp j
    rw [heq, h2] at h1
    have hd0 : 0 < 2 ^ 96 + j - i := by omega
    have hd1 : 2 ^ 96 + j - i < 2 ^ 97 := by omega
    have hE : p * 2 ^ 96 * (s + 1) + p * j = p * 2 ^ 96 * s + p * i + p * (2 ^ 96 + j - i) := by
      have hsub : p * i + p * (2 ^ 96 + j - i) = p * (2 ^ 96 + j) := by
        rw [← Nat.mul_add, Nat.add_sub_cancel' (show i ≤ 2 ^ 96 + j by omega)]
      rw [Nat.add_assoc, hsub]
      ring
    have hlt : p * (2 ^ 96 + j - i) < 2 ^ 236 :=
      calc p * (2 ^ 96 + j - i) < 2 ^ 64 * 2 ^ 97 := Nat.mul_lt_mul'' hp hd1
        _ < 2 ^ 236 := by decide
    refine @geta_pow_ne (p * 2 ^ 96 * s + p * i) (p * 2 ^ 96 * (s + 1) + p * j)
      ?_ ?_ h1.symm
    · rw [hE]
      exact Nat.lt_add_of_pos_right (Nat.mul_pos hp0 hd0)
    · rw [hE, Nat.add_sub_cancel_left]
      exact hlt
  · have key : ∀ s1 s2, s1 < s2 → s2 < 2 ^ 64 →
        (ranluxpp.ctor mul s1 p)._x ≠ (ranluxpp.ctor mul s2 p)._x := by
      intro s1 s2 h12 h2 heq
      have v1 := (ctor_spec hmul (show s1 < 2 ^ 64 by omega) hp).2.2.2
      have v2 := (ctor_spec hmul h2 hp).2.2.2
      rw [heq, v2] at v1
      have hE : p * 2 ^ 96 * s2 = p * 2 ^ 96 * s1 + p * 2 ^ 96 * (s2 - s1) := by
        rw [← Nat.mul_add, Nat.add_sub_cancel' (le_of_lt h12)]
      have hlt : p * 2 ^ 96 * (s2 - s1) < 2 ^ 236 :=
        calc p * 2 ^ 96 * (s2 - s1) < 2 ^ 64 * 2 ^ 96 * 2 ^ 64 :=
              Nat.mul_lt_mul'' (Nat.mul_lt_mul_of_lt_of_le hp (le_refl _) (by norm_num))
                (show s2 - s1 < 2 ^ 64 by omega)
          _ < 2 ^ 236 := by decide
      refine @geta_pow_ne (p * 2 ^ 96 * s1) (p * 2 ^ 96 * s2) ?_ ?_ v1.symm
      · rw [hE]
        exact Nat.lt_add_of_pos_right
          (Nat.mul_pos (Nat.mul_pos hp0 (by norm_num)) (by omega))
      · rw [hE, Nat.add_sub_cancel_left]
        exact hlt
    intro s1 s2 h1 h2 hne
    rcases Nat.lt_or_gt_of_ne hne with h | h
    · exact key s1 s2 h h2
    · exact fun heq => key s2 s1 h h1 heq.symm

theorem C13_seed_separation_witness :
    MulContract mul9x9mod ∧ 0 < 2048 ∧ 2048 < 2 ^ 64 ∧
      ((ranluxpp.nextstate mul9x9mod)^[5] (ranluxpp.ctor mul9x9mod 7 2048))._x ≠
        ((ranluxpp.nextstate mul9x9mod)^[3] (ranluxpp.ctor mul9x9mod (7 + 1) 2048))._x :=
  ⟨mul9x9mod_contract, by decide, by decide,
    (C13_seed_separation mul9x9mod mul9x9mod_contract 2048 (by decide) (by decide)).1 7 5 3
      (by decide) (by decide) (by decide)⟩

end Ranluxpp
